import Mathlib

/-!
Verification of the wanf configuration-language implementation.

This file shallowly embeds the parts of the wanf repository that the
claims speak about: the two lexers (`lexer.go`), the recursive-descent
parser (`parser.go`), the AST and formatter (`ast.go`), the lint
analyzer and `Lint` entry point (`wanf.go`), import resolution and the
decoder entry points (`decoder.go`, `wanf.go`), and the encoder
(`encoder.go`).  Go byte slices are modelled as `List Nat`, Go strings
as Lean `String`, Go maps as association lists (with a note wherever
iteration order matters), and fallible code returns `Except`/`Option`.
-/

set_option maxHeartbeats 1000000

namespace Wanf

/-- Go `byte`; values are expected to lie in `[0, 256)` but nothing
relies on that bound. -/
abbrev Byte := Nat

/-- The bytes of an ASCII string (used to transcribe the ASCII literals
appearing in the Go source). -/
def strBytes (s : String) : List Byte := s.data.map Char.toNat

/-- `TokenType` from `token.go` (the string constants are modelled as an
enumeration). -/
inductive TokenType where
  | illegal
  | eof
  | ident
  | intTok
  | floatTok
  | stringTok
  | boolTok
  | durTok
  | assign
  | comma
  | semicolon
  | lbrace
  | rbrace
  | lbrack
  | rbrack
  | lparen
  | rparen
  | importTok
  | varTok
  | dollarLbrace
  | commentTok
  | illegalComment
  deriving DecidableEq, Repr

/-- `Token` from `token.go`. -/
structure Token where
  typ : TokenType
  literal : List Byte
  line : Nat
  column : Nat
  deriving DecidableEq, Repr

/-- `LookupIdentifier` from `token.go`: keyword table
\x7bimport, var, true, false\x7d. -/
def lookupIdentifier (lit : List Byte) : TokenType :=
  if lit = strBytes "import" then .importTok
  else if lit = strBytes "var" then .varTok
  else if lit = strBytes "true" then .boolTok
  else if lit = strBytes "false" then .boolTok
  else .ident

/-- `isIdentifierStart` from `lexer.go`. -/
def isIdentifierStart (c : Byte) : Bool :=
  (97 ≤ c && c ≤ 122) || (65 ≤ c && c ≤ 90) || c = 95

/-- `unicode.IsDigit(rune(ch))` for a byte `ch`: among code points 0–255
exactly the ASCII digits are in category Nd. -/
def isDigitByte (c : Byte) : Bool := 48 ≤ c && c ≤ 57

/-- `isIdentifierChar` from `lexer.go`. -/
def isIdentifierChar (c : Byte) : Bool := isIdentifierStart c || isDigitByte c

/-- Whitespace bytes skipped by both lexers: space, tab, CR, LF. -/
def isWhitespaceByte (c : Byte) : Bool := c = 32 || c = 9 || c = 13 || c = 10

/-- Go slice expression `input[a:b]`. -/
def sliceL (xs : List Byte) (a b : Nat) : List Byte := (xs.drop a).take (b - a)

/-! ## The whole-buffer lexer (`Lexer` in `lexer.go`) -/

/-- `Lexer` from `lexer.go`: reads from an in-memory byte slice. -/
structure Lexer where
  input : List Byte
  position : Nat
  readPosition : Nat
  ch : Byte
  line : Nat
  column : Nat
  deriving DecidableEq, Repr

namespace Lexer

/-- `(*Lexer).readChar`. -/
def readChar (l : Lexer) : Lexer :=
  { l with
    ch := l.input.getD l.readPosition 0
    position := l.readPosition
    readPosition := l.readPosition + 1
    column := l.column + 1 }

/-- `(*Lexer).peekChar`. -/
def peekChar (l : Lexer) : Byte := l.input.getD l.readPosition 0

/-- Termination measure for the lexing loops: remaining input plus one
if the current character is not the NUL sentinel. -/
def lexMeasure (l : Lexer) : Nat :=
  (l.input.length + 1 - l.readPosition) + (if l.ch = 0 then 0 else 1)

theorem lexMeasure_readChar {l : Lexer} (h : l.ch ≠ 0) :
    lexMeasure (readChar l) < lexMeasure l := by
  unfold lexMeasure readChar
  simp only [if_neg h]
  rcases Nat.lt_or_ge l.readPosition l.input.length with hlt | hge
  · split <;> omega
  · have h0 : l.input.getD l.readPosition 0 = 0 := by
      rw [List.getD_eq_getElem?_getD, List.getElem?_eq_none hge]
      rfl
    rw [h0]
    have h1 : (if (0 : Byte) = 0 then (0 : Nat) else 1) = 0 := by simp
    rw [h1]
    omega

/-- `(*Lexer).skipWhitespace` (the newline branch bumps the line counter
and resets the column before the `readChar`). -/
def skipWhitespace (l : Lexer) : Lexer :=
  if h : isWhitespaceByte l.ch then
    skipWhitespace (readChar (if l.ch = 10 then { l with line := l.line + 1, column := 0 } else l))
  else l
  termination_by lexMeasure l
  decreasing_by
    have hch : l.ch ≠ 0 := by
      intro h0; rw [h0] at h; simp [isWhitespaceByte] at h
    split
    · calc lexMeasure (readChar { l with line := l.line + 1, column := 0 })
          < lexMeasure { l with line := l.line + 1, column := 0 } := lexMeasure_readChar hch
        _ = lexMeasure l := rfl
    · exact lexMeasure_readChar hch

/-- Loop body of `(*Lexer).readSingleLineComment`:
`for l.ch != '\n' && l.ch != 0 { l.readChar() }`. -/
def slcLoop (l : Lexer) : Lexer :=
  if h : l.ch ≠ 10 ∧ l.ch ≠ 0 then slcLoop (readChar l) else l
  termination_by lexMeasure l
  decreasing_by exact lexMeasure_readChar h.2

/-- `(*Lexer).readSingleLineComment`. -/
def readSingleLineComment (l : Lexer) : List Byte × Lexer :=
  let l' := slcLoop l
  (sliceL l.input l.position l'.position, l')

/-- Loop of `(*Lexer).readUntilEndOfLine`: breaks on `'\n'`, `'\r'` or NUL. -/
def ueolLoop (l : Lexer) : Lexer :=
  if h : ¬(l.ch = 10 ∨ l.ch = 13 ∨ l.ch = 0) then ueolLoop (readChar l) else l
  termination_by lexMeasure l
  decreasing_by exact lexMeasure_readChar (by tauto)

/-- `(*Lexer).readUntilEndOfLine`. -/
def readUntilEndOfLine (l : Lexer) : List Byte × Lexer :=
  let l' := ueolLoop l
  (sliceL l.input l.position l'.position, l')

/-- Loop of `(*Lexer).readIdentifier`. -/
def identLoop (l : Lexer) : Lexer :=
  if h : isIdentifierChar l.ch then identLoop (readChar l) else l
  termination_by lexMeasure l
  decreasing_by
    exact lexMeasure_readChar (by
      intro h0; rw [h0] at h; simp [isIdentifierChar, isIdentifierStart, isDigitByte] at h)

/-- `(*Lexer).readIdentifier`. -/
def readIdentifier (l : Lexer) : List Byte × Lexer :=
  let l' := identLoop l
  (sliceL l.input l.position l'.position, l')

/-- Loop of `(*Lexer).readNumber`; `isFloat` is the loop-local flag set
once the first `'.'` has been consumed. -/
def numLoop (l : Lexer) (isFloat : Bool) : Lexer :=
  if h : isDigitByte l.ch ∨ (l.ch = 46 ∧ isFloat = false) then
    numLoop (readChar l) (if l.ch = 46 then true else isFloat)
  else l
  termination_by lexMeasure l
  decreasing_by
    refine lexMeasure_readChar ?_
    intro h0
    rcases h with h | ⟨h1, _⟩
    · rw [h0] at h; simp [isDigitByte] at h
    · simp [h0] at h1

/-- `(*Lexer).readNumber`. -/
def readNumber (l : Lexer) : List Byte × Lexer :=
  let l' := numLoop l false
  (sliceL l.input l.position l'.position, l')

/-- Loop of `(*Lexer).readString`, in `readChar`-then-test form: the Go
loop body performs a `readChar` and then breaks once the closing quote
or NUL is current, so after the initial `readChar` it is the loop
`while ch ∉ \x7bquote, 0\x7d do readChar`. -/
def strLoop (l : Lexer) (quote : Byte) : Lexer :=
  if h : ¬(l.ch = quote ∨ l.ch = 0) then strLoop (readChar l) quote else l
  termination_by lexMeasure l
  decreasing_by exact lexMeasure_readChar (by tauto)

/-- `(*Lexer).readString`: remembers `position + 1`, scans to the
matching quote (or end of input), slices the bytes in between, and
consumes the closing quote. -/
def readString (l : Lexer) : List Byte × Lexer :=
  let quote := l.ch
  let pos := l.position + 1
  let l2 := strLoop (readChar l) quote
  (sliceL l.input pos l2.position, readChar l2)

/-- Loop of `(*Lexer).readMultiLineComment`; returns the final state and
whether the comment was closed. -/
def mlcLoop (l : Lexer) : Lexer × Bool :=
  if h0 : l.ch = 0 then (l, false)
  else if l.ch = 42 ∧ l.peekChar = 47 then (readChar (readChar l), true)
  else
    mlcLoop (readChar (if l.ch = 10 then { l with line := l.line + 1, column := 0 } else l))
  termination_by lexMeasure l
  decreasing_by
    split
    · calc lexMeasure (readChar { l with line := l.line + 1, column := 0 })
          < lexMeasure { l with line := l.line + 1, column := 0 } := lexMeasure_readChar h0
        _ = lexMeasure l := rfl
    · exact lexMeasure_readChar h0

/-- `(*Lexer).readMultiLineComment`: consumes `/*`, loops, and on the
unclosed case returns `ok = false` (the buffer lexer does not restore
its line/column). -/
def readMultiLineComment (l : Lexer) : List Byte × Lexer × Bool :=
  let pos := l.position
  let r := mlcLoop (readChar (readChar l))
  (sliceL l.input pos r.1.position, r.1, r.2)

/-- `(*Lexer).readDurationSuffix`. -/
def readDurationSuffix (l : Lexer) : Lexer :=
  let l1 :=
    if (l.ch = 109 ∨ l.ch = 117 ∨ l.ch = 110) ∧ l.peekChar = 115 then readChar l else l
  readChar l1

/-- `newToken` from `lexer.go` (`singleCharByteSlices[ch]` is `[ch]`). -/
def newTok (t : TokenType) (ch : Byte) (line column : Nat) : Token :=
  ⟨t, [ch], line, column⟩

/-- The duration-suffix test in `(*Lexer).NextToken`, verbatim:
`ch == 's' || ch == 'm' || ch == 'h' || (ch == 'u' && peek == 's') ||
(ch == 'n' && peek == 's') || (ch == 'm' && peek == 's')`. -/
def durCond (l : Lexer) : Prop :=
  l.ch = 115 ∨ l.ch = 109 ∨ l.ch = 104 ∨ (l.ch = 117 ∧ l.peekChar = 115) ∨
    (l.ch = 110 ∧ l.peekChar = 115) ∨ (l.ch = 109 ∧ l.peekChar = 115)

instance (l : Lexer) : Decidable (durCond l) := by unfold durCond; infer_instance

/-- `(*Lexer).NextToken`, with the Go `switch` on `l.ch` rendered as a
chain of equality tests (the cases are disjoint byte constants, so this
is the same dispatch).  The `EOF` case leaves the token's line and
column at their zero values, exactly as the Go `var tok Token` does. -/
def nextToken (l0 : Lexer) : Token × Lexer :=
  let l := skipWhitespace l0
  let line := l.line
  let col := l.column
  if l.ch = 61 then (newTok .assign l.ch line col, readChar l)
  else if l.ch = 44 then (newTok .comma l.ch line col, readChar l)
  else if l.ch = 59 then (newTok .semicolon l.ch line col, readChar l)
  else if l.ch = 123 then (newTok .lbrace l.ch line col, readChar l)
  else if l.ch = 125 then (newTok .rbrace l.ch line col, readChar l)
  else if l.ch = 91 then (newTok .lbrack l.ch line col, readChar l)
  else if l.ch = 93 then (newTok .rbrack l.ch line col, readChar l)
  else if l.ch = 40 then (newTok .lparen l.ch line col, readChar l)
  else if l.ch = 41 then (newTok .rparen l.ch line col, readChar l)
  else if l.ch = 35 then
    let r := readUntilEndOfLine l
    (⟨.illegalComment, r.1, line, col⟩, r.2)
  else if l.ch = 36 then
    if l.peekChar = 123 then
      (⟨.dollarLbrace, [36, 123], line, col⟩, readChar (readChar l))
    else
      (newTok .illegal l.ch line col, readChar l)
  else if l.ch = 34 ∨ l.ch = 39 ∨ l.ch = 96 then
    let r := readString l
    (⟨.stringTok, r.1, line, col⟩, r.2)
  else if l.ch = 47 then
    if l.peekChar = 47 then
      let r := readSingleLineComment l
      (⟨.commentTok, r.1, line, col⟩, r.2)
    else if l.peekChar = 42 then
      let r := readMultiLineComment l
      if r.2.2 then (⟨.commentTok, r.1, line, col⟩, r.2.1)
      else (⟨.illegal, strBytes "unclosed block comment", line, col⟩, r.2.1)
    else
      (newTok .illegal l.ch line col, readChar l)
  else if l.ch = 0 then (⟨.eof, [], 0, 0⟩, readChar l)
  else if isIdentifierStart l.ch then
    let r := readIdentifier l
    (⟨lookupIdentifier r.1, r.1, line, col⟩, r.2)
  else if isDigitByte l.ch then
    let r := readNumber l
    let l1 := r.2
    if durCond l1 then
      let startPos := l1.position - r.1.length
      let l2 := readDurationSuffix l1
      (⟨.durTok, sliceL l.input startPos l2.position, line, col⟩, l2)
    else if (r.1).contains 46 then
      (⟨.floatTok, r.1, line, col⟩, l1)
    else
      (⟨.intTok, r.1, line, col⟩, l1)
  else
    (newTok .illegal l.ch line col, readChar l)

end Lexer

/-- `NewLexer` from `lexer.go`. -/
def newLexer (input : List Byte) : Lexer :=
  Lexer.readChar { input := input, position := 0, readPosition := 0, ch := 0, line := 1, column := 0 }

/-! ## The incremental-stream lexer (`streamLexer` in `lexer.go`) -/

/-- `streamLexer` from `lexer.go`: the unread part of the stream stands
in for the `bufio.Reader`; the literal buffer is returned functionally. -/
structure StreamLexer where
  rest : List Byte
  ch : Byte
  line : Nat
  column : Nat
  deriving DecidableEq, Repr

namespace StreamLexer

/-- `(*streamLexer).readChar`: `ReadByte` returns the next byte, or an
error (modelled by the NUL sentinel) once the stream is exhausted. -/
def readChar (l : StreamLexer) : StreamLexer :=
  match l.rest with
  | [] => { l with ch := 0, column := l.column + 1 }
  | b :: t => { l with ch := b, rest := t, column := l.column + 1 }

/-- `(*streamLexer).peekChar`. -/
def peekChar (l : StreamLexer) : Byte := l.rest.headD 0

/-- Termination measure, as for the buffer lexer. -/
def sMeasure (l : StreamLexer) : Nat :=
  l.rest.length + (if l.ch = 0 then 0 else 1)

theorem sMeasure_readChar {l : StreamLexer} (h : l.ch ≠ 0) :
    sMeasure (readChar l) < sMeasure l := by
  rcases hr : l.rest with _ | ⟨b, t⟩
  · simp [sMeasure, readChar, hr, h]
  · simp only [sMeasure, readChar, hr, if_neg h]
    split <;> simp <;> omega

/-- `(*streamLexer).skipWhitespace`. -/
def skipWhitespace (l : StreamLexer) : StreamLexer :=
  if h : isWhitespaceByte l.ch then
    skipWhitespace (readChar (if l.ch = 10 then { l with line := l.line + 1, column := 0 } else l))
  else l
  termination_by sMeasure l
  decreasing_by
    have hch : l.ch ≠ 0 := by
      intro h0; rw [h0] at h; simp [isWhitespaceByte] at h
    split
    · calc sMeasure (readChar { l with line := l.line + 1, column := 0 })
          < sMeasure { l with line := l.line + 1, column := 0 } := sMeasure_readChar hch
        _ = sMeasure l := rfl
    · exact sMeasure_readChar hch

/-- `(*streamLexer).readSingleLineComment`: accumulates the current byte
into the literal buffer before each `readChar`. -/
def readSingleLineComment (l : StreamLexer) : List Byte × StreamLexer :=
  if h : l.ch ≠ 10 ∧ l.ch ≠ 0 then
    let r := readSingleLineComment (readChar l)
    (l.ch :: r.1, r.2)
  else ([], l)
  termination_by sMeasure l
  decreasing_by exact sMeasure_readChar h.2

/-- `(*streamLexer).readUntilEndOfLine`. -/
def readUntilEndOfLine (l : StreamLexer) : List Byte × StreamLexer :=
  if h : ¬(l.ch = 10 ∨ l.ch = 13 ∨ l.ch = 0) then
    let r := readUntilEndOfLine (readChar l)
    (l.ch :: r.1, r.2)
  else ([], l)
  termination_by sMeasure l
  decreasing_by exact sMeasure_readChar (by tauto)

/-- `(*streamLexer).readIdentifier`. -/
def readIdentifier (l : StreamLexer) : List Byte × StreamLexer :=
  if h : isIdentifierChar l.ch then
    let r := readIdentifier (readChar l)
    (l.ch :: r.1, r.2)
  else ([], l)
  termination_by sMeasure l
  decreasing_by
    exact sMeasure_readChar (by
      intro h0; rw [h0] at h; simp [isIdentifierChar, isIdentifierStart, isDigitByte] at h)

/-- `(*streamLexer).readNumber`. -/
def readNumber (l : StreamLexer) (isFloat : Bool) : List Byte × StreamLexer :=
  if h : isDigitByte l.ch ∨ (l.ch = 46 ∧ isFloat = false) then
    let r := readNumber (readChar l) (if l.ch = 46 then true else isFloat)
    (l.ch :: r.1, r.2)
  else ([], l)
  termination_by sMeasure l
  decreasing_by
    refine sMeasure_readChar ?_
    intro h0
    rcases h with h | ⟨h1, _⟩
    · rw [h0] at h; simp [isDigitByte] at h
    · simp [h0] at h1

/-- Accumulating loop of `(*streamLexer).readString`, after the initial
`readChar` (same `readChar`-then-test restructuring as for the buffer
lexer). -/
def strAccLoop (l : StreamLexer) (quote : Byte) : List Byte × StreamLexer :=
  if h : ¬(l.ch = quote ∨ l.ch = 0) then
    let r := strAccLoop (readChar l) quote
    (l.ch :: r.1, r.2)
  else ([], l)
  termination_by sMeasure l
  decreasing_by exact sMeasure_readChar (by tauto)

/-- `(*streamLexer).readString`. -/
def readString (l : StreamLexer) (quote : Byte) : List Byte × StreamLexer :=
  let r := strAccLoop (readChar l) quote
  (r.1, readChar r.2)

/-- Loop of `(*streamLexer).readMultiLineComment`; `startLine`/`startCol`
are the saved position to restore on an unclosed comment. -/
def mlcLoop (startLine startCol : Nat) (l : StreamLexer) : List Byte × StreamLexer × Bool :=
  if h0 : l.ch = 0 then ([], { l with line := startLine, column := startCol }, false)
  else if l.ch = 42 ∧ l.peekChar = 47 then
    ([l.ch, (readChar l).ch], readChar (readChar l), true)
  else
    let r := mlcLoop startLine startCol
      (readChar (if l.ch = 10 then { l with line := l.line + 1, column := 0 } else l))
    (l.ch :: r.1, r.2)
  termination_by sMeasure l
  decreasing_by
    split
    · calc sMeasure (readChar { l with line := l.line + 1, column := 0 })
          < sMeasure { l with line := l.line + 1, column := 0 } := sMeasure_readChar h0
        _ = sMeasure l := rfl
    · exact sMeasure_readChar h0

/-- `(*streamLexer).readMultiLineComment`: saves line/column, buffers the
leading `/` and `*`, then loops. -/
def readMultiLineComment (l : StreamLexer) : List Byte × StreamLexer × Bool :=
  let startLine := l.line
  let startCol := l.column
  let l1 := readChar l
  let r := mlcLoop startLine startCol (readChar l1)
  (l.ch :: l1.ch :: r.1, r.2)

/-- `(*streamLexer).readDurationSuffix`. -/
def readDurationSuffix (l : StreamLexer) (prefixBytes : List Byte) : List Byte × StreamLexer :=
  if (l.ch = 109 ∨ l.ch = 117 ∨ l.ch = 110) ∧ l.peekChar = 115 then
    (prefixBytes ++ [l.ch, (readChar l).ch], readChar (readChar l))
  else
    (prefixBytes ++ [l.ch], readChar l)

/-- The duration-suffix test in `(*streamLexer).NextToken` (identical to
the buffer lexer's). -/
def durCond (l : StreamLexer) : Prop :=
  l.ch = 115 ∨ l.ch = 109 ∨ l.ch = 104 ∨ (l.ch = 117 ∧ l.peekChar = 115) ∨
    (l.ch = 110 ∧ l.peekChar = 115) ∨ (l.ch = 109 ∧ l.peekChar = 115)

instance (l : StreamLexer) : Decidable (durCond l) := by unfold durCond; infer_instance

/-- `newToken` for the stream lexer. -/
def newTok (t : TokenType) (ch : Byte) (line column : Nat) : Token :=
  ⟨t, [ch], line, column⟩

/-- `(*streamLexer).NextToken`, with the `switch` rendered as an
equality-test chain exactly as for the buffer lexer. -/
def nextToken (l0 : StreamLexer) : Token × StreamLexer :=
  let l := skipWhitespace l0
  let line := l.line
  let col := l.column
  if l.ch = 61 then (newTok .assign l.ch line col, readChar l)
  else if l.ch = 44 then (newTok .comma l.ch line col, readChar l)
  else if l.ch = 59 then (newTok .semicolon l.ch line col, readChar l)
  else if l.ch = 123 then (newTok .lbrace l.ch line col, readChar l)
  else if l.ch = 125 then (newTok .rbrace l.ch line col, readChar l)
  else if l.ch = 91 then (newTok .lbrack l.ch line col, readChar l)
  else if l.ch = 93 then (newTok .rbrack l.ch line col, readChar l)
  else if l.ch = 40 then (newTok .lparen l.ch line col, readChar l)
  else if l.ch = 41 then (newTok .rparen l.ch line col, readChar l)
  else if l.ch = 35 then
    let r := readUntilEndOfLine l
    (⟨.illegalComment, r.1, line, col⟩, r.2)
  else if l.ch = 36 then
    if l.peekChar = 123 then
      (⟨.dollarLbrace, [36, 123], line, col⟩, readChar (readChar l))
    else
      (newTok .illegal l.ch line col, readChar l)
  else if l.ch = 34 ∨ l.ch = 39 ∨ l.ch = 96 then
    let r := readString l l.ch
    (⟨.stringTok, r.1, line, col⟩, r.2)
  else if l.ch = 47 then
    if l.peekChar = 47 then
      let r := readSingleLineComment l
      (⟨.commentTok, r.1, line, col⟩, r.2)
    else if l.peekChar = 42 then
      let r := readMultiLineComment l
      if r.2.2 then (⟨.commentTok, r.1, line, col⟩, r.2.1)
      else (⟨.illegal, strBytes "unclosed block comment", line, col⟩, r.2.1)
    else
      (newTok .illegal l.ch line col, readChar l)
  else if l.ch = 0 then (⟨.eof, [], 0, 0⟩, readChar l)
  else if isIdentifierStart l.ch then
    let r := readIdentifier l
    (⟨lookupIdentifier r.1, r.1, line, col⟩, r.2)
  else if isDigitByte l.ch then
    let r := readNumber l false
    let l1 := r.2
    if durCond l1 then
      let r2 := readDurationSuffix l1 r.1
      (⟨.durTok, r2.1, line, col⟩, r2.2)
    else if (r.1).contains 46 then
      (⟨.floatTok, r.1, line, col⟩, l1)
    else
      (⟨.intTok, r.1, line, col⟩, l1)
  else
    (newTok .illegal l.ch line col, readChar l)

end StreamLexer

/-- `newStreamLexer` from `lexer.go`. -/
def newStreamLexer (input : List Byte) : StreamLexer :=
  StreamLexer.readChar { rest := input, ch := 0, line := 1, column := 0 }

/-! ## Equivalence of the two lexers

The buffer lexer refines the stream lexer: abstracting a buffer state to
the not-yet-read suffix of the input gives a stream state, and the two
`NextToken`s move in lockstep.  The single asymmetry in the source is
that on an unclosed block comment the stream lexer restores its
line/column to the comment's start while the buffer lexer does not; at
that point both lexers sit on the NUL sentinel, so every later token is
the position-less `EOF` token in both, and the token sequences up to and
including the first `EOF` still agree. -/

/-- Abstraction from a buffer-lexer state to a stream-lexer state. -/
def abstr (l : Lexer) : StreamLexer :=
  ⟨l.input.drop l.readPosition, l.ch, l.line, l.column⟩

/-- Invariant of every buffer-lexer state that has performed at least
one `readChar`: `readPosition` is one past `position`, and `ch` caches
the byte at `position` (NUL past the end). -/
def LexInv (l : Lexer) : Prop :=
  l.readPosition = l.position + 1 ∧ l.ch = l.input.getD l.position 0

theorem lexInv_readChar (l : Lexer) : LexInv (Lexer.readChar l) :=
  ⟨rfl, rfl⟩

theorem getD_eq_headD_drop (xs : List Byte) (n : Nat) :
    xs.getD n 0 = (xs.drop n).headD 0 := by
  rw [List.getD_eq_getElem?_getD, ← List.head?_drop]
  rcases hr : xs.drop n with _ | ⟨b, t⟩ <;> simp [hr]

theorem pos_lt_of_ch_ne_zero {l : Lexer} (hInv : LexInv l) (h : l.ch ≠ 0) :
    l.position < l.input.length := by
  by_contra hge
  push_neg at hge
  apply h
  rw [hInv.2, List.getD_eq_getElem?_getD, List.getElem?_eq_none_iff.mpr hge]
  rfl

theorem abstr_readChar (l : Lexer) :
    abstr (Lexer.readChar l) = StreamLexer.readChar (abstr l) := by
  have h2 : l.input.drop (l.readPosition + 1) = (l.input.drop l.readPosition).tail :=
    (List.tail_drop l.input l.readPosition).symm
  have hh : l.input[l.readPosition]?.getD 0 = (l.input.drop l.readPosition).headD 0 := by
    rw [← List.getD_eq_getElem?_getD]
    exact getD_eq_headD_drop _ _
  rcases hr : l.input.drop l.readPosition with _ | ⟨b, t⟩ <;>
    rw [hr] at h2 hh <;>
    simp [abstr, Lexer.readChar, StreamLexer.readChar, hr, h2, hh]

theorem abstr_peekChar (l : Lexer) : l.peekChar = (abstr l).peekChar := by
  rw [Lexer.peekChar, StreamLexer.peekChar, abstr, getD_eq_headD_drop]

theorem streamReadChar_ch (s : StreamLexer) :
    (StreamLexer.readChar s).ch = s.peekChar := by
  rcases hr : s.rest with _ | ⟨b, t⟩ <;> simp [StreamLexer.readChar, StreamLexer.peekChar, hr]

theorem sliceL_self (xs : List Byte) (a : Nat) : sliceL xs a a = [] := by
  simp [sliceL]

theorem sliceL_cons {xs : List Byte} {a b : Nat} (ha : a < xs.length) (hab : a < b) :
    sliceL xs a b = xs.getD a 0 :: sliceL xs (a + 1) b := by
  unfold sliceL
  rw [List.drop_eq_getElem_cons ha, show b - a = (b - (a + 1)) + 1 by omega, List.take_succ_cons]
  congr 1
  rw [List.getD_eq_getElem?_getD, List.getElem?_eq_getElem ha]
  rfl

theorem sliceL_append {xs : List Byte} {a b c : Nat} (hab : a ≤ b) (hbc : b ≤ c) :
    sliceL xs a c = sliceL xs a b ++ sliceL xs b c := by
  unfold sliceL
  rw [show c - a = (b - a) + (c - b) by omega, List.take_add, List.drop_drop,
    show a + (b - a) = b by omega]

theorem sliceL_length_of_le {xs : List Byte} {a b : Nat} (hab : a ≤ b) (hb : b ≤ xs.length) :
    (sliceL xs a b).length = b - a := by
  unfold sliceL
  rw [List.length_take, List.length_drop]
  omega

theorem skipWhitespace_spec : ∀ l : Lexer, LexInv l →
    LexInv (Lexer.skipWhitespace l) ∧
    abstr (Lexer.skipWhitespace l) = StreamLexer.skipWhitespace (abstr l) := by
  intro l
  induction l using Lexer.skipWhitespace.induct with
  | case1 l h ih =>
    intro _
    obtain ⟨ih1, ih2⟩ := ih (lexInv_readChar _)
    rw [Lexer.skipWhitespace, StreamLexer.skipWhitespace,
      dif_pos h, dif_pos (show isWhitespaceByte (abstr l).ch from h)]
    have E : abstr (Lexer.readChar (if l.ch = 10 then { l with line := l.line + 1, column := 0 } else l)) =
        StreamLexer.readChar
          (if (abstr l).ch = 10 then { abstr l with line := (abstr l).line + 1, column := 0 } else abstr l) := by
      by_cases h10 : l.ch = 10
      · rw [if_pos h10, if_pos (show (abstr l).ch = 10 from h10), abstr_readChar]
        rfl
      · rw [if_neg h10, if_neg (show ¬(abstr l).ch = 10 from h10), abstr_readChar]
    exact ⟨ih1, ih2.trans (congrArg _ E)⟩
  | case2 l h =>
    intro hInv
    rw [Lexer.skipWhitespace, StreamLexer.skipWhitespace]
    rw [dif_neg h, dif_neg (show ¬isWhitespaceByte (abstr l).ch from h)]
    exact ⟨hInv, rfl⟩

theorem identLoop_spec : ∀ l : Lexer, LexInv l →
    LexInv (Lexer.identLoop l) ∧
    (Lexer.identLoop l).input = l.input ∧
    l.position ≤ (Lexer.identLoop l).position ∧
    sliceL l.input l.position (Lexer.identLoop l).position = (StreamLexer.readIdentifier (abstr l)).1 ∧
    abstr (Lexer.identLoop l) = (StreamLexer.readIdentifier (abstr l)).2 := by
  intro l
  induction l using Lexer.identLoop.induct with
  | case1 l h ih =>
    intro hInv
    have hch : l.ch ≠ 0 := by
      intro h0
      rw [h0] at h
      simp [isIdentifierChar, isIdentifierStart, isDigitByte] at h
    have hpos := pos_lt_of_ch_ne_zero hInv hch
    obtain ⟨ih1, ih2, ih3, ih4, ih5⟩ := ih (lexInv_readChar _)
    rw [Lexer.identLoop, dif_pos h, StreamLexer.readIdentifier,
      dif_pos (show isIdentifierChar (abstr l).ch from h)]
    have hrc : (Lexer.readChar l).position = l.position + 1 := by
      show l.readPosition = l.position + 1
      exact hInv.1
    have hin : (Lexer.readChar l).input = l.input := rfl
    refine ⟨ih1, ih2.trans hin, by omega, ?_, ?_⟩
    · rw [sliceL_cons hpos (by omega), ← hInv.2]
      rw [hin, hrc] at ih4
      rw [ih4, abstr_readChar]
      rfl
    · rw [ih5, abstr_readChar]
  | case2 l h =>
    intro hInv
    rw [Lexer.identLoop, dif_neg h, StreamLexer.readIdentifier,
      dif_neg (show ¬isIdentifierChar (abstr l).ch from h)]
    exact ⟨hInv, rfl, le_refl _, sliceL_self _ _, rfl⟩

theorem lt_of_getD_ne_zero {xs : List Byte} {n : Nat} (h : xs.getD n 0 ≠ 0) :
    n < xs.length := by
  by_contra hge
  push_neg at hge
  apply h
  rw [List.getD_eq_getElem?_getD, List.getElem?_eq_none_iff.mpr hge]
  rfl

theorem slcLoop_spec : ∀ l : Lexer, LexInv l →
    LexInv (Lexer.slcLoop l) ∧
    (Lexer.slcLoop l).input = l.input ∧
    l.position ≤ (Lexer.slcLoop l).position ∧
    sliceL l.input l.position (Lexer.slcLoop l).position = (StreamLexer.readSingleLineComment (abstr l)).1 ∧
    abstr (Lexer.slcLoop l) = (StreamLexer.readSingleLineComment (abstr l)).2 := by
  intro l
  induction l using Lexer.slcLoop.induct with
  | case1 l h ih =>
    intro hInv
    have hpos := pos_lt_of_ch_ne_zero hInv h.2
    obtain ⟨ih1, ih2, ih3, ih4, ih5⟩ := ih (lexInv_readChar _)
    rw [Lexer.slcLoop, dif_pos h, StreamLexer.readSingleLineComment,
      dif_pos (show (abstr l).ch ≠ 10 ∧ (abstr l).ch ≠ 0 from h)]
    have hrc : (Lexer.readChar l).position = l.position + 1 := by
      show l.readPosition = l.position + 1
      exact hInv.1
    have hin : (Lexer.readChar l).input = l.input := rfl
    refine ⟨ih1, ih2.trans hin, by omega, ?_, ?_⟩
    · rw [sliceL_cons hpos (by omega), ← hInv.2]
      rw [hin, hrc] at ih4
      rw [ih4, abstr_readChar]
      rfl
    · rw [ih5, abstr_readChar]
  | case2 l h =>
    intro hInv
    rw [Lexer.slcLoop, dif_neg h, StreamLexer.readSingleLineComment,
      dif_neg (show ¬((abstr l).ch ≠ 10 ∧ (abstr l).ch ≠ 0) from h)]
    exact ⟨hInv, rfl, le_refl _, sliceL_self _ _, rfl⟩

theorem ueolLoop_spec : ∀ l : Lexer, LexInv l →
    LexInv (Lexer.ueolLoop l) ∧
    (Lexer.ueolLoop l).input = l.input ∧
    l.position ≤ (Lexer.ueolLoop l).position ∧
    sliceL l.input l.position (Lexer.ueolLoop l).position = (StreamLexer.readUntilEndOfLine (abstr l)).1 ∧
    abstr (Lexer.ueolLoop l) = (StreamLexer.readUntilEndOfLine (abstr l)).2 := by
  intro l
  induction l using Lexer.ueolLoop.induct with
  | case1 l h ih =>
    intro hInv
    have hpos := pos_lt_of_ch_ne_zero hInv (by tauto)
    obtain ⟨ih1, ih2, ih3, ih4, ih5⟩ := ih (lexInv_readChar _)
    rw [Lexer.ueolLoop, dif_pos h, StreamLexer.readUntilEndOfLine,
      dif_pos (show ¬((abstr l).ch = 10 ∨ (abstr l).ch = 13 ∨ (abstr l).ch = 0) from h)]
    have hrc : (Lexer.readChar l).position = l.position + 1 := by
      show l.readPosition = l.position + 1
      exact hInv.1
    have hin : (Lexer.readChar l).input = l.input := rfl
    refine ⟨ih1, ih2.trans hin, by omega, ?_, ?_⟩
    · rw [sliceL_cons hpos (by omega), ← hInv.2]
      rw [hin, hrc] at ih4
      rw [ih4, abstr_readChar]
      rfl
    · rw [ih5, abstr_readChar]
  | case2 l h =>
    intro hInv
    rw [Lexer.ueolLoop, dif_neg h, StreamLexer.readUntilEndOfLine,
      dif_neg (show ¬¬((abstr l).ch = 10 ∨ (abstr l).ch = 13 ∨ (abstr l).ch = 0) from h)]
    exact ⟨hInv, rfl, le_refl _, sliceL_self _ _, rfl⟩

theorem numLoop_spec : ∀ (l : Lexer) (f : Bool), LexInv l →
    LexInv (Lexer.numLoop l f) ∧
    (Lexer.numLoop l f).input = l.input ∧
    l.position ≤ (Lexer.numLoop l f).position ∧
    sliceL l.input l.position (Lexer.numLoop l f).position = (StreamLexer.readNumber (abstr l) f).1 ∧
    (sliceL l.input l.position (Lexer.numLoop l f).position).length =
      (Lexer.numLoop l f).position - l.position ∧
    abstr (Lexer.numLoop l f) = (StreamLexer.readNumber (abstr l) f).2 := by
  intro l f
  induction l, f using Lexer.numLoop.induct with
  | case1 l f h ih =>
    intro hInv
    have hch : l.ch ≠ 0 := by
      rcases h with h | ⟨h1, _⟩
      · intro h0; rw [h0] at h; simp [isDigitByte] at h
      · intro h0; simp [h0] at h1
    have hpos := pos_lt_of_ch_ne_zero hInv hch
    obtain ⟨ih1, ih2, ih3, ih4, ih5, ih6⟩ := ih (lexInv_readChar _)
    simp only [dite_eq_ite] at ih1 ih2 ih3 ih4 ih5 ih6
    rw [Lexer.numLoop, dif_pos h, StreamLexer.readNumber,
      dif_pos (show isDigitByte (abstr l).ch ∨ ((abstr l).ch = 46 ∧ f = false) from h)]
    have hrc : (Lexer.readChar l).position = l.position + 1 := by
      show l.readPosition = l.position + 1
      exact hInv.1
    have hin : (Lexer.readChar l).input = l.input := rfl
    rw [hin, hrc] at ih4 ih5
    refine ⟨ih1, ih2.trans hin, by omega, ?_, ?_, ?_⟩
    · rw [sliceL_cons hpos (by omega), ← hInv.2]
      rw [ih4, abstr_readChar]
      rfl
    · rw [sliceL_cons hpos (by omega)]
      simp only [List.length_cons, ih5]
      omega
    · rw [ih6, abstr_readChar]
      rfl
  | case2 l f h =>
    intro hInv
    rw [Lexer.numLoop, dif_neg h, StreamLexer.readNumber,
      dif_neg (show ¬(isDigitByte (abstr l).ch ∨ ((abstr l).ch = 46 ∧ f = false)) from h)]
    exact ⟨hInv, rfl, le_refl _, sliceL_self _ _, by rw [sliceL_self]; simp, rfl⟩

theorem strLoop_spec : ∀ (l : Lexer) (q : Byte), LexInv l →
    LexInv (Lexer.strLoop l q) ∧
    (Lexer.strLoop l q).input = l.input ∧
    l.position ≤ (Lexer.strLoop l q).position ∧
    sliceL l.input l.position (Lexer.strLoop l q).position = (StreamLexer.strAccLoop (abstr l) q).1 ∧
    abstr (Lexer.strLoop l q) = (StreamLexer.strAccLoop (abstr l) q).2 := by
  intro l q
  induction l, q using Lexer.strLoop.induct with
  | case1 l q h ih =>
    intro hInv
    have hpos := pos_lt_of_ch_ne_zero hInv (by tauto)
    obtain ⟨ih1, ih2, ih3, ih4, ih5⟩ := ih (lexInv_readChar _)
    rw [Lexer.strLoop, dif_pos h, StreamLexer.strAccLoop,
      dif_pos (show ¬((abstr l).ch = q ∨ (abstr l).ch = 0) from h)]
    have hrc : (Lexer.readChar l).position = l.position + 1 := by
      show l.readPosition = l.position + 1
      exact hInv.1
    have hin : (Lexer.readChar l).input = l.input := rfl
    rw [hin, hrc] at ih4
    refine ⟨ih1, ih2.trans hin, by omega, ?_, ?_⟩
    · rw [sliceL_cons hpos (by omega), ← hInv.2]
      rw [ih4, abstr_readChar]
      rfl
    · rw [ih5, abstr_readChar]
  | case2 l q h =>
    intro hInv
    rw [Lexer.strLoop, dif_neg h, StreamLexer.strAccLoop,
      dif_neg (show ¬¬((abstr l).ch = q ∨ (abstr l).ch = 0) from h)]
    exact ⟨hInv, rfl, le_refl _, sliceL_self _ _, rfl⟩

theorem readString_spec (l : Lexer) (hInv : LexInv l) :
    (Lexer.readString l).1 = (StreamLexer.readString (abstr l) l.ch).1 ∧
    abstr (Lexer.readString l).2 = (StreamLexer.readString (abstr l) l.ch).2 ∧
    LexInv (Lexer.readString l).2 := by
  obtain ⟨s1, s2, s3, s4, s5⟩ := strLoop_spec (Lexer.readChar l) l.ch (lexInv_readChar l)
  have hrc : (Lexer.readChar l).position = l.position + 1 := by
    show l.readPosition = l.position + 1
    exact hInv.1
  have hin : (Lexer.readChar l).input = l.input := rfl
  rw [hin, hrc] at s4
  constructor
  · show sliceL l.input (l.position + 1) (Lexer.strLoop (Lexer.readChar l) l.ch).position =
      (StreamLexer.strAccLoop (StreamLexer.readChar (abstr l)) l.ch).1
    rw [s4, abstr_readChar]
  constructor
  · show abstr (Lexer.readChar (Lexer.strLoop (Lexer.readChar l) l.ch)) =
      StreamLexer.readChar (StreamLexer.strAccLoop (StreamLexer.readChar (abstr l)) l.ch).2
    rw [abstr_readChar, s5, abstr_readChar]
  · exact lexInv_readChar _

theorem readDurationSuffix_spec (l : Lexer) (hInv : LexInv l) (hch : l.ch ≠ 0) (p : List Byte) :
    (StreamLexer.readDurationSuffix (abstr l) p).1 =
      p ++ sliceL l.input l.position (Lexer.readDurationSuffix l).position ∧
    (StreamLexer.readDurationSuffix (abstr l) p).2 = abstr (Lexer.readDurationSuffix l) ∧
    LexInv (Lexer.readDurationSuffix l) := by
  have hpos := pos_lt_of_ch_ne_zero hInv hch
  have hrp : l.readPosition = l.position + 1 := hInv.1
  by_cases hc : (l.ch = 109 ∨ l.ch = 117 ∨ l.ch = 110) ∧ l.peekChar = 115
  · have hc' : ((abstr l).ch = 109 ∨ (abstr l).ch = 117 ∨ (abstr l).ch = 110) ∧
        (abstr l).peekChar = 115 := ⟨hc.1, (abstr_peekChar l) ▸ hc.2⟩
    have hpk : l.peekChar ≠ 0 := by rw [hc.2]; decide
    have hpos1 : l.position + 1 < l.input.length := by
      apply @lt_of_getD_ne_zero l.input (l.position + 1)
      rw [← hrp]
      exact hpk
    rw [Lexer.readDurationSuffix, StreamLexer.readDurationSuffix, if_pos hc, if_pos hc']
    have hend : (Lexer.readChar (Lexer.readChar l)).position = l.position + 2 := by
      show (Lexer.readChar l).readPosition = l.position + 2
      show l.readPosition + 1 = l.position + 2
      omega
    refine ⟨?_, ?_, lexInv_readChar _⟩
    · rw [hend, sliceL_cons hpos (by omega), sliceL_cons hpos1 (by omega), sliceL_self,
        ← hInv.2, streamReadChar_ch, ← abstr_peekChar, ← hrp]
      rfl
    · rw [abstr_readChar, abstr_readChar]
  · have hc' : ¬(((abstr l).ch = 109 ∨ (abstr l).ch = 117 ∨ (abstr l).ch = 110) ∧
        (abstr l).peekChar = 115) := by
      intro hcontra
      exact hc ⟨hcontra.1, (abstr_peekChar l) ▸ hcontra.2⟩
    rw [Lexer.readDurationSuffix, StreamLexer.readDurationSuffix, if_neg hc, if_neg hc']
    have hend : (Lexer.readChar l).position = l.position + 1 := by
      show l.readPosition = l.position + 1
      exact hInv.1
    refine ⟨?_, ?_, lexInv_readChar _⟩
    · rw [hend, sliceL_cons hpos (by omega), sliceL_self, ← hInv.2]
      rfl
    · rw [abstr_readChar]

theorem mlcLoop_spec : ∀ (l : Lexer) (sl sc : Nat), LexInv l →
    (Lexer.mlcLoop l).2 = (StreamLexer.mlcLoop sl sc (abstr l)).2.2 ∧
    (Lexer.mlcLoop l).1.input = l.input ∧
    l.position ≤ (Lexer.mlcLoop l).1.position ∧
    ((Lexer.mlcLoop l).2 = true →
      LexInv (Lexer.mlcLoop l).1 ∧
      sliceL l.input l.position (Lexer.mlcLoop l).1.position = (StreamLexer.mlcLoop sl sc (abstr l)).1 ∧
      abstr (Lexer.mlcLoop l).1 = (StreamLexer.mlcLoop sl sc (abstr l)).2.1) ∧
    ((Lexer.mlcLoop l).2 = false →
      (Lexer.mlcLoop l).1.ch = 0 ∧ (StreamLexer.mlcLoop sl sc (abstr l)).2.1.ch = 0) := by
  intro l sl sc
  induction l using Lexer.mlcLoop.induct with
  | case1 l h0 =>
    intro _
    rw [Lexer.mlcLoop, dif_pos h0, StreamLexer.mlcLoop, dif_pos (show (abstr l).ch = 0 from h0)]
    refine ⟨rfl, rfl, le_refl _, ?_, ?_⟩
    · intro hc
      simp at hc
    · intro _
      exact ⟨h0, h0⟩
  | case2 l h0 h =>
    intro hInv
    have h' : (abstr l).ch = 42 ∧ (abstr l).peekChar = 47 := ⟨h.1, (abstr_peekChar l) ▸ h.2⟩
    rw [Lexer.mlcLoop, dif_neg h0, if_pos h, StreamLexer.mlcLoop,
      dif_neg (show ¬(abstr l).ch = 0 from h0), if_pos h']
    have hpos := pos_lt_of_ch_ne_zero hInv h0
    have hrp : l.readPosition = l.position + 1 := hInv.1
    have hpk : l.peekChar ≠ 0 := by rw [h.2]; decide
    have hpos1 : l.position + 1 < l.input.length := by
      apply @lt_of_getD_ne_zero l.input (l.position + 1)
      rw [← hrp]
      exact hpk
    have hend : (Lexer.readChar (Lexer.readChar l)).position = l.position + 2 := by
      show (Lexer.readChar l).readPosition = l.position + 2
      show l.readPosition + 1 = l.position + 2
      omega
    refine ⟨rfl, rfl, by rw [hend]; omega, ?_, ?_⟩
    · intro _
      refine ⟨lexInv_readChar _, ?_, by rw [abstr_readChar, abstr_readChar]⟩
      rw [hend, sliceL_cons hpos (by omega), sliceL_cons hpos1 (by omega), sliceL_self,
        ← hInv.2, streamReadChar_ch, ← abstr_peekChar, ← hrp]
      rfl
    · intro hc
      simp at hc
  | case3 l h0 h ih =>
    intro hInv
    have h' : ¬((abstr l).ch = 42 ∧ (abstr l).peekChar = 47) := by
      intro hcontra
      exact h ⟨hcontra.1, (abstr_peekChar l) ▸ hcontra.2⟩
    obtain ⟨ih1, ih2, ih3, ih4, ih5⟩ := ih (lexInv_readChar _)
    simp only [dite_eq_ite] at ih1 ih2 ih3 ih4 ih5
    rw [Lexer.mlcLoop, dif_neg h0, if_neg h, StreamLexer.mlcLoop,
      dif_neg (show ¬(abstr l).ch = 0 from h0), if_neg h']
    have hpos := pos_lt_of_ch_ne_zero hInv h0
    have E : abstr (Lexer.readChar (if l.ch = 10 then { l with line := l.line + 1, column := 0 } else l)) =
        StreamLexer.readChar
          (if (abstr l).ch = 10 then { abstr l with line := (abstr l).line + 1, column := 0 } else abstr l) := by
      by_cases h10 : l.ch = 10
      · rw [if_pos h10, if_pos (show (abstr l).ch = 10 from h10), abstr_readChar]
        rfl
      · rw [if_neg h10, if_neg (show ¬(abstr l).ch = 10 from h10), abstr_readChar]
    rw [← E]
    have hrc : (Lexer.readChar (if l.ch = 10 then { l with line := l.line + 1, column := 0 } else l)).position =
        l.position + 1 := by
      by_cases h10 : l.ch = 10
      · rw [if_pos h10]
        exact hInv.1
      · rw [if_neg h10]
        exact hInv.1
    have hin : (Lexer.readChar (if l.ch = 10 then { l with line := l.line + 1, column := 0 } else l)).input =
        l.input := by
      by_cases h10 : l.ch = 10
      · rw [if_pos h10]
        rfl
      · rw [if_neg h10]
        rfl
    rw [hin] at ih2
    rw [hrc] at ih3
    rw [hin, hrc] at ih4
    refine ⟨ih1, ih2, by omega, ?_, ih5⟩
    intro hok
    obtain ⟨j1, j2, j3⟩ := ih4 hok
    refine ⟨j1, ?_, j3⟩
    rw [sliceL_cons hpos (by omega), ← hInv.2, j2]
    rfl

theorem readMultiLineComment_spec (l : Lexer) (hInv : LexInv l) (hch : l.ch = 47)
    (hpk : l.peekChar = 42) :
    (Lexer.readMultiLineComment l).2.2 = (StreamLexer.readMultiLineComment (abstr l)).2.2 ∧
    ((Lexer.readMultiLineComment l).2.2 = true →
      (Lexer.readMultiLineComment l).1 = (StreamLexer.readMultiLineComment (abstr l)).1 ∧
      abstr (Lexer.readMultiLineComment l).2.1 = (StreamLexer.readMultiLineComment (abstr l)).2.1 ∧
      LexInv (Lexer.readMultiLineComment l).2.1) ∧
    ((Lexer.readMultiLineComment l).2.2 = false →
      (Lexer.readMultiLineComment l).2.1.ch = 0 ∧
      (StreamLexer.readMultiLineComment (abstr l)).2.1.ch = 0) := by
  have hpos := pos_lt_of_ch_ne_zero hInv (by rw [hch]; decide)
  have hrp : l.readPosition = l.position + 1 := hInv.1
  have hpos1 : l.position + 1 < l.input.length := by
    apply @lt_of_getD_ne_zero l.input (l.position + 1)
    rw [← hrp]
    show l.peekChar ≠ 0
    rw [hpk]
    decide
  have hl2 : (Lexer.readChar (Lexer.readChar l)).position = l.position + 2 := by
    show (Lexer.readChar l).readPosition = l.position + 2
    show l.readPosition + 1 = l.position + 2
    omega
  have hl2in : (Lexer.readChar (Lexer.readChar l)).input = l.input := rfl
  obtain ⟨m1, m2, m3, m4, m5⟩ :=
    mlcLoop_spec (Lexer.readChar (Lexer.readChar l)) (abstr l).line (abstr l).column
      (lexInv_readChar _)
  rw [hl2in] at m2
  rw [hl2] at m3
  rw [hl2in, hl2] at m4
  have habs2 : abstr (Lexer.readChar (Lexer.readChar l)) =
      StreamLexer.readChar (StreamLexer.readChar (abstr l)) := by
    rw [abstr_readChar, abstr_readChar]
  rw [habs2] at m1 m4 m5
  refine ⟨m1, ?_, m5⟩
  intro hok
  obtain ⟨j1, j2, j3⟩ := m4 hok
  refine ⟨?_, j3, j1⟩
  show sliceL l.input l.position (Lexer.mlcLoop (Lexer.readChar (Lexer.readChar l))).1.position =
    (abstr l).ch :: (StreamLexer.readChar (abstr l)).ch ::
      (StreamLexer.mlcLoop (abstr l).line (abstr l).column
        (StreamLexer.readChar (StreamLexer.readChar (abstr l)))).1
  rw [sliceL_cons hpos (by omega), sliceL_cons hpos1 (by omega), ← hInv.2, j2,
    streamReadChar_ch, ← abstr_peekChar, ← hrp]
  rfl

theorem readUntilEndOfLine_equiv (m : Lexer) (hInv : LexInv m) :
    (Lexer.readUntilEndOfLine m).1 = (StreamLexer.readUntilEndOfLine (abstr m)).1 ∧
    abstr (Lexer.readUntilEndOfLine m).2 = (StreamLexer.readUntilEndOfLine (abstr m)).2 ∧
    LexInv (Lexer.readUntilEndOfLine m).2 := by
  obtain ⟨s1, _, _, s4, s5⟩ := ueolLoop_spec m hInv
  exact ⟨s4, s5, s1⟩

theorem readSingleLineComment_equiv (m : Lexer) (hInv : LexInv m) :
    (Lexer.readSingleLineComment m).1 = (StreamLexer.readSingleLineComment (abstr m)).1 ∧
    abstr (Lexer.readSingleLineComment m).2 = (StreamLexer.readSingleLineComment (abstr m)).2 ∧
    LexInv (Lexer.readSingleLineComment m).2 := by
  obtain ⟨s1, _, _, s4, s5⟩ := slcLoop_spec m hInv
  exact ⟨s4, s5, s1⟩

theorem readIdentifier_equiv (m : Lexer) (hInv : LexInv m) :
    (Lexer.readIdentifier m).1 = (StreamLexer.readIdentifier (abstr m)).1 ∧
    abstr (Lexer.readIdentifier m).2 = (StreamLexer.readIdentifier (abstr m)).2 ∧
    LexInv (Lexer.readIdentifier m).2 := by
  obtain ⟨s1, _, _, s4, s5⟩ := identLoop_spec m hInv
  exact ⟨s4, s5, s1⟩

theorem durCond_ch_ne_zero {l : Lexer} (h : Lexer.durCond l) : l.ch ≠ 0 := by
  rcases h with h | h | h | ⟨h, _⟩ | ⟨h, _⟩ | ⟨h, _⟩ <;> rw [h] <;> decide

theorem readDurationSuffix_pos_le (l : Lexer) (hInv : LexInv l) :
    l.position ≤ (Lexer.readDurationSuffix l).position := by
  unfold Lexer.readDurationSuffix
  have hrp := hInv.1
  split
  · show (Lexer.readChar l).readPosition ≥ _
    show l.readPosition + 1 ≥ _
    omega
  · show l.readPosition ≥ _
    omega

/-- One `NextToken` step: from invariant-related states both lexers emit
the same token, and afterwards either the states are related again or
both lexers have hit the NUL sentinel (unclosed block comment), after
which every token is the position-less `EOF` in both. -/
theorem nextToken_equiv (l : Lexer) (hInv : LexInv l) :
    (Lexer.nextToken l).1 = (StreamLexer.nextToken (abstr l)).1 ∧
    ((LexInv (Lexer.nextToken l).2 ∧
        abstr (Lexer.nextToken l).2 = (StreamLexer.nextToken (abstr l)).2) ∨
      ((Lexer.nextToken l).2.ch = 0 ∧ (StreamLexer.nextToken (abstr l)).2.ch = 0)) := by
  obtain ⟨hmInv, hmab⟩ := skipWhitespace_spec l hInv
  simp only [Lexer.nextToken, StreamLexer.nextToken]
  rw [← hmab]
  set m := Lexer.skipWhitespace l with hm
  rw [show (abstr m).ch = m.ch from rfl, show (abstr m).line = m.line from rfl,
    show (abstr m).column = m.column from rfl]
  rw [← abstr_peekChar m]
  by_cases h1 : m.ch = 61
  · simp only [if_pos h1]
    exact ⟨rfl, Or.inl ⟨lexInv_readChar _, abstr_readChar m⟩⟩
  simp only [if_neg h1]
  by_cases h2 : m.ch = 44
  · simp only [if_pos h2]
    exact ⟨rfl, Or.inl ⟨lexInv_readChar _, abstr_readChar m⟩⟩
  simp only [if_neg h2]
  by_cases h3 : m.ch = 59
  · simp only [if_pos h3]
    exact ⟨rfl, Or.inl ⟨lexInv_readChar _, abstr_readChar m⟩⟩
  simp only [if_neg h3]
  by_cases h4 : m.ch = 123
  · simp only [if_pos h4]
    exact ⟨rfl, Or.inl ⟨lexInv_readChar _, abstr_readChar m⟩⟩
  simp only [if_neg h4]
  by_cases h5 : m.ch = 125
  · simp only [if_pos h5]
    exact ⟨rfl, Or.inl ⟨lexInv_readChar _, abstr_readChar m⟩⟩
  simp only [if_neg h5]
  by_cases h6 : m.ch = 91
  · simp only [if_pos h6]
    exact ⟨rfl, Or.inl ⟨lexInv_readChar _, abstr_readChar m⟩⟩
  simp only [if_neg h6]
  by_cases h7 : m.ch = 93
  · simp only [if_pos h7]
    exact ⟨rfl, Or.inl ⟨lexInv_readChar _, abstr_readChar m⟩⟩
  simp only [if_neg h7]
  by_cases h8 : m.ch = 40
  · simp only [if_pos h8]
    exact ⟨rfl, Or.inl ⟨lexInv_readChar _, abstr_readChar m⟩⟩
  simp only [if_neg h8]
  by_cases h9 : m.ch = 41
  · simp only [if_pos h9]
    exact ⟨rfl, Or.inl ⟨lexInv_readChar _, abstr_readChar m⟩⟩
  simp only [if_neg h9]
  by_cases h10 : m.ch = 35
  · simp only [if_pos h10]
    obtain ⟨e1, e2, e3⟩ := readUntilEndOfLine_equiv m hmInv
    refine ⟨?_, Or.inl ⟨e3, e2⟩⟩
    rw [e1]
  simp only [if_neg h10]
  by_cases h11 : m.ch = 36
  · simp only [if_pos h11]
    by_cases hp : m.peekChar = 123
    · simp only [if_pos hp]
      exact ⟨by trivial, Or.inl ⟨lexInv_readChar _, by rw [abstr_readChar, abstr_readChar]⟩⟩
    · simp only [if_neg hp]
      exact ⟨by trivial, Or.inl ⟨lexInv_readChar _, abstr_readChar m⟩⟩
  simp only [if_neg h11]
  by_cases h12 : m.ch = 34 ∨ m.ch = 39 ∨ m.ch = 96
  · simp only [if_pos h12]
    obtain ⟨e1, e2, e3⟩ := readString_spec m hmInv
    refine ⟨?_, Or.inl ⟨e3, e2⟩⟩
    rw [e1]
  simp only [if_neg h12]
  by_cases h13 : m.ch = 47
  · simp only [if_pos h13]
    by_cases hp47 : m.peekChar = 47
    · simp only [if_pos hp47]
      obtain ⟨e1, e2, e3⟩ := readSingleLineComment_equiv m hmInv
      refine ⟨?_, Or.inl ⟨e3, e2⟩⟩
      rw [e1]
    simp only [if_neg hp47]
    by_cases hp42 : m.peekChar = 42
    · simp only [if_pos hp42]
      obtain ⟨m1, m4, m5⟩ := readMultiLineComment_spec m hmInv h13 hp42
      rw [← m1]
      by_cases hok : (Lexer.readMultiLineComment m).2.2 = true
      · simp only [if_pos hok]
        obtain ⟨j1, j2, j3⟩ := m4 hok
        refine ⟨by first | rw [j1] | trivial, Or.inl ⟨j3, j2⟩⟩
      · simp only [if_neg hok]
        obtain ⟨k1, k2⟩ := m5 (Bool.not_eq_true _ ▸ hok)
        exact ⟨by trivial, Or.inr ⟨k1, k2⟩⟩
    · simp only [if_neg hp42]
      exact ⟨by trivial, Or.inl ⟨lexInv_readChar _, abstr_readChar m⟩⟩
  simp only [if_neg h13]
  by_cases h14 : m.ch = 0
  · simp only [if_pos h14]
    exact ⟨by trivial, Or.inl ⟨lexInv_readChar _, abstr_readChar m⟩⟩
  simp only [if_neg h14]
  by_cases h15 : isIdentifierStart m.ch
  · simp only [if_pos h15]
    obtain ⟨e1, e2, e3⟩ := readIdentifier_equiv m hmInv
    refine ⟨?_, Or.inl ⟨e3, e2⟩⟩
    rw [e1]
  simp only [if_neg h15]
  by_cases h16 : isDigitByte m.ch
  · simp only [if_pos h16]
    obtain ⟨n1, n2, n3, n4, n5, n6⟩ := numLoop_spec m false hmInv
    rw [show (Lexer.readNumber m).1 =
        sliceL m.input m.position (Lexer.numLoop m false).position from rfl,
      show (Lexer.readNumber m).2 = Lexer.numLoop m false from rfl, ← n4, ← n6]
    have hdc : StreamLexer.durCond (abstr (Lexer.numLoop m false)) ↔
        Lexer.durCond (Lexer.numLoop m false) := by
      unfold Lexer.durCond StreamLexer.durCond
      rw [← abstr_peekChar]
      exact Iff.rfl
    by_cases hd : Lexer.durCond (Lexer.numLoop m false)
    · simp only [if_pos hd, if_pos (hdc.mpr hd)]
      have hch1 : (Lexer.numLoop m false).ch ≠ 0 := durCond_ch_ne_zero hd
      have hstart : (Lexer.numLoop m false).position -
          (sliceL m.input m.position (Lexer.numLoop m false).position).length = m.position := by
        rw [n5]
        omega
      obtain ⟨d1, d2, d3⟩ :=
        readDurationSuffix_spec (Lexer.numLoop m false) n1 hch1
          (sliceL m.input m.position (Lexer.numLoop m false).position)
      have dpos := readDurationSuffix_pos_le (Lexer.numLoop m false) n1
      refine ⟨?_, Or.inl ⟨d3, ?_⟩⟩
      · rw [hstart, d1, n2, sliceL_append n3 dpos]
      · exact d2.symm
    · simp only [if_neg hd, if_neg (fun hcontra => hd (hdc.mp hcontra))]
      by_cases h46 : (sliceL m.input m.position (Lexer.numLoop m false).position).contains 46 = true
      · simp only [if_pos h46]
        exact ⟨by trivial, Or.inl ⟨n1, by trivial⟩⟩
      · simp only [if_neg h46]
        exact ⟨by trivial, Or.inl ⟨n1, by trivial⟩⟩
  simp only [if_neg h16]
  exact ⟨by trivial, Or.inl ⟨lexInv_readChar _, abstr_readChar m⟩⟩

/-- The first `n` tokens produced by repeatedly calling the buffer
lexer's `NextToken`. -/
def lexTokensB (l : Lexer) : Nat → List Token
  | 0 => []
  | n + 1 =>
    let r := Lexer.nextToken l
    r.1 :: lexTokensB r.2 n

/-- The first `n` tokens produced by repeatedly calling the stream
lexer's `NextToken`. -/
def lexTokensS (l : StreamLexer) : Nat → List Token
  | 0 => []
  | n + 1 =>
    let r := StreamLexer.nextToken l
    r.1 :: lexTokensS r.2 n

/-- Truncate a token list at (and including) the first `EOF` token: the
token stream a parser consumes ends there. -/
def truncAtEOF : List Token → List Token
  | [] => []
  | t :: r => if t.typ = .eof then [t] else t :: truncAtEOF r

theorem skipWhitespaceB_ch_zero {l : Lexer} (h : l.ch = 0) :
    Lexer.skipWhitespace l = l := by
  rw [Lexer.skipWhitespace, dif_neg]
  rw [h]
  decide

theorem skipWhitespaceS_ch_zero {l : StreamLexer} (h : l.ch = 0) :
    StreamLexer.skipWhitespace l = l := by
  rw [StreamLexer.skipWhitespace, dif_neg]
  rw [h]
  decide

theorem nextTokenB_ch_zero {l : Lexer} (h : l.ch = 0) :
    (Lexer.nextToken l).1 = ⟨.eof, [], 0, 0⟩ := by
  simp only [Lexer.nextToken, skipWhitespaceB_ch_zero h]
  simp [h, isIdentifierStart, isDigitByte]

theorem nextTokenS_ch_zero {l : StreamLexer} (h : l.ch = 0) :
    (StreamLexer.nextToken l).1 = ⟨.eof, [], 0, 0⟩ := by
  simp only [StreamLexer.nextToken, skipWhitespaceS_ch_zero h]
  simp [h, isIdentifierStart, isDigitByte]

theorem lexSeq_trunc_equiv : ∀ (n : Nat) (l : Lexer) (ls : StreamLexer),
    ((LexInv l ∧ abstr l = ls) ∨ (l.ch = 0 ∧ ls.ch = 0)) →
    truncAtEOF (lexTokensB l n) = truncAtEOF (lexTokensS ls n) := by
  intro n
  induction n with
  | zero => intro l ls _; rfl
  | succ n ih =>
    intro l ls hrel
    rcases hrel with ⟨hInv, hab⟩ | ⟨hb, hs⟩
    · subst hab
      obtain ⟨ht, hnext⟩ := nextToken_equiv l hInv
      simp only [lexTokensB, lexTokensS, truncAtEOF]
      rw [← ht]
      by_cases he : (Lexer.nextToken l).1.typ = .eof
      · simp only [if_pos he]
      · simp only [if_neg he]
        congr 1
        rcases hnext with ⟨hI, hab'⟩ | hzz
        · exact ih _ _ (Or.inl ⟨hI, hab'⟩)
        · exact ih _ _ (Or.inr hzz)
    · simp only [lexTokensB, lexTokensS, truncAtEOF, nextTokenB_ch_zero hb,
        nextTokenS_ch_zero hs]
      simp

/-- C2: for every input byte sequence, the whole-buffer lexer and the
incremental-stream lexer produce identical token sequences — equal in
kind, literal bytes, line and column for every token up to and including
the first `EOF` token (for any number `n` of `NextToken` calls). -/
theorem C2_lexer_stream_equivalence : ∀ (input : List Byte) (n : Nat),
    truncAtEOF (lexTokensB (newLexer input) n) =
      truncAtEOF (lexTokensS (newStreamLexer input) n) := by
  intro input n
  apply lexSeq_trunc_equiv
  left
  refine ⟨lexInv_readChar _, ?_⟩
  show abstr (Lexer.readChar _) = StreamLexer.readChar _
  rw [abstr_readChar]
  rfl

/-! ## AST (`ast.go`)

`MapLiteral.Elements` is modelled as a list of statements, matching the
parser (`parseMapElementList` returns `[]Statement`) and the decoder
(`decodeMapLiteralToMap` switches on the element's dynamic type). -/

/-- The bytes of a token literal viewed as a string (each byte one
character; inputs of interest are ASCII). -/
def bytesToStr (bs : List Byte) : String := String.mk (bs.map Char.ofNat)

/-- `Comment` from `ast.go`. -/
structure AComment where
  token : Token
  text : String
  deriving Repr, DecidableEq

/-- `Identifier` from `ast.go`. -/
structure AIdent where
  token : Token
  value : String
  deriving Repr, DecidableEq

/-- `StringLiteral` from `ast.go`. -/
structure AString where
  token : Token
  value : String
  deriving Repr, DecidableEq

mutual
/-- Expression nodes from `ast.go`.  `FloatLiteral.Value` (a `float64`)
is not carried: no claim depends on it, only on the token text. -/
inductive Expression where
  | identifier (v : AIdent)
  | stringLit (v : AString)
  | integerLit (token : Token) (value : Int)
  | floatLit (token : Token)
  | boolLit (token : Token) (value : Bool)
  | durationLit (token : Token) (value : String)
  | listLit (token : Token) (elements : List Expression) (hasTrailingComma : Bool)
  | mapLit (token : Token) (elements : List Statement)
  | blockLit (token : Token) (body : RootNode)
  | varExpr (token : Token) (name : String)
  | envExpr (token : Token) (name : AString) (defaultValue : Option AString)

/-- Statement nodes from `ast.go`.  A `none` value stands for a nil Go
pointer. -/
inductive Statement where
  | assign (token : Token) (name : AIdent) (value : Option Expression)
      (leadingComments : List AComment) (lineComment : Option AComment)
  | block (token : Token) (name : AIdent) (label : Option AString) (body : RootNode)
      (leadingComments : List AComment)
  | varStmt (token : Token) (name : AIdent) (value : Option Expression)
      (leadingComments : List AComment) (lineComment : Option AComment)
  | importStmt (token : Token) (path : AString) (leadingComments : List AComment)
      (lineComment : Option AComment)

/-- `RootNode` from `ast.go`. -/
inductive RootNode where
  | mk (statements : List Statement)
end

/-- Projection for `RootNode.Statements`. -/
def RootNode.statements : RootNode → List Statement
  | .mk s => s

/-- `OutputStyle` from `options.go` (the current four-style version used
by `ast.go` and `encoder.go`; `StyleDefault` aliases `StyleBlockSorted`). -/
inductive OutputStyle where
  | blockSorted
  | allSorted
  | streaming
  | singleLine
  deriving Repr, DecidableEq

/-- `FormatOptions` from `options.go`; `NoSort` is the encoder-side
flag referenced by `encoder.go`. -/
structure FormatOptions where
  style : OutputStyle
  emptyLines : Bool
  noSort : Bool := false
  deriving Repr, DecidableEq

/-- `GetLeadingComments` dispatch from `ast.go`. -/
def Statement.leading : Statement → List AComment
  | .assign _ _ _ lc _ => lc
  | .block _ _ _ _ lc => lc
  | .varStmt _ _ _ lc _ => lc
  | .importStmt _ _ lc _ => lc

/-- The `isBlock` helper inside `RootNode.Format`. -/
def Statement.isBlock : Statement → Bool
  | .block _ _ _ _ _ => true
  | _ => false

/-- `strings.Contains(s, "\n")`. -/
def containsNewline (s : String) : Bool := s.data.contains '\n'

/-- `StringLiteral.Format` from `ast.go`: backquoted when multi-line
output is allowed and the value contains a newline, double-quoted (with
the raw value, no escaping) otherwise. -/
def fmtStringLit (v : AString) (opts : FormatOptions) : String :=
  if opts.style ≠ .singleLine ∧ containsNewline v.value then
    "`" ++ v.value ++ "`"
  else
    "\"" ++ v.value ++ "\""

/-- The leading-comments loop shared by the statement `Format`s. -/
def fmtLeading (cs : List AComment) (indent : String) : String :=
  match cs with
  | [] => ""
  | c :: rest => indent ++ c.text ++ "\n" ++ fmtLeading rest indent

mutual

/-- `Format` for expressions (`ast.go`), producing the written string. -/
def fmtExpr (e : Expression) (indent : String) (opts : FormatOptions) : String :=
  match e with
  | .identifier v => v.value
  | .stringLit v => fmtStringLit v opts
  | .integerLit tok _ => bytesToStr tok.literal
  | .floatLit tok => bytesToStr tok.literal
  | .boolLit tok _ => bytesToStr tok.literal
  | .durationLit tok _ => bytesToStr tok.literal
  | .listLit _ elements _ =>
    if opts.style = .singleLine then
      "[" ++ fmtExprsCommaSep elements "" opts true ++ "]"
    else
      "[\n" ++ fmtExprsMultiline elements (indent ++ "\t") opts true ++ "\n" ++ indent ++ "]"
  | .mapLit _ elements =>
    if opts.style = .singleLine then
      "\x7b[" ++ fmtMapElemsSingle elements opts ++ "]\x7d"
    else
      "\x7b[\n" ++ fmtMapElemsMultiline elements (indent ++ "\t") opts ++ indent ++ "]\x7d"
  | .blockLit _ body =>
    if opts.style = .singleLine then
      "\x7b" ++ fmtRoot body "" opts ++ "\x7d"
    else
      "\x7b\n" ++ fmtRoot body (indent ++ "\t") opts ++ "\n" ++ indent ++ "\x7d"
  | .varExpr _ name => "$\x7b" ++ name ++ "\x7d"
  | .envExpr _ name defaultValue =>
    "env(" ++ fmtStringLit name opts ++
      (match defaultValue with
        | some d => ", " ++ fmtStringLit d opts
        | none => "") ++ ")"
termination_by sizeOf e

/-- The `ListLiteral.Format` single-line loop: elements separated by
`,` (comma written before each element except the first). -/
def fmtExprsCommaSep (elements : List Expression) (indent : String) (opts : FormatOptions)
    (isFirst : Bool) : String :=
  match elements with
  | [] => ""
  | el :: rest =>
    (if isFirst then "" else ",") ++ fmtExpr el indent opts ++
      fmtExprsCommaSep rest indent opts false
termination_by sizeOf elements

/-- The `ListLiteral.Format` multi-line loop: `,\n` before every element
but the first, each element on its own indented line. -/
def fmtExprsMultiline (elements : List Expression) (newIndent : String) (opts : FormatOptions)
    (isFirst : Bool) : String :=
  match elements with
  | [] => ""
  | el :: rest =>
    (if isFirst then "" else ",\n") ++ newIndent ++ fmtExpr el newIndent opts ++
      fmtExprsMultiline rest newIndent opts false
termination_by sizeOf elements

/-- The `MapLiteral.Format` single-line loop: `,` after every element
except the last. -/
def fmtMapElemsSingle (elements : List Statement) (opts : FormatOptions) : String :=
  match elements with
  | [] => ""
  | el :: rest =>
    fmtStmt el "" opts ++ (if rest.isEmpty then "" else ",") ++ fmtMapElemsSingle rest opts
termination_by sizeOf elements

/-- The `MapLiteral.Format` multi-line loop: every element on its own
line followed by `,\n`, including the last. -/
def fmtMapElemsMultiline (elements : List Statement) (newIndent : String)
    (opts : FormatOptions) : String :=
  match elements with
  | [] => ""
  | el :: rest =>
    newIndent ++ fmtStmt el newIndent opts ++ ",\n" ++ fmtMapElemsMultiline rest newIndent opts
termination_by sizeOf elements

/-- `Format` for statements (`ast.go`). -/
def fmtStmt (s : Statement) (indent : String) (opts : FormatOptions) : String :=
  match s with
  | .assign _ name value leading lineComment =>
    fmtLeading leading indent ++ indent ++ name.value ++ " = " ++
      (match value with
        | some v => fmtExpr v indent opts
        | none => "") ++
      (match lineComment with
        | some c => " " ++ c.text
        | none => "")
  | .block _ name label body leading =>
    fmtLeading leading indent ++ indent ++ name.value ++
      (match label with
        | some lb => " " ++ fmtStringLit lb opts
        | none => "") ++
      (if opts.style = .singleLine then
        "\x7b" ++ fmtRoot body "" opts ++ "\x7d"
      else
        " \x7b" ++
          (if (body.statements).isEmpty then ""
            else "\n" ++ fmtRoot body (indent ++ "\t") opts) ++
          "\n" ++ indent ++ "\x7d")
  | .varStmt tok name value leading lineComment =>
    fmtLeading leading indent ++ indent ++ bytesToStr tok.literal ++ " " ++ name.value ++ " = " ++
      (match value with
        | some v => fmtExpr v indent opts
        | none => "") ++
      (match lineComment with
        | some c => " " ++ c.text
        | none => "")
  | .importStmt tok path leading lineComment =>
    fmtLeading leading indent ++ indent ++ bytesToStr tok.literal ++ " " ++
      fmtStringLit path opts ++
      (match lineComment with
        | some c => " " ++ c.text
        | none => "")
termination_by sizeOf s

/-- `RootNode.Format` from `ast.go`: separators between consecutive
statements (`; ` in single-line style, newline otherwise, plus a blank
line when `EmptyLines` is set and a block or commented statement is
adjacent). -/
def fmtRoot (r : RootNode) (indent : String) (opts : FormatOptions) : String :=
  match r with
  | .mk [] => ""
  | .mk (s0 :: rest) => fmtStmt s0 indent opts ++ fmtRootRest s0 rest indent opts
termination_by sizeOf r

/-- The tail of the `RootNode.Format` loop; `prev` is the previous
statement (used by the blank-line heuristic). -/
def fmtRootRest (prev : Statement) (stmts : List Statement) (indent : String)
    (opts : FormatOptions) : String :=
  match stmts with
  | [] => ""
  | s :: rest =>
    (if opts.style = .singleLine then "; "
      else "\n" ++
        (if opts.emptyLines ∧ (prev.isBlock ∨ s.isBlock ∨ ¬(s.leading).isEmpty) then "\n"
          else "")) ++
      fmtStmt s indent opts ++ fmtRootRest s rest indent opts
termination_by sizeOf stmts

end

/-- `Format` from `wanf.go`: renders a whole document. -/
def Format (program : RootNode) (opts : FormatOptions) : String :=
  fmtRoot program "" opts

/-! ### C4: trailing commas in the pretty-printer -/

/-- Concatenation of a list of strings (spec-side helper for stating
the per-element shape of the formatter loops). -/
def specJoin : List String → String
  | [] => ""
  | s :: rest => s ++ specJoin rest

/-- Strings joined by a separator, with no separator after the last
element (spec-side helper). -/
def specIntercalate (sep : String) : List String → String
  | [] => ""
  | [s] => s
  | s :: s2 :: rest => s ++ sep ++ specIntercalate sep (s2 :: rest)

theorem string_append_empty (s : String) : s ++ "" = s := by
  cases s with
  | mk d => show String.mk (d ++ []) = String.mk d
            rw [List.append_nil]

theorem specIntercalate_cons (sep x : String) (xs : List String) :
    specIntercalate sep (x :: xs) = x ++ specJoin (xs.map fun s => sep ++ s) := by
  induction xs generalizing x with
  | nil => simp [specIntercalate, specJoin, string_append_empty]
  | cons y ys ih => simp only [specIntercalate, List.map, specJoin]
                    rw [ih]
                    show x ++ sep ++ (y ++ _) = _
                    rw [String.append_assoc, String.append_assoc]

theorem fmtMapElemsMultiline_join (els : List Statement) (ni : String) (opts : FormatOptions) :
    fmtMapElemsMultiline els ni opts =
      specJoin (els.map fun el => ni ++ fmtStmt el ni opts ++ ",\n") := by
  induction els with
  | nil => simp [fmtMapElemsMultiline, specJoin]
  | cons e t ih => simp only [fmtMapElemsMultiline, List.map, specJoin]
                   rw [ih]

theorem fmtExprsMultiline_false_join (els : List Expression) (ni : String)
    (opts : FormatOptions) :
    fmtExprsMultiline els ni opts false =
      specJoin (els.map fun el => ",\n" ++ (ni ++ fmtExpr el ni opts)) := by
  induction els with
  | nil => simp [fmtExprsMultiline, specJoin]
  | cons e t ih => simp only [fmtExprsMultiline, List.map, specJoin, if_neg,
                      Bool.false_eq_true, not_false_iff]
                   rw [ih]
                   simp only [String.append_assoc]

theorem fmtExprsMultiline_true_intercalate (els : List Expression) (ni : String)
    (opts : FormatOptions) :
    fmtExprsMultiline els ni opts true =
      specIntercalate ",\n" (els.map fun el => ni ++ fmtExpr el ni opts) := by
  cases els with
  | nil => simp [fmtExprsMultiline, specIntercalate]
  | cons e t =>
    simp only [fmtExprsMultiline, List.map, if_pos]
    rw [fmtExprsMultiline_false_join, specIntercalate_cons, List.map_map]
    have h0 : ∀ s : String, "" ++ s = s := by intro s; cases s with | mk d => rfl
    simp only [Function.comp_def, String.append_assoc, h0]

/-- C4: in every non-SingleLine style the formatter renders a map
literal one element per line with a comma after every element including
the last; a list literal is rendered one element per line but with NO
comma after the last element (the original claim's trailing comma for
lists does not exist in `ListLiteral.Format`). -/
theorem C4_formatter_trailing_commas (opts : FormatOptions)
    (h : opts.style ≠ OutputStyle.singleLine) (tokM tokL : Token) (indent : String)
    (mapEls : List Statement) (listEls : List Expression) (hc : Bool) :
    fmtExpr (Expression.mapLit tokM mapEls) indent opts =
      "\x7b[\n" ++
        specJoin (mapEls.map fun el =>
          (indent ++ "\t") ++ fmtStmt el (indent ++ "\t") opts ++ ",\n") ++
        (indent ++ "]\x7d") ∧
    fmtExpr (Expression.listLit tokL listEls hc) indent opts =
      "[\n" ++
        specIntercalate ",\n" (listEls.map fun el =>
          (indent ++ "\t") ++ fmtExpr el (indent ++ "\t") opts) ++
        ("\n" ++ indent ++ "]") := by
  constructor
  · rw [fmtExpr]
    rw [if_neg h, fmtMapElemsMultiline_join]
    rw [String.append_assoc]
  · rw [fmtExpr]
    rw [if_neg h, fmtExprsMultiline_true_intercalate]
    simp only [String.append_assoc]

/-- Witness: the C4 theorem applied to a concrete one-element map and a
concrete one-element list in Streaming style. -/
theorem C4_formatter_trailing_commas_witness :
    ((⟨OutputStyle.streaming, true, false⟩ : FormatOptions).style ≠ OutputStyle.singleLine) ∧
    (fmtExpr (Expression.mapLit ⟨TokenType.lbrace, [], 1, 1⟩
        [Statement.assign ⟨TokenType.ident, strBytes "k", 1, 3⟩
          ⟨⟨TokenType.ident, strBytes "k", 1, 3⟩, "k"⟩
          (some (Expression.integerLit ⟨TokenType.intTok, strBytes "1", 1, 7⟩ 1)) [] none])
        "" ⟨OutputStyle.streaming, true, false⟩ =
      "\x7b[\n" ++
        specJoin ([Statement.assign ⟨TokenType.ident, strBytes "k", 1, 3⟩
            ⟨⟨TokenType.ident, strBytes "k", 1, 3⟩, "k"⟩
            (some (Expression.integerLit ⟨TokenType.intTok, strBytes "1", 1, 7⟩ 1)) [] none].map
          fun el => ("" ++ "\t") ++ fmtStmt el ("" ++ "\t") ⟨OutputStyle.streaming, true, false⟩ ++ ",\n") ++
        ("" ++ "]\x7d") ∧
    fmtExpr (Expression.listLit ⟨TokenType.lbrack, strBytes "[", 1, 8⟩
        [Expression.stringLit ⟨⟨TokenType.stringTok, strBytes "a", 1, 9⟩, "a"⟩] false)
        "" ⟨OutputStyle.streaming, true, false⟩ =
      "[\n" ++
        specIntercalate ",\n" ([Expression.stringLit ⟨⟨TokenType.stringTok, strBytes "a", 1, 9⟩, "a"⟩].map
          fun el => ("" ++ "\t") ++ fmtExpr el ("" ++ "\t") ⟨OutputStyle.streaming, true, false⟩) ++
        ("\n" ++ "" ++ "]")) :=
  ⟨by decide,
    C4_formatter_trailing_commas ⟨OutputStyle.streaming, true, false⟩ (by decide)
      ⟨TokenType.lbrace, [], 1, 1⟩ ⟨TokenType.lbrack, strBytes "[", 1, 8⟩ ""
      [Statement.assign ⟨TokenType.ident, strBytes "k", 1, 3⟩
        ⟨⟨TokenType.ident, strBytes "k", 1, 3⟩, "k"⟩
        (some (Expression.integerLit ⟨TokenType.intTok, strBytes "1", 1, 7⟩ 1)) [] none]
      [Expression.stringLit ⟨⟨TokenType.stringTok, strBytes "a", 1, 9⟩, "a"⟩] false⟩

/-- Counterexample to the original C4 list half: formatting the list
literal `["a"]` in Streaming (multi-line) style yields `[\n\t"a"\n]`,
which contains no comma at all — in particular no trailing comma after
the last element. -/
theorem C4_counterexample_list_no_trailing_comma :
    fmtExpr (Expression.listLit ⟨TokenType.lbrack, strBytes "[", 1, 8⟩
        [Expression.stringLit ⟨⟨TokenType.stringTok, strBytes "a", 1, 9⟩, "a"⟩] false)
        "" ⟨OutputStyle.streaming, true, false⟩ = "[\n\t\"a\"\n]" ∧
    (("[\n\t\"a\"\n]" : String).data.contains ',') = false := by
  constructor
  · rw [fmtExpr]
    rw [if_neg (by decide : ¬ (⟨OutputStyle.streaming, true, false⟩ : FormatOptions).style = OutputStyle.singleLine)]
    rw [fmtExprsMultiline, fmtExprsMultiline]
    rw [fmtExpr]
    rfl
  · decide

/-! ## An executable face for the buffer lexer

The lexing loops above are defined by well-founded recursion, which the
kernel cannot evaluate on concrete inputs.  Each loop therefore gets a
fuel-indexed mirror that steps structurally on the fuel and falls back
to the well-founded definition at fuel zero; the mirrors are equal to
the originals at every fuel (so nothing depends on the fuel value), and
on concrete inputs with enough fuel they reduce by `decide`/`rfl`. -/

namespace Lexer

/-- Fueled mirror of `skipWhitespace`. -/
def skipWhitespaceE : Nat → Lexer → Lexer
  | 0, l => skipWhitespace l
  | n + 1, l =>
    if isWhitespaceByte l.ch then
      skipWhitespaceE n
        (readChar (if l.ch = 10 then { l with line := l.line + 1, column := 0 } else l))
    else l

theorem skipWhitespaceE_eq (n : Nat) (l : Lexer) : skipWhitespaceE n l = skipWhitespace l := by
  induction n generalizing l with
  | zero => rfl
  | succ n ih =>
    rw [skipWhitespaceE]
    conv_rhs => rw [skipWhitespace]
    by_cases h : isWhitespaceByte l.ch
    · rw [if_pos h, dif_pos h, ih]
    · rw [if_neg h, dif_neg h]

/-- Fueled mirror of `slcLoop`. -/
def slcLoopE : Nat → Lexer → Lexer
  | 0, l => slcLoop l
  | n + 1, l => if l.ch ≠ 10 ∧ l.ch ≠ 0 then slcLoopE n (readChar l) else l

theorem slcLoopE_eq (n : Nat) (l : Lexer) : slcLoopE n l = slcLoop l := by
  induction n generalizing l with
  | zero => rfl
  | succ n ih =>
    rw [slcLoopE]
    conv_rhs => rw [slcLoop]
    by_cases h : l.ch ≠ 10 ∧ l.ch ≠ 0
    · rw [if_pos h, dif_pos h, ih]
    · rw [if_neg h, dif_neg h]

/-- Fueled mirror of `ueolLoop`. -/
def ueolLoopE : Nat → Lexer → Lexer
  | 0, l => ueolLoop l
  | n + 1, l => if ¬(l.ch = 10 ∨ l.ch = 13 ∨ l.ch = 0) then ueolLoopE n (readChar l) else l

theorem ueolLoopE_eq (n : Nat) (l : Lexer) : ueolLoopE n l = ueolLoop l := by
  induction n generalizing l with
  | zero => rfl
  | succ n ih =>
    rw [ueolLoopE]
    conv_rhs => rw [ueolLoop]
    by_cases h : ¬(l.ch = 10 ∨ l.ch = 13 ∨ l.ch = 0)
    · rw [if_pos h, dif_pos h, ih]
    · rw [if_neg h, dif_neg h]

/-- Fueled mirror of `identLoop`. -/
def identLoopE : Nat → Lexer → Lexer
  | 0, l => identLoop l
  | n + 1, l => if isIdentifierChar l.ch then identLoopE n (readChar l) else l

theorem identLoopE_eq (n : Nat) (l : Lexer) : identLoopE n l = identLoop l := by
  induction n generalizing l with
  | zero => rfl
  | succ n ih =>
    rw [identLoopE]
    conv_rhs => rw [identLoop]
    by_cases h : isIdentifierChar l.ch
    · rw [if_pos h, dif_pos h, ih]
    · rw [if_neg h, dif_neg h]

/-- Fueled mirror of `numLoop`. -/
def numLoopE : Nat → Lexer → Bool → Lexer
  | 0, l, isFloat => numLoop l isFloat
  | n + 1, l, isFloat =>
    if isDigitByte l.ch ∨ (l.ch = 46 ∧ isFloat = false) then
      numLoopE n (readChar l) (if l.ch = 46 then true else isFloat)
    else l

theorem numLoopE_eq (n : Nat) (l : Lexer) (isFloat : Bool) :
    numLoopE n l isFloat = numLoop l isFloat := by
  induction n generalizing l isFloat with
  | zero => rfl
  | succ n ih =>
    rw [numLoopE]
    conv_rhs => rw [numLoop]
    by_cases h : isDigitByte l.ch ∨ (l.ch = 46 ∧ isFloat = false)
    · rw [if_pos h, dif_pos h, ih]
    · rw [if_neg h, dif_neg h]

/-- Fueled mirror of `strLoop`. -/
def strLoopE : Nat → Lexer → Byte → Lexer
  | 0, l, quote => strLoop l quote
  | n + 1, l, quote => if ¬(l.ch = quote ∨ l.ch = 0) then strLoopE n (readChar l) quote else l

theorem strLoopE_eq (n : Nat) (l : Lexer) (quote : Byte) : strLoopE n l quote = strLoop l quote := by
  induction n generalizing l with
  | zero => rfl
  | succ n ih =>
    rw [strLoopE]
    conv_rhs => rw [strLoop]
    by_cases h : ¬(l.ch = quote ∨ l.ch = 0)
    · rw [if_pos h, dif_pos h, ih]
    · rw [if_neg h, dif_neg h]

/-- Fueled mirror of `mlcLoop`. -/
def mlcLoopE : Nat → Lexer → Lexer × Bool
  | 0, l => mlcLoop l
  | n + 1, l =>
    if l.ch = 0 then (l, false)
    else if l.ch = 42 ∧ l.peekChar = 47 then (readChar (readChar l), true)
    else
      mlcLoopE n (readChar (if l.ch = 10 then { l with line := l.line + 1, column := 0 } else l))

theorem mlcLoopE_eq (n : Nat) (l : Lexer) : mlcLoopE n l = mlcLoop l := by
  induction n generalizing l with
  | zero => rfl
  | succ n ih =>
    rw [mlcLoopE]
    conv_rhs => rw [mlcLoop]
    by_cases h0 : l.ch = 0
    · rw [if_pos h0, dif_pos h0]
    · rw [if_neg h0, dif_neg h0, ih]

/-- Executable `readSingleLineComment`. -/
def readSingleLineCommentE (f : Nat) (l : Lexer) : List Byte × Lexer :=
  let l' := slcLoopE f l
  (sliceL l.input l.position l'.position, l')

theorem readSingleLineCommentE_eq (f : Nat) (l : Lexer) :
    readSingleLineCommentE f l = readSingleLineComment l := by
  simp only [readSingleLineCommentE, readSingleLineComment, slcLoopE_eq]

/-- Executable `readUntilEndOfLine`. -/
def readUntilEndOfLineE (f : Nat) (l : Lexer) : List Byte × Lexer :=
  let l' := ueolLoopE f l
  (sliceL l.input l.position l'.position, l')

theorem readUntilEndOfLineE_eq (f : Nat) (l : Lexer) :
    readUntilEndOfLineE f l = readUntilEndOfLine l := by
  simp only [readUntilEndOfLineE, readUntilEndOfLine, ueolLoopE_eq]

/-- Executable `readIdentifier`. -/
def readIdentifierE (f : Nat) (l : Lexer) : List Byte × Lexer :=
  let l' := identLoopE f l
  (sliceL l.input l.position l'.position, l')

theorem readIdentifierE_eq (f : Nat) (l : Lexer) : readIdentifierE f l = readIdentifier l := by
  simp only [readIdentifierE, readIdentifier, identLoopE_eq]

/-- Executable `readNumber`. -/
def readNumberE (f : Nat) (l : Lexer) : List Byte × Lexer :=
  let l' := numLoopE f l false
  (sliceL l.input l.position l'.position, l')

theorem readNumberE_eq (f : Nat) (l : Lexer) : readNumberE f l = readNumber l := by
  simp only [readNumberE, readNumber, numLoopE_eq]

/-- Executable `readString`. -/
def readStringE (f : Nat) (l : Lexer) : List Byte × Lexer :=
  let quote := l.ch
  let pos := l.position + 1
  let l2 := strLoopE f (readChar l) quote
  (sliceL l.input pos l2.position, readChar l2)

theorem readStringE_eq (f : Nat) (l : Lexer) : readStringE f l = readString l := by
  simp only [readStringE, readString, strLoopE_eq]

/-- Executable `readMultiLineComment`. -/
def readMultiLineCommentE (f : Nat) (l : Lexer) : List Byte × Lexer × Bool :=
  let pos := l.position
  let r := mlcLoopE f (readChar (readChar l))
  (sliceL l.input pos r.1.position, r.1, r.2)

theorem readMultiLineCommentE_eq (f : Nat) (l : Lexer) :
    readMultiLineCommentE f l = readMultiLineComment l := by
  simp only [readMultiLineCommentE, readMultiLineComment, mlcLoopE_eq]

/-- Executable `NextToken`: the body of `nextToken` with every loop
replaced by its fueled mirror at fuel `lexMeasure l0 + 1` (each loop
performs fewer than `lexMeasure` iterations, and by the `_eq` lemmas
the value does not depend on the fuel at all). -/
def nextTokenE (l0 : Lexer) : Token × Lexer :=
  let f := lexMeasure l0 + 1
  let l := skipWhitespaceE f l0
  let line := l.line
  let col := l.column
  if l.ch = 61 then (newTok .assign l.ch line col, readChar l)
  else if l.ch = 44 then (newTok .comma l.ch line col, readChar l)
  else if l.ch = 59 then (newTok .semicolon l.ch line col, readChar l)
  else if l.ch = 123 then (newTok .lbrace l.ch line col, readChar l)
  else if l.ch = 125 then (newTok .rbrace l.ch line col, readChar l)
  else if l.ch = 91 then (newTok .lbrack l.ch line col, readChar l)
  else if l.ch = 93 then (newTok .rbrack l.ch line col, readChar l)
  else if l.ch = 40 then (newTok .lparen l.ch line col, readChar l)
  else if l.ch = 41 then (newTok .rparen l.ch line col, readChar l)
  else if l.ch = 35 then
    let r := readUntilEndOfLineE f l
    (⟨.illegalComment, r.1, line, col⟩, r.2)
  else if l.ch = 36 then
    if l.peekChar = 123 then
      (⟨.dollarLbrace, [36, 123], line, col⟩, readChar (readChar l))
    else
      (newTok .illegal l.ch line col, readChar l)
  else if l.ch = 34 ∨ l.ch = 39 ∨ l.ch = 96 then
    let r := readStringE f l
    (⟨.stringTok, r.1, line, col⟩, r.2)
  else if l.ch = 47 then
    if l.peekChar = 47 then
      let r := readSingleLineCommentE f l
      (⟨.commentTok, r.1, line, col⟩, r.2)
    else if l.peekChar = 42 then
      let r := readMultiLineCommentE f l
      if r.2.2 then (⟨.commentTok, r.1, line, col⟩, r.2.1)
      else (⟨.illegal, strBytes "unclosed block comment", line, col⟩, r.2.1)
    else
      (newTok .illegal l.ch line col, readChar l)
  else if l.ch = 0 then (⟨.eof, [], 0, 0⟩, readChar l)
  else if isIdentifierStart l.ch then
    let r := readIdentifierE f l
    (⟨lookupIdentifier r.1, r.1, line, col⟩, r.2)
  else if isDigitByte l.ch then
    let r := readNumberE f l
    let l1 := r.2
    if durCond l1 then
      let startPos := l1.position - r.1.length
      let l2 := readDurationSuffix l1
      (⟨.durTok, sliceL l.input startPos l2.position, line, col⟩, l2)
    else if (r.1).contains 46 then
      (⟨.floatTok, r.1, line, col⟩, l1)
    else
      (⟨.intTok, r.1, line, col⟩, l1)
  else
    (newTok .illegal l.ch line col, readChar l)

theorem nextTokenE_eq (l0 : Lexer) : nextTokenE l0 = nextToken l0 := by
  simp only [nextTokenE, nextToken, skipWhitespaceE_eq, readUntilEndOfLineE_eq,
    readStringE_eq, readSingleLineCommentE_eq, readMultiLineCommentE_eq,
    readIdentifierE_eq, readNumberE_eq]

end Lexer

/-! ## Diagnostics (`parser.go`) -/

/-- `ErrorLevel` from `parser.go` (`ErrorLevelLint` is the zero value). -/
inductive ErrorLevel where
  | lint
  | fmtLevel
  deriving Repr, DecidableEq

/-- `ErrorType` from `parser.go` (`ErrUnknown` is the zero value). -/
inductive ErrorType where
  | unknown
  | unexpectedToken
  | redundantComma
  | redundantLabel
  | unusedVariable
  | expectDiffToken
  | missingComma
  deriving Repr, DecidableEq

/-- The underlying string of each `TokenType` constant (`type TokenType
string` in `lexer.go`), as bytes. -/
def tokenTypeStr : TokenType → List Byte
  | .illegal => strBytes "ILLEGAL"
  | .eof => strBytes "EOF"
  | .ident => strBytes "IDENT"
  | .intTok => strBytes "INT"
  | .floatTok => strBytes "FLOAT"
  | .stringTok => strBytes "STRING"
  | .boolTok => strBytes "BOOL"
  | .durTok => strBytes "DUR"
  | .assign => strBytes "="
  | .comma => strBytes ","
  | .semicolon => strBytes ";"
  | .lbrace => strBytes "\x7b"
  | .rbrace => strBytes "\x7d"
  | .lbrack => strBytes "["
  | .rbrack => strBytes "]"
  | .lparen => strBytes "("
  | .rparen => strBytes ")"
  | .importTok => strBytes "IMPORT"
  | .varTok => strBytes "VAR"
  | .dollarLbrace => strBytes "$\x7b"
  | .commentTok => strBytes "COMMENT"
  | .illegalComment => strBytes "ILLEGAL_COMMENT"

/-- The fatal parser error messages (`appendError`/`appendErrorAt`
callers), structured instead of `fmt.Sprintf`-rendered: each constructor
is one format string of `parser.go` with its arguments. -/
inductive ParserMsg where
  | unexpectedToken (typ : TokenType) (literal : List Byte)
  | expectedNext (expected : TokenType) (got : TokenType)
  | noPrefix (typ : TokenType)
  | notInteger (literal : List Byte)
  | notFloat (literal : List Byte)
  | notBoolean (literal : List Byte)
  | envExpectedString
  | envExpectedDefaultString
  deriving Repr, DecidableEq

mutual
/-- The `Message` strings carried by `LintError`s, structured: each
constructor is one message shape of `parser.go`/`wanf.go`.
`parserErrorsJoined` is the synthetic diagnostic `Lint` builds from the
fatal error list (`"parser error: " + strings.Join(...)`): it carries
the joined error records themselves. -/
inductive LintMessage where
  | unexpectedToken (typ : TokenType) (literal : List Byte)
  | illegalLiteral (literal : List Byte)
  | parserError (msg : ParserMsg)
  | redundantComma
  | missingComma (typ : TokenType)
  | redundantLabel (name : String) (label : String)
  | unusedVariable (name : String)
  | parserErrorsJoined (errors : List LintError)

/-- `LintError` from `parser.go`. -/
inductive LintError where
  | mk (line : Nat) (column : Nat) (endLine : Nat) (endColumn : Nat)
      (message : LintMessage) (level : ErrorLevel) (typ : ErrorType)
      (args : List (List Byte))
end

/-- Projection for `LintError.Line`. -/
def LintError.line : LintError → Nat
  | .mk v _ _ _ _ _ _ _ => v

/-- Projection for `LintError.Column`. -/
def LintError.column : LintError → Nat
  | .mk _ v _ _ _ _ _ _ => v

/-- Projection for `LintError.Message`. -/
def LintError.message : LintError → LintMessage
  | .mk _ _ _ _ v _ _ _ => v

/-- Projection for `LintError.Level`. -/
def LintError.level : LintError → ErrorLevel
  | .mk _ _ _ _ _ v _ _ => v

/-- Projection for `LintError.Type`. -/
def LintError.typ : LintError → ErrorType
  | .mk _ _ _ _ _ _ v _ => v

/-! ## The parser (`parser.go`)

The parser is embedded as pure state-passing functions over `Parser`.
Recursive parse functions take an explicit fuel that every nested call
decrements (structural recursion, so concrete runs reduce in the
kernel); fuel zero returns the same degenerate values a Go run can
never produce, and the canonical fuel used by the entry points is large
enough for any input (each fuel level consumes or nests at least one
token).

Go nil-interface subtleties kept by the model: `parseStatement`
distinguishes returning a nil `Statement` interface (`StmtResult.noStmt`
— end of input, a bare semicolon, or the unexpected-token recovery)
from returning a non-nil interface holding a nil pointer
(`StmtResult.nilStmt` — a sub-parser that bailed out after a fatal
`expectPeek` error).  `parseMapElementList` aborts only on the former,
exactly as `stmt == nil` does in Go.  Two loss-free simplifications:
the typed-nil statements and nil expressions Go appends to slices after
a fatal error are dropped from the model's lists (every such append
happens with a fatal error already recorded, and nothing that runs
without fatal errors can see them), and the line-comment attach on a
typed-nil `*VarStatement`/`*ImportStatement` — a nil-pointer panic in
Go — is modelled as the no-op that the `*BlockStatement` case takes. -/

/-- `Parser` from `parser.go` (the prefix-parse-function map is the
fixed dispatch in `parseExpression` below). -/
structure Parser where
  l : Lexer
  errors : List LintError
  curToken : Token
  peekToken : Token
  lintMode : Bool
  lintErrors : List LintError

namespace Parser

/-- `(*Parser).nextToken` (through the executable lexer face). -/
def nextToken (p : Parser) : Parser :=
  let r := Lexer.nextTokenE p.l
  { p with curToken := p.peekToken, peekToken := r.1, l := r.2 }

/-- `(*Parser).curTokenIs`. -/
def curTokenIs (p : Parser) (t : TokenType) : Bool := p.curToken.typ = t

/-- `(*Parser).peekTokenIs`. -/
def peekTokenIs (p : Parser) (t : TokenType) : Bool := p.peekToken.typ = t

/-- `(*Parser).appendErrorAt` (the `"parser error: "` prefix is the
`LintMessage.parserError` wrapper). -/
def appendErrorAt (p : Parser) (tok : Token) (msg : ParserMsg) : Parser :=
  { p with errors := p.errors ++
      [LintError.mk tok.line tok.column tok.line (tok.column + tok.literal.length)
        (.parserError msg) .lint .unexpectedToken []] }

/-- `(*Parser).appendError`. -/
def appendError (p : Parser) (msg : ParserMsg) : Parser :=
  p.appendErrorAt p.curToken msg

/-- `(*Parser).peekError`. -/
def peekError (p : Parser) (t : TokenType) : Parser :=
  p.appendErrorAt p.peekToken (.expectedNext t p.peekToken.typ)

/-- `(*Parser).expectPeek`. -/
def expectPeek (p : Parser) (t : TokenType) : Bool × Parser :=
  if p.peekTokenIs t then (true, p.nextToken) else (false, p.peekError t)

/-- `(*Parser).noPrefixParseFnError`. -/
def noPrefixParseFnError (p : Parser) (t : TokenType) : Parser :=
  p.appendError (.noPrefix t)

/-- `(*Parser).SetLintMode`. -/
def setLintMode (p : Parser) (enabled : Bool) : Parser :=
  { p with lintMode := enabled }

/-- `(*Parser).parseStringLiteral` (always succeeds). -/
def parseStringLiteral (p : Parser) : Expression :=
  .stringLit ⟨p.curToken, bytesToStr p.curToken.literal⟩

/-- `(*Parser).parseDurationLiteral` (always succeeds). -/
def parseDurationLiteral (p : Parser) : Expression :=
  .durationLit p.curToken (bytesToStr p.curToken.literal)

end Parser

/-- `strconv.ParseInt(s, 0, 64)` restricted to the literals the lexer's
`INT` token can carry (a non-empty run of ASCII digits): base 0 means a
leading `0` selects octal (so digits `8`/`9` after it are a syntax
error), anything else is decimal; values above `2^63 - 1` are a range
error.  `none` is Go's non-nil `err`. -/
def goParseIntBase0 (bs : List Byte) : Option Int :=
  match bs with
  | [] => none
  | 48 :: rest =>
    if rest.all fun b => 48 ≤ b ∧ b ≤ 55 then
      let v := rest.foldl (fun acc b => acc * 8 + (b - 48)) 0
      if v ≤ 2 ^ 63 - 1 then some (Int.ofNat v) else none
    else none
  | _ =>
    let v := bs.foldl (fun acc b => acc * 10 + (b - 48)) 0
    if v ≤ 2 ^ 63 - 1 then some (Int.ofNat v) else none

/-- `strconv.ParseBool` restricted to the literals the lexer's `BOOL`
token can carry (`lookupIdentifier` only maps `true` and `false`). -/
def goParseBool (bs : List Byte) : Option Bool :=
  if bs = strBytes "true" then some true
  else if bs = strBytes "false" then some false
  else none

namespace Parser

/-- `(*Parser).parseIntegerLiteral`. -/
def parseIntegerLiteral (p : Parser) : Option Expression × Parser :=
  match goParseIntBase0 p.curToken.literal with
  | some v => (some (.integerLit p.curToken v), p)
  | none => (none, p.appendError (.notInteger p.curToken.literal))

/-- `(*Parser).parseFloatLiteral`.  `strconv.ParseFloat` succeeds on
every `FLOAT` literal the lexer can produce (digits with one dot),
except for astronomically long digit runs that overflow `float64`;
that range error is not modelled (the value is not carried either). -/
def parseFloatLiteral (p : Parser) : Option Expression × Parser :=
  (some (.floatLit p.curToken), p)

/-- `(*Parser).parseBooleanLiteral`. -/
def parseBooleanLiteral (p : Parser) : Option Expression × Parser :=
  match goParseBool p.curToken.literal with
  | some v => (some (.boolLit p.curToken v), p)
  | none => (none, p.appendError (.notBoolean p.curToken.literal))

/-- `(*Parser).parseVarExpression`. -/
def parseVarExpression (p : Parser) : Option Expression × Parser :=
  let tok := p.curToken
  let r1 := p.expectPeek .ident
  if r1.1 then
    let p1 := r1.2
    let name := bytesToStr p1.curToken.literal
    let r2 := p1.expectPeek .rbrace
    if r2.1 then (some (.varExpr tok name), r2.2) else (none, r2.2)
  else (none, r1.2)

/-- `(*Parser).parseEnvExpression`. -/
def parseEnvExpression (p : Parser) : Option Expression × Parser :=
  let tok := p.curToken
  let r1 := p.expectPeek .lparen
  if r1.1 then
    let p1 := r1.2.nextToken
    if p1.curTokenIs .stringTok then
      let name : AString := ⟨p1.curToken, bytesToStr p1.curToken.literal⟩
      if p1.peekTokenIs .comma then
        let p2 := p1.nextToken.nextToken
        if p2.curTokenIs .stringTok then
          let dv : AString := ⟨p2.curToken, bytesToStr p2.curToken.literal⟩
          let r3 := p2.expectPeek .rparen
          if r3.1 then (some (.envExpr tok name (some dv)), r3.2) else (none, r3.2)
        else (none, p2.appendError .envExpectedDefaultString)
      else
        let r3 := p1.expectPeek .rparen
        if r3.1 then (some (.envExpr tok name none), r3.2) else (none, r3.2)
    else (none, p1.appendError .envExpectedString)
  else (none, r1.2)

/-- `(*Parser).parseIdentifier` (routes `env(` to `parseEnvExpression`). -/
def parseIdentifier (p : Parser) : Option Expression × Parser :=
  if p.curToken.literal = strBytes "env" ∧ p.peekTokenIs .lparen then
    p.parseEnvExpression
  else (some (.identifier ⟨p.curToken, bytesToStr p.curToken.literal⟩), p)

/-- `(*Parser).parseImportStatement` (`none` models the nil pointer
returned after a failed `expectPeek`). -/
def parseImportStatement (leading : List AComment) (p : Parser) :
    Option Statement × Parser :=
  let tok := p.curToken
  let r1 := p.expectPeek .stringTok
  if r1.1 then
    let p1 := r1.2
    (some (.importStmt tok ⟨p1.curToken, bytesToStr p1.curToken.literal⟩ leading none), p1)
  else (none, r1.2)

end Parser

/-- What `(*Parser).parseStatement` hands back: a statement, Go's nil
`Statement` interface, or a non-nil interface holding a nil pointer. -/
inductive StmtResult where
  | noStmt
  | nilStmt
  | someStmt (s : Statement)

/-- The statements a `StmtResult` contributes to a statement slice
(typed-nil entries are dropped, see the section comment). -/
def StmtResult.toList : StmtResult → List Statement
  | .noStmt => []
  | .nilStmt => []
  | .someStmt s => [s]

/-- The line-comment attach switch at the end of `parseStatement`:
assign, var and import statements receive the comment, block statements
are untouched (no case in the Go type switch). -/
def attachLineComment : Statement → AComment → Statement
  | .assign t n v lc _, c => .assign t n v lc (some c)
  | .varStmt t n v lc _, c => .varStmt t n v lc (some c)
  | .importStmt t pa lc _, c => .importStmt t pa lc (some c)
  | s, _ => s

namespace Parser

/-- `(*Parser).parseLeadingComments` (fuelled loop). -/
def parseLeadingComments : Nat → Parser → List AComment × Parser
  | 0, p => ([], p)
  | f + 1, p =>
    if p.curTokenIs .commentTok then
      let c : AComment := ⟨p.curToken, bytesToStr p.curToken.literal⟩
      let r := parseLeadingComments f p.nextToken
      (c :: r.1, r.2)
    else ([], p)

/-- The `LOWEST` precedence constant. -/
def LOWEST : Nat := 1

mutual

/-- `(*Parser).parseStatement`. -/
def parseStatement : Nat → Parser → StmtResult × Parser
  | 0, p => (.noStmt, p)
  | f + 1, p0 =>
    let rl := parseLeadingComments f p0
    let leading := rl.1
    let p := rl.2
    if p.curTokenIs .eof then (.noStmt, p)
    else if p.curTokenIs .semicolon then (.noStmt, p.nextToken)
    else
      let d : Option (Option Statement × Parser) :=
        if p.curTokenIs .varTok then some (parseVarStatement f leading p)
        else if p.curTokenIs .importTok then some (parseImportStatement leading p)
        else if p.curTokenIs .ident ∧ p.peekTokenIs .assign then
          let r := parseAssignStatement f leading p
          some (some r.1, r.2)
        else if p.curTokenIs .ident ∧ (p.peekTokenIs .lbrace ∨ p.peekTokenIs .stringTok) then
          some (parseBlockStatement f leading p)
        else none
      match d with
      | none =>
        if p.lintMode then
          let msg : LintMessage :=
            if p.curToken.typ = .illegal then .illegalLiteral p.curToken.literal
            else .unexpectedToken p.curToken.typ p.curToken.literal
          let args : List (List Byte) :=
            if p.curToken.typ = .illegal then []
            else [tokenTypeStr p.curToken.typ, p.curToken.literal]
          let p' := { p with lintErrors := p.lintErrors ++
            [LintError.mk p.curToken.line p.curToken.column p.curToken.line
              (p.curToken.column + p.curToken.literal.length) msg .lint .unexpectedToken args] }
          (.noStmt, p'.nextToken)
        else
          (.noStmt, (p.appendError (.unexpectedToken p.curToken.typ p.curToken.literal)).nextToken)
      | some (os, p1) =>
        match os with
        | none =>
          let p2 :=
            if p1.peekTokenIs .commentTok ∧ p1.peekToken.line = p1.curToken.line then
              p1.nextToken
            else p1
          (.nilStmt, p2.nextToken)
        | some s =>
          if p1.peekTokenIs .commentTok ∧ p1.peekToken.line = p1.curToken.line then
            let p2 := p1.nextToken
            let c : AComment := ⟨p2.curToken, bytesToStr p2.curToken.literal⟩
            (.someStmt (attachLineComment s c), p2.nextToken)
          else (.someStmt s, p1.nextToken)

/-- `(*Parser).parseAssignStatement` (never returns nil). -/
def parseAssignStatement : Nat → List AComment → Parser → Statement × Parser
  | 0, leading, p => (.assign p.curToken ⟨p.curToken, bytesToStr p.curToken.literal⟩ none leading none, p)
  | f + 1, leading, p =>
    let tok := p.curToken
    let name : AIdent := ⟨p.curToken, bytesToStr p.curToken.literal⟩
    let p1 := p.nextToken.nextToken
    let r := parseExpression f p1 LOWEST
    (.assign tok name r.1 leading none, r.2)

/-- `(*Parser).parseBlockStatement`. -/
def parseBlockStatement : Nat → List AComment → Parser → Option Statement × Parser
  | 0, _, p => (none, p)
  | f + 1, leading, p =>
    let tok := p.curToken
    let name : AIdent := ⟨p.curToken, bytesToStr p.curToken.literal⟩
    let lr : Option AString × Parser :=
      if p.peekTokenIs .stringTok then
        let p' := p.nextToken
        (some ⟨p'.curToken, bytesToStr p'.curToken.literal⟩, p')
      else (none, p)
    let r := lr.2.expectPeek .lbrace
    if r.1 then
      let rb := parseBlockBody f r.2
      (some (.block tok name lr.1 rb.1 leading), rb.2)
    else (none, r.2)

/-- `(*Parser).parseBlockBody` (initial `nextToken`, then the loop). -/
def parseBlockBody : Nat → Parser → RootNode × Parser
  | 0, p => (.mk [], p)
  | f + 1, p => parseBlockBodyLoop f p.nextToken []

/-- The loop of `parseBlockBody`; emits the redundant-comma advisory for
commas between block statements. -/
def parseBlockBodyLoop : Nat → Parser → List Statement → RootNode × Parser
  | 0, p, acc => (.mk acc, p)
  | f + 1, p, acc =>
    if ¬p.curTokenIs .rbrace ∧ ¬p.curTokenIs .eof then
      let r := parseStatement f p
      let acc' := acc ++ r.1.toList
      let p1 := r.2
      if p1.curTokenIs .comma then
        let p2 := { p1 with lintErrors := p1.lintErrors ++
          [LintError.mk p1.curToken.line p1.curToken.column p1.curToken.line
            (p1.curToken.column + p1.curToken.literal.length)
            .redundantComma .fmtLevel .redundantComma []] }
        parseBlockBodyLoop f p2.nextToken acc'
      else parseBlockBodyLoop f p1 acc'
    else (.mk acc, p)

/-- `(*Parser).parseVarStatement`. -/
def parseVarStatement : Nat → List AComment → Parser → Option Statement × Parser
  | 0, _, p => (none, p)
  | f + 1, leading, p =>
    let tok := p.curToken
    let r1 := p.expectPeek .ident
    if r1.1 then
      let p1 := r1.2
      let name : AIdent := ⟨p1.curToken, bytesToStr p1.curToken.literal⟩
      let r2 := p1.expectPeek .assign
      if r2.1 then
        let p2 := r2.2.nextToken
        let r3 := parseExpression f p2 LOWEST
        (some (.varStmt tok name r3.1 leading none), r3.2)
      else (none, r2.2)
    else (none, r1.2)

/-- `(*Parser).parseExpression`: the prefix-parse-function dispatch
(`precedence` is accepted and unused, as in the Go source). -/
def parseExpression : Nat → Parser → Nat → Option Expression × Parser
  | 0, p, _ => (none, p)
  | f + 1, p, _ =>
    match p.curToken.typ with
    | .ident => p.parseIdentifier
    | .intTok => p.parseIntegerLiteral
    | .floatTok => p.parseFloatLiteral
    | .stringTok => (some p.parseStringLiteral, p)
    | .boolTok => p.parseBooleanLiteral
    | .durTok => (some p.parseDurationLiteral, p)
    | .lbrack => parseListLiteral f p
    | .lbrace => parseBlockOrMapLiteral f p
    | .dollarLbrace => p.parseVarExpression
    | t => (none, p.noPrefixParseFnError t)

/-- `(*Parser).parseListLiteral` (`HasTrailingComma` is never set by
the parser and stays `false`). -/
def parseListLiteral : Nat → Parser → Option Expression × Parser
  | 0, p => (none, p)
  | f + 1, p =>
    let tok := p.curToken
    let p1 := p.nextToken
    let r := parseExpressionList f .rbrack p1
    (some (.listLit tok r.1 false), r.2)

/-- `(*Parser).parseExpressionList`. -/
def parseExpressionList : Nat → TokenType → Parser → List Expression × Parser
  | 0, _, p => ([], p)
  | f + 1, endT, p =>
    if p.curTokenIs endT then ([], p)
    else
      let r := parseExpression f p LOWEST
      let r2 := parseExpressionListLoop f endT r.2 r.1.toList
      let p2 := r2.2
      if ¬p2.curTokenIs endT then (r2.1, (p2.expectPeek endT).2)
      else (r2.1, p2)

/-- The `for p.peekTokenIs(COMMA)` loop of `parseExpressionList`: a
comma immediately followed by `end` breaks out silently (no advisory of
any kind is recorded for the trailing comma). -/
def parseExpressionListLoop : Nat → TokenType → Parser → List Expression →
    List Expression × Parser
  | 0, _, p, acc => (acc, p)
  | f + 1, endT, p, acc =>
    if p.peekTokenIs .comma then
      let p1 := p.nextToken.nextToken
      if p1.curTokenIs endT then (acc, p1)
      else
        let r := parseExpression f p1 LOWEST
        parseExpressionListLoop f endT r.2 (acc ++ r.1.toList)
    else (acc, p)

/-- `(*Parser).parseBlockOrMapLiteral`. -/
def parseBlockOrMapLiteral : Nat → Parser → Option Expression × Parser
  | 0, p => (none, p)
  | f + 1, p =>
    if p.peekTokenIs .lbrack then parseMapLiteral f p
    else parseBlockLiteral f p

/-- `(*Parser).parseMapLiteral` (`none` both when the element list came
back nil and when the closing brace is missing). -/
def parseMapLiteral : Nat → Parser → Option Expression × Parser
  | 0, p => (none, p)
  | f + 1, p =>
    let tok := p.curToken
    let p1 := p.nextToken.nextToken
    let r := parseMapElementList f p1
    match r.1 with
    | none => (none, r.2)
    | some els =>
      let r2 := r.2.expectPeek .rbrace
      if r2.1 then (some (.mapLit tok els), r2.2) else (none, r2.2)

/-- `(*Parser).parseMapElementList`: an immediately closed `{[]}`
returns Go's nil slice (`none`), as does the mid-list abort. -/
def parseMapElementList : Nat → Parser → Option (List Statement) × Parser
  | 0, p => (none, p)
  | f + 1, p =>
    if p.curTokenIs .rbrack then (none, p)
    else parseMapElementListLoop f p []

/-- The loop of `parseMapElementList`; emits the missing-comma advisory
and auto-inserts the separator. -/
def parseMapElementListLoop : Nat → Parser → List Statement →
    Option (List Statement) × Parser
  | 0, p, _ => (none, p)
  | f + 1, p, acc =>
    let r := parseStatement f p
    match r.1 with
    | .noStmt => (none, r.2)
    | st =>
      let acc' := acc ++ st.toList
      let p1 := r.2
      if p1.curTokenIs .rbrack then (some acc', p1)
      else if p1.curTokenIs .comma then
        let p2 := p1.nextToken
        if p2.curTokenIs .rbrack then (some acc', p2)
        else parseMapElementListLoop f p2 acc'
      else
        let p2 := { p1 with lintErrors := p1.lintErrors ++
          [LintError.mk p1.curToken.line p1.curToken.column p1.curToken.line
            (p1.curToken.column + 1) (.missingComma p1.curToken.typ) .fmtLevel
            .missingComma [tokenTypeStr p1.curToken.typ]] }
        parseMapElementListLoop f p2 acc'

/-- `(*Parser).parseBlockLiteral`. -/
def parseBlockLiteral : Nat → Parser → Option Expression × Parser
  | 0, p => (none, p)
  | f + 1, p =>
    let tok := p.curToken
    let r := parseBlockBody f p
    (some (.blockLit tok r.1), r.2)

/-- The loop of `(*Parser).ParseProgram`. -/
def parseProgramLoop : Nat → Parser → List Statement → RootNode × Parser
  | 0, p, acc => (.mk acc, p)
  | f + 1, p, acc =>
    if ¬p.curTokenIs .eof then
      let r := parseStatement f p
      parseProgramLoop f r.2 (acc ++ r.1.toList)
    else (.mk acc, p)

end

/-- `(*Parser).ParseProgram`. -/
def parseProgram (fuel : Nat) (p : Parser) : RootNode × Parser :=
  parseProgramLoop fuel p []

end Parser

/-- `NewParser` from `parser.go` (two priming `nextToken`s; the
placeholder zero-value tokens are overwritten before any use). -/
def newParser (l : Lexer) : Parser :=
  Parser.nextToken (Parser.nextToken
    { l := l, errors := [], curToken := ⟨.illegal, [], 0, 0⟩,
      peekToken := ⟨.illegal, [], 0, 0⟩, lintMode := false, lintErrors := [] })

/-- Fuel that over-approximates the deepest call chain any parse of
`data` can make (each level consumes at least one of the at most
`length + 1` tokens or descends one nesting level). -/
def parseFuel (data : List Byte) : Nat :=
  (data.length + 16) * (data.length + 16)

/-! ## The lint analyzer (`wanf.go`)

Go maps are embedded as association lists in first-insertion order with
in-place overwrite (`bumpCount`, `setVar`), which preserves exactly the
reads the analyzer performs; Go's unspecified map iteration order only
affects the ordering of the unused-variable diagnostics, and the
theorems below depend on which diagnostics exist, not on their
positions.  `collect` is an explicit pre-order stack loop in Go
(children pushed in reverse); the structural recursion below performs
the identical pre-order visit. -/

/-- `a.blockCounts[k]++` on an association list. -/
def bumpCount : List (String × Nat) → String → List (String × Nat)
  | [], k => [(k, 1)]
  | (k', v) :: rest, k =>
    if k' = k then (k', v + 1) :: rest else (k', v) :: bumpCount rest k

/-- Go map read `m[k]` with the zero default. -/
def lookupCount : List (String × Nat) → String → Nat
  | [], _ => 0
  | kv :: rest, k => if kv.1 = k then kv.2 else lookupCount rest k

/-- `a.declaredVars[k] = tok` on an association list (`*VarStatement`
is represented by its `Token`, the only field the post-pass reads). -/
def setVar : List (String × Token) → String → Token → List (String × Token)
  | [], k, t => [(k, t)]
  | (k', t') :: rest, k, t =>
    if k' = k then (k', t) :: rest else (k', t') :: setVar rest k t

/-- Whether the association list has an entry for `k`. -/
def hasKey : List (String × Token) → String → Bool
  | [], _ => false
  | kv :: rest, k => kv.1 = k || hasKey rest k

/-- `a.usedVars[k] = true` (a string set). -/
def markUsed (s : List String) (k : String) : List String :=
  if s.contains k then s else s ++ [k]

/-- What `collect` accumulates: the block-name counts and the declared
variables. -/
structure CollectState where
  blockCounts : List (String × Nat)
  declaredVars : List (String × Token)

mutual

/-- `astAnalyzer.collect` on a document node. -/
def collectRoot : RootNode → CollectState → CollectState
  | .mk stmts, st => collectStmts stmts st

/-- `collect` over a statement list (the Go stack pops them in order). -/
def collectStmts : List Statement → CollectState → CollectState
  | [], st => st
  | s :: rest, st => collectStmts rest (collectStmt s st)

/-- `collect` on one statement: blocks bump their name's count and
descend into the body, `var` statements record themselves and descend
into their value, assignments descend into their value, imports have no
children. -/
def collectStmt : Statement → CollectState → CollectState
  | .block _ name _ body _, st =>
    collectRoot body { st with blockCounts := bumpCount st.blockCounts name.value }
  | .varStmt tok name v _ _, st =>
    collectOptExpr v { st with declaredVars := setVar st.declaredVars name.value tok }
  | .assign _ _ v _ _, st => collectOptExpr v st
  | .importStmt _ _ _ _, st => st

/-- A nil `Value` pushes nil, which the loop skips. -/
def collectOptExpr : Option Expression → CollectState → CollectState
  | none, st => st
  | some e, st => collectExpr e st

/-- `collect` on one expression: block literals descend into the body,
list literals into their elements; map literals and every leaf push no
children. -/
def collectExpr : Expression → CollectState → CollectState
  | .blockLit _ body, st => collectRoot body st
  | .listLit _ els _, st => collectExprs els st
  | _, st => st

/-- `collect` over a list-literal element list. -/
def collectExprs : List Expression → CollectState → CollectState
  | [], st => st
  | e :: rest, st => collectExprs rest (collectExpr e st)

end

/-- Go's `\w` (the `regexp` default is ASCII `[0-9A-Za-z_]`). -/
def isWordChar (c : Char) : Bool := c.isAlphanum || c = '_'

/-- Scanner state for the `varRegex` scan: outside any candidate, just
after a `$`, or inside `$\x7b...` with the word run accumulated so far. -/
inductive ScanState where
  | out
  | dollar
  | inside (acc : List Char)

/-- One left-to-right pass of `varRegex = \$\x7b(\w+)\x7d`
(`FindAllStringSubmatch`): emits each captured name.  A failed
candidate resumes at the failing character in the outside state, which
is the restart the regex engine performs (the characters consumed into
the word run cannot start a match, none of them is `$`). -/
def scanSM : List Char → ScanState → List String
  | [], _ => []
  | c :: rest, .out =>
    if c = '$' then scanSM rest .dollar else scanSM rest .out
  | c :: rest, .dollar =>
    if c = '{' then scanSM rest (.inside [])
    else if c = '$' then scanSM rest .dollar
    else scanSM rest .out
  | c :: rest, .inside acc =>
    if isWordChar c then scanSM rest (.inside (acc ++ [c]))
    else if c = '}' ∧ acc ≠ [] then String.mk acc :: scanSM rest .out
    else if c = '$' then scanSM rest .dollar
    else scanSM rest .out

/-- The captured interpolation names of a string's text. -/
def scanVars (cs : List Char) : List String := scanSM cs .out

/-- What `check` accumulates: the diagnostics and the used-variable
set (`blockCounts` is read-only during `check` and passed separately). -/
structure CheckState where
  errors : List LintError
  usedVars : List String

mutual

/-- `astAnalyzer.check` on a document node. -/
def checkRoot (bc : List (String × Nat)) : RootNode → CheckState → RootNode × CheckState
  | .mk stmts, st =>
    let r := checkStmts bc stmts st
    (.mk r.1, r.2)

/-- `check` over a statement list (in order). -/
def checkStmts (bc : List (String × Nat)) : List Statement → CheckState →
    List Statement × CheckState
  | [], st => ([], st)
  | s :: rest, st =>
    let r1 := checkStmt bc s st
    let r2 := checkStmts bc rest r1.2
    (r1.1 :: r2.1, r2.2)

/-- `check` on one statement.  A labelled block whose name's collected
count is one gets the redundant-label diagnostic and is rebuilt without
its label (body and leading comments carried over); import statements
fall to the untouched default case. -/
def checkStmt (bc : List (String × Nat)) : Statement → CheckState → Statement × CheckState
  | .block tok name label body leading, st =>
    let rb := checkRoot bc body st
    match label with
    | some lb =>
      if lookupCount bc name.value = 1 then
        (.block tok name none rb.1 leading,
          { rb.2 with errors := rb.2.errors ++
            [LintError.mk tok.line tok.column tok.line (tok.column + name.value.length)
              (.redundantLabel name.value lb.value) .lint .unknown []] })
      else (.block tok name (some lb) rb.1 leading, rb.2)
    | none => (.block tok name none rb.1 leading, rb.2)
  | .assign tok name v leading lc, st =>
    match v with
    | some e =>
      let r := checkExpr bc e st
      (.assign tok name (some r.1) leading lc, r.2)
    | none => (.assign tok name none leading lc, st)
  | .varStmt tok name v leading lc, st =>
    match v with
    | some e =>
      let r := checkExpr bc e st
      (.varStmt tok name (some r.1) leading lc, r.2)
    | none => (.varStmt tok name none leading lc, st)
  | s, st => (s, st)

/-- `check` on one expression: variable references mark their name
used, string literals are scanned for `$\x7b...\x7d` interpolations;
map literals and the remaining leaves fall to the untouched default
case. -/
def checkExpr (bc : List (String × Nat)) : Expression → CheckState → Expression × CheckState
  | .blockLit tok body, st =>
    let r := checkRoot bc body st
    (.blockLit tok r.1, r.2)
  | .listLit tok els hc, st =>
    let r := checkExprs bc els st
    (.listLit tok r.1 hc, r.2)
  | .varExpr tok name, st =>
    (.varExpr tok name, { st with usedVars := markUsed st.usedVars name })
  | .stringLit v, st =>
    (.stringLit v,
      { st with usedVars := (scanVars v.value.data).foldl markUsed st.usedVars })
  | e, st => (e, st)

/-- `check` over a list-literal element list. -/
def checkExprs (bc : List (String × Nat)) : List Expression → CheckState →
    List Expression × CheckState
  | [], st => ([], st)
  | e :: rest, st =>
    let r1 := checkExpr bc e st
    let r2 := checkExprs bc rest r1.2
    (r1.1 :: r2.1, r2.2)

end

/-- The unused-variable post-pass of `Analyze` (Go iterates the map in
unspecified order; the model iterates in insertion order). -/
def unusedErrors (declared : List (String × Token)) (used : List String) : List LintError :=
  (declared.filter fun kv => ¬used.contains kv.1).map fun kv =>
    LintError.mk kv.2.line kv.2.column kv.2.line (kv.2.column + kv.1.length)
      (.unusedVariable kv.1) .lint .unknown []

/-- `astAnalyzer.Analyze`: collect, check, then the unused-variable
post-pass; `errs0` is the `errors` field the analyzer starts from
(`p.LintErrors()` in `Lint`). -/
def analyzerAnalyze (errs0 : List LintError) (program : RootNode) :
    RootNode × List LintError :=
  let cs := collectRoot program ⟨[], []⟩
  let r := checkRoot cs.blockCounts program ⟨errs0, []⟩
  (r.1, r.2.errors ++ unusedErrors cs.declaredVars r.2.usedVars)

/-- `Lint` from `wanf.go`: parse in lint mode; fatal parser errors
short-circuit to a single synthetic diagnostic at 1:1 wrapping the
joined fatal errors (the collected advisories are discarded); otherwise
the analyzer runs seeded with the parser's advisories. -/
def Lint (data : List Byte) : RootNode × List LintError :=
  let r := Parser.parseProgram (parseFuel data) ((newParser (newLexer data)).setLintMode true)
  let program := r.1
  let pp := r.2
  if pp.errors.isEmpty then analyzerAnalyze pp.lintErrors program
  else
    (program, [LintError.mk 1 1 1 1 (.parserErrorsJoined pp.errors) .lint .unknown []])

/-! ## Spec-side mirrors of the analyzer walk

The claims C5 and C6 speak of "the whole-document block-name count"
and of interpolations "anywhere in the document".  The analyzer's walk
does not reach everything: neither `collect` nor `check` descends into
map-literal elements, and block labels are never scanned.  The
definitions below state the walk's reach directly, without the
analyzer's threaded state, so the theorems can say exactly which
occurrences count. -/

mutual

/-- How often a block named `n` occurs in the analyzer-visited part of
a document (map-literal contents are not visited). -/
def specBlockCountRoot (n : String) : RootNode → Nat
  | .mk stmts => specBlockCountStmts n stmts

def specBlockCountStmts (n : String) : List Statement → Nat
  | [] => 0
  | s :: rest => specBlockCountStmt n s + specBlockCountStmts n rest

def specBlockCountStmt (n : String) : Statement → Nat
  | .block _ name _ body _ =>
    (if name.value = n then 1 else 0) + specBlockCountRoot n body
  | .assign _ _ v _ _ => specBlockCountOpt n v
  | .varStmt _ _ v _ _ => specBlockCountOpt n v
  | .importStmt _ _ _ _ => 0

def specBlockCountOpt (n : String) : Option Expression → Nat
  | none => 0
  | some e => specBlockCountExpr n e

def specBlockCountExpr (n : String) : Expression → Nat
  | .blockLit _ body => specBlockCountRoot n body
  | .listLit _ els _ => specBlockCountExprs n els
  | _ => 0

def specBlockCountExprs (n : String) : List Expression → Nat
  | [] => 0
  | e :: rest => specBlockCountExpr n e + specBlockCountExprs n rest

end

mutual

/-- The redundant-label pass as the (corrected) spec describes it, for
a given block-name count `bc`: every visited labelled block whose name
counts one is replaced by the same block without its label (body
transformed recursively, leading comments untouched) and contributes
one advisory, in walk order. -/
def specCheckRoot (bc : String → Nat) : RootNode → RootNode × List LintError
  | .mk stmts =>
    let r := specCheckStmts bc stmts
    (.mk r.1, r.2)

def specCheckStmts (bc : String → Nat) : List Statement → List Statement × List LintError
  | [] => ([], [])
  | s :: rest =>
    let r1 := specCheckStmt bc s
    let r2 := specCheckStmts bc rest
    (r1.1 :: r2.1, r1.2 ++ r2.2)

def specCheckStmt (bc : String → Nat) : Statement → Statement × List LintError
  | .block tok name label body leading =>
    let rb := specCheckRoot bc body
    match label with
    | some lb =>
      if bc name.value = 1 then
        (.block tok name none rb.1 leading,
          rb.2 ++ [LintError.mk tok.line tok.column tok.line
            (tok.column + name.value.length) (.redundantLabel name.value lb.value)
            .lint .unknown []])
      else (.block tok name (some lb) rb.1 leading, rb.2)
    | none => (.block tok name none rb.1 leading, rb.2)
  | .assign tok name v leading lc =>
    match v with
    | some e =>
      let r := specCheckExpr bc e
      (.assign tok name (some r.1) leading lc, r.2)
    | none => (.assign tok name none leading lc, [])
  | .varStmt tok name v leading lc =>
    match v with
    | some e =>
      let r := specCheckExpr bc e
      (.varStmt tok name (some r.1) leading lc, r.2)
    | none => (.varStmt tok name none leading lc, [])
  | s => (s, [])

def specCheckExpr (bc : String → Nat) : Expression → Expression × List LintError
  | .blockLit tok body =>
    let r := specCheckRoot bc body
    (.blockLit tok r.1, r.2)
  | .listLit tok els hc =>
    let r := specCheckExprs bc els
    (.listLit tok r.1 hc, r.2)
  | e => (e, [])

def specCheckExprs (bc : String → Nat) : List Expression → List Expression × List LintError
  | [] => ([], [])
  | e :: rest =>
    let r1 := specCheckExpr bc e
    let r2 := specCheckExprs bc rest
    (r1.1 :: r2.1, r1.2 ++ r2.2)

end

mutual

/-- The variable names the analyzer marks used: visited `$\x7b...\x7d`
variable references plus the interpolation names scanned out of visited
string literals (strings inside map literals and block labels are not
visited). -/
def specUsedRoot : RootNode → List String
  | .mk stmts => specUsedStmts stmts

def specUsedStmts : List Statement → List String
  | [] => []
  | s :: rest => specUsedStmt s ++ specUsedStmts rest

def specUsedStmt : Statement → List String
  | .block _ _ _ body _ => specUsedRoot body
  | .assign _ _ v _ _ => specUsedOpt v
  | .varStmt _ _ v _ _ => specUsedOpt v
  | .importStmt _ _ _ _ => []

def specUsedOpt : Option Expression → List String
  | none => []
  | some e => specUsedExpr e

def specUsedExpr : Expression → List String
  | .varExpr _ name => [name]
  | .stringLit v => scanVars v.value.data
  | .blockLit _ body => specUsedRoot body
  | .listLit _ els _ => specUsedExprs els
  | _ => []

def specUsedExprs : List Expression → List String
  | [] => []
  | e :: rest => specUsedExpr e ++ specUsedExprs rest

end

mutual

/-- The variable names declared by visited `var` statements. -/
def specDeclaredRoot : RootNode → List String
  | .mk stmts => specDeclaredStmts stmts

def specDeclaredStmts : List Statement → List String
  | [] => []
  | s :: rest => specDeclaredStmt s ++ specDeclaredStmts rest

def specDeclaredStmt : Statement → List String
  | .block _ _ _ body _ => specDeclaredRoot body
  | .assign _ _ v _ _ => specDeclaredOpt v
  | .varStmt _ name v _ _ => name.value :: specDeclaredOpt v
  | .importStmt _ _ _ _ => []

def specDeclaredOpt : Option Expression → List String
  | none => []
  | some e => specDeclaredExpr e

def specDeclaredExpr : Expression → List String
  | .blockLit _ body => specDeclaredRoot body
  | .listLit _ els _ => specDeclaredExprs els
  | _ => []

def specDeclaredExprs : List Expression → List String
  | [] => []
  | e :: rest => specDeclaredExpr e ++ specDeclaredExprs rest

end

/-- Whether a diagnostic is the redundant-label advisory. -/
def isRedundantLabelErr (e : LintError) : Bool :=
  match e.message with
  | .redundantLabel _ _ => true
  | _ => false

/-- Whether a diagnostic is the unused-variable advisory for `x`. -/
def isUnusedVarErrNaming (x : String) (e : LintError) : Bool :=
  match e.message with
  | .unusedVariable n => n == x
  | _ => false

/-! ## Import resolution (`decoder.go`)

`processImports` inlines imported files recursively, sharing one
`processed` set across the whole resolution (the Go map is mutated in
place, so marks made inside a nested call persist for later loop
iterations; the model threads the set through and returns it).  The
path helpers model `path/filepath` for absolute, `/`-separated paths of
plain components — no `.`/`..` segments and no working-directory
resolution of relative paths (Go's `filepath.Abs` would consult the
process working directory there; `goFilepathAbs` instead reports the
input as outside the modelled domain, and no claim exercises it).

Recursion is fuelled only at file boundaries (`piF` spends one fuel per
nesting level, i.e. per freshly imported file; the statement loop
`piLoop` is structural), so any fuel at least the import nesting depth
gives the Go behaviour. -/

/-- Collapse runs of `/` (the part of `filepath.Clean` the modelled
paths need); `prevSlash` remembers whether the previous kept character
was a slash. -/
def collapseSlashes : List Char → Bool → List Char
  | [], _ => []
  | c :: rest, prevSlash =>
    if c = '/' then
      if prevSlash then collapseSlashes rest true
      else '/' :: collapseSlashes rest true
    else c :: collapseSlashes rest false

/-- `filepath.Clean` on the modelled path domain. -/
def goPathClean (s : String) : String := String.mk (collapseSlashes s.data false)

/-- `filepath.Join` on the modelled path domain (empty elements are
skipped, the concatenation is cleaned). -/
def goFilepathJoin (base p : String) : String :=
  if base = "" then goPathClean p else goPathClean (base ++ "/" ++ p)

/-- `filepath.Abs` on the modelled path domain: an absolute path is
cleaned; a relative path would need the working directory and is
outside the model. -/
def goFilepathAbs (p : String) : Option String :=
  if p.data.head? = some '/' then some (goPathClean p) else none

/-- `filepath.Dir` on the modelled path domain. -/
def goFilepathDir (p : String) : String :=
  let pre := (p.data.reverse.dropWhile fun c => ¬c = '/').reverse
  match pre with
  | [] => "."
  | ['/'] => "/"
  | _ => String.mk pre.dropLast

/-- The file system visible to `os.ReadFile`: absolute path to bytes. -/
def FS := List (String × List Byte)

/-- `os.ReadFile` (`none` is a read error). -/
def fsRead (fs : FS) (path : String) : Option (List Byte) :=
  match fs.find? fun kv => kv.1 == path with
  | some kv => some kv.2
  | none => none

/-- The error cases `processImports` can return (each constructor is
one `fmt.Errorf` site; `outOfFuel` is the model's fuel exhaustion,
unreachable with fuel at least the import nesting depth). -/
inductive PIErr where
  | absOutsideModel (importPath : String)
  | readError (importPath : String)
  | parseErrors (importPath : String) (errs : List LintError)
  | rootParseErrors (errs : List LintError)
  | outOfFuel

/-- The statement loop of `processImports`: `recurse` is the handle for
resolving a freshly read file (one nesting level deeper). -/
def piLoop (fs : FS)
    (recurse : List Statement → String → List String →
      Except PIErr (List Statement × List String)) :
    List Statement → String → List String → Except PIErr (List Statement × List String)
  | [], _, processed => .ok ([], processed)
  | stmt :: rest, basePath, processed =>
    match stmt with
    | .importStmt _ path _ _ =>
      let importPath := goFilepathJoin basePath path.value
      match goFilepathAbs importPath with
      | none => .error (.absOutsideModel importPath)
      | some absPath =>
        if processed.contains absPath then
          piLoop fs recurse rest basePath processed
        else
          let processed1 := processed ++ [absPath]
          match fsRead fs absPath with
          | none => .error (.readError importPath)
          | some data =>
            let r := Parser.parseProgram (parseFuel data) (newParser (newLexer data))
            if r.2.errors.isEmpty then
              match recurse r.1.statements (goFilepathDir absPath) processed1 with
              | .error e => .error e
              | .ok (importedStmts, processed2) =>
                match piLoop fs recurse rest basePath processed2 with
                | .error e => .error e
                | .ok (tail, processed3) => .ok (importedStmts ++ tail, processed3)
            else .error (.parseErrors importPath r.2.errors)
    | s =>
      match piLoop fs recurse rest basePath processed with
      | .error e => .error e
      | .ok (tail, processed2) => .ok (s :: tail, processed2)

/-- `processImports`, fuelled per import nesting level. -/
def piF (fs : FS) : Nat → List Statement → String → List String →
    Except PIErr (List Statement × List String)
  | 0, _, _, _ => .error .outOfFuel
  | f + 1, stmts, basePath, processed => piLoop fs (piF fs f) stmts basePath processed

/-- The import-resolution slice of `NewDecoder`: parse the root bytes
(not in lint mode), fail on fatal parser errors, then run
`processImports` with the decoder's base path (the zero value `""`
unless `WithBasePath` was given) and an initially empty processed set. -/
def newDecoderResolve (fs : FS) (data : List Byte) (basePath : String) (fuel : Nat) :
    Except PIErr (List Statement) :=
  let r := Parser.parseProgram (parseFuel data) (newParser (newLexer data))
  if r.2.errors.isEmpty then
    match piF fs fuel r.1.statements basePath [] with
    | .ok (stmts, _) => .ok stmts
    | .error e => .error e
  else .error (.rootParseErrors r.2.errors)

/-- Whether a statement list contains no import statement. -/
def noImports : List Statement → Bool
  | [] => true
  | .importStmt _ _ _ _ :: _ => false
  | _ :: rest => noImports rest

theorem piLoop_no_imports (fs : FS)
    (recurse : List Statement → String → List String →
      Except PIErr (List Statement × List String))
    (stmts : List Statement) (bp : String) (processed : List String)
    (h : noImports stmts = true) :
    piLoop fs recurse stmts bp processed = .ok (stmts, processed) := by
  induction stmts with
  | nil => rfl
  | cons s rest ih =>
    match s with
    | .importStmt a b c d => simp [noImports] at h
    | .assign a b c d e =>
      rw [show noImports (Statement.assign a b c d e :: rest) = noImports rest from rfl] at h
      simp only [piLoop, ih h]
    | .block a b c d e =>
      rw [show noImports (Statement.block a b c d e :: rest) = noImports rest from rfl] at h
      simp only [piLoop, ih h]
    | .varStmt a b c d e =>
      rw [show noImports (Statement.varStmt a b c d e :: rest) = noImports rest from rfl] at h
      simp only [piLoop, ih h]

theorem piF_succ (fs : FS) (g : Nat) (stmts : List Statement) (bp : String)
    (processed : List String) :
    piF fs (g + 1) stmts bp processed = piLoop fs (piF fs g) stmts bp processed := rfl

theorem piLoop_import_skip (fs : FS)
    (recurse : List Statement → String → List String →
      Except PIErr (List Statement × List String))
    (tok : Token) (s : AString) (lc : List AComment) (ln : Option AComment)
    (rest : List Statement) (bp : String) (processed : List String) (absPath : String)
    (habs : goFilepathAbs (goFilepathJoin bp s.value) = some absPath)
    (hc : processed.contains absPath = true) :
    piLoop fs recurse (.importStmt tok s lc ln :: rest) bp processed =
      piLoop fs recurse rest bp processed := by
  simp only [piLoop, habs, hc, if_true]

theorem piLoop_import_fresh (fs : FS)
    (recurse : List Statement → String → List String →
      Except PIErr (List Statement × List String))
    (tok : Token) (s : AString) (lc : List AComment) (ln : Option AComment)
    (rest : List Statement) (bp : String) (processed : List String) (absPath : String)
    (data : List Byte)
    (habs : goFilepathAbs (goFilepathJoin bp s.value) = some absPath)
    (hc : processed.contains absPath = false)
    (hread : fsRead fs absPath = some data)
    (herr : (Parser.parseProgram (parseFuel data)
      (newParser (newLexer data))).2.errors.isEmpty = true) :
    piLoop fs recurse (.importStmt tok s lc ln :: rest) bp processed =
      match recurse (Parser.parseProgram (parseFuel data)
          (newParser (newLexer data))).1.statements
          (goFilepathDir absPath) (processed ++ [absPath]) with
      | .error e => .error e
      | .ok (importedStmts, processed2) =>
        match piLoop fs recurse rest bp processed2 with
        | .error e => .error e
        | .ok (tail, processed3) => .ok (importedStmts ++ tail, processed3) := by
  simp only [piLoop, habs, hc, hread, herr, if_true, Bool.false_eq_true, if_false]

/-- C1 (corrected): for the two-file import cycle — the root file at
`/a.wanf` whose first statement imports `/b.wanf`, and `/b.wanf` whose
first statement imports `/a.wanf` back — resolution from `NewDecoder`
(empty processed set, default base path `""`) terminates with no error
at any fuel at least the nesting depth, and produces
`(restA ++ restB) ++ restA`: the imported file's non-import statements
appear exactly once, but the ROOT file's non-import statements appear
TWICE, because `processImports` never adds the root document's own path
to the processed set — when `/b.wanf` imports `/a.wanf` back, the root
file is read again and inlined before the root's trailing statements
are appended.  The original claim's "each of the two files exactly
once" holds only for the imported file. -/
theorem C1_import_cycle_root_inlined_twice (f : Nat) (da db : List Byte)
    (tokA tokB : Token) (sB sA : AString) (lcA lcB : List AComment)
    (lnA lnB : Option AComment) (restA restB : List Statement)
    (hA : (Parser.parseProgram (parseFuel da) (newParser (newLexer da))).1.statements =
      .importStmt tokA sB lcA lnA :: restA)
    (haErr : (Parser.parseProgram (parseFuel da)
      (newParser (newLexer da))).2.errors.isEmpty = true)
    (hsB : sB.value = "/b.wanf")
    (hB : (Parser.parseProgram (parseFuel db) (newParser (newLexer db))).1.statements =
      .importStmt tokB sA lcB lnB :: restB)
    (hbErr : (Parser.parseProgram (parseFuel db)
      (newParser (newLexer db))).2.errors.isEmpty = true)
    (hsA : sA.value = "/a.wanf")
    (hra : noImports restA = true)
    (hrb : noImports restB = true) :
    newDecoderResolve [("/a.wanf", da), ("/b.wanf", db)] da "" (f + 1 + 1 + 1) =
      .ok ((restA ++ restB) ++ restA) := by
  have habsB : ∀ bp : String, bp = "" ∨ bp = "/" →
      goFilepathAbs (goFilepathJoin bp sB.value) = some "/b.wanf" := by
    rintro bp (h | h) <;> rw [h, hsB] <;> rfl
  have habsA : goFilepathAbs (goFilepathJoin "/" sA.value) = some "/a.wanf" := by
    rw [hsA]
    rfl
  have hLa : piF [("/a.wanf", da), ("/b.wanf", db)] (f + 1)
      ((Parser.parseProgram (parseFuel da) (newParser (newLexer da))).1.statements)
      "/" ["/b.wanf", "/a.wanf"] = .ok (restA, ["/b.wanf", "/a.wanf"]) := by
    rw [hA, piF_succ]
    rw [piLoop_import_skip [("/a.wanf", da), ("/b.wanf", db)] _ tokA sB lcA lnA restA "/"
      ["/b.wanf", "/a.wanf"] "/b.wanf" (habsB "/" (Or.inr rfl)) rfl]
    exact piLoop_no_imports _ _ restA _ _ hra
  have hLb : piF [("/a.wanf", da), ("/b.wanf", db)] (f + 1 + 1)
      ((Parser.parseProgram (parseFuel db) (newParser (newLexer db))).1.statements)
      "/" ["/b.wanf"] = .ok (restA ++ restB, ["/b.wanf", "/a.wanf"]) := by
    rw [hB, piF_succ]
    rw [piLoop_import_fresh [("/a.wanf", da), ("/b.wanf", db)] _ tokB sA lcB lnB restB "/"
      ["/b.wanf"] "/a.wanf" da habsA rfl rfl haErr]
    rw [show (["/b.wanf"] ++ ["/a.wanf"] : List String) = ["/b.wanf", "/a.wanf"] from rfl]
    rw [show goFilepathDir "/a.wanf" = "/" from rfl]
    rw [hLa]
    simp only [piLoop_no_imports _ _ restB _ _ hrb]
  simp only [newDecoderResolve, haErr, if_true]
  rw [hA, piF_succ]
  rw [piLoop_import_fresh [("/a.wanf", da), ("/b.wanf", db)] _ tokA sB lcA lnA restA "" []
    "/b.wanf" db (habsB "" (Or.inl rfl)) rfl rfl hbErr]
  rw [show (([] : List String) ++ ["/b.wanf"]) = ["/b.wanf"] from rfl]
  rw [show goFilepathDir "/b.wanf" = "/" from rfl]
  rw [hLb]
  simp only [piLoop_no_imports _ _ restA _ _ hra]

/-- Witness: C1 applied to the concrete cycle `/a.wanf` =
`import "/b.wanf"` + `x = 1` and `/b.wanf` = `import "/a.wanf"` +
`y = 2`, whose parses discharge every hypothesis by computation. -/
theorem C1_import_cycle_root_inlined_twice_witness :
    newDecoderResolve
        [("/a.wanf", strBytes "import \"/b.wanf\"\nx = 1"),
         ("/b.wanf", strBytes "import \"/a.wanf\"\ny = 2")]
        (strBytes "import \"/b.wanf\"\nx = 1") "" (0 + 1 + 1 + 1) =
      .ok (((Parser.parseProgram (parseFuel (strBytes "import \"/b.wanf\"\nx = 1"))
            (newParser (newLexer (strBytes "import \"/b.wanf\"\nx = 1")))).1.statements.tail ++
          (Parser.parseProgram (parseFuel (strBytes "import \"/a.wanf\"\ny = 2"))
            (newParser (newLexer (strBytes "import \"/a.wanf\"\ny = 2")))).1.statements.tail) ++
          (Parser.parseProgram (parseFuel (strBytes "import \"/b.wanf\"\nx = 1"))
            (newParser (newLexer (strBytes "import \"/b.wanf\"\nx = 1")))).1.statements.tail) := by
  exact C1_import_cycle_root_inlined_twice 0
    (strBytes "import \"/b.wanf\"\nx = 1") (strBytes "import \"/a.wanf\"\ny = 2")
    ⟨.importTok, strBytes "import", 1, 1⟩ ⟨.importTok, strBytes "import", 1, 1⟩
    ⟨⟨.stringTok, strBytes "/b.wanf", 1, 8⟩, "/b.wanf"⟩
    ⟨⟨.stringTok, strBytes "/a.wanf", 1, 8⟩, "/a.wanf"⟩ [] [] none none
    _ _ rfl (by decide) rfl rfl (by decide) rfl (by decide) (by decide)

/-- Counterexample to the original C1: resolving the concrete cycle
(`/a.wanf` imports `/b.wanf` and assigns `x = 1`; `/b.wanf` imports
`/a.wanf` back and assigns `y = 2`) from the root `/a.wanf` terminates
without error — but yields three statements `x = 1; y = 2; x = 1`: the
root file's assignment appears twice, not "exactly once". -/
theorem C1_counterexample_root_statement_duplicated :
    (match newDecoderResolve
        [("/a.wanf", strBytes "import \"/b.wanf\"\nx = 1"),
         ("/b.wanf", strBytes "import \"/a.wanf\"\ny = 2")]
        (strBytes "import \"/b.wanf\"\nx = 1") "" 8 with
      | .ok [.assign _ n1 (some (.integerLit _ v1)) _ _,
             .assign _ n2 (some (.integerLit _ v2)) _ _,
             .assign _ n3 (some (.integerLit _ v3)) _ _] =>
        n1.value == "x" && n2.value == "y" && n3.value == "x" &&
          v1 == 1 && v2 == 2 && v3 == 1
      | _ => false) = true := by
  decide

/-! ## The encoder (`encoder.go`, second/current version)

`encoder.go` holds two generations of the encoder; the later one
(`internalEncoder`/`streamInternalEncoder` sharing `gatherFields`,
`cacheStructInfo`, `isBlockType`, `isZero`) is authoritative, and the
two encoders in it write byte-identical output (the stream variant only
adds buffering and error plumbing), so one model covers both.

Values are embedded as `GoValue`: strings, signed integers, bools,
slices/arrays, string-keyed maps and nested structs — the value kinds
the claims quantify over.  Not modelled (documented scope): float
fields (`strconv.AppendFloat` shortest-form), `time.Duration` fields
(`Duration.String`), unsigned-integer fields (which the `encodeValue`
switch silently drops), pointer indirection, unexported struct fields,
and non-string map keys (whose `reflect.Value.String()` placeholder
rendering no claim touches).

`sort.Slice` is not a stable sort; the model uses insertion sort, which
agrees with it whenever the comparator is total on the inputs — always
the case for map entries (distinct keys); for struct fields two fields
with equal tag name and kind would be ordered arbitrarily by Go, which
no claim exercises.  Go map iteration order is arbitrary: a `mapV`
entry list represents one iteration order, and C9 is exactly the
statement that the order does not matter.  The mutual encode functions
take fuel (the sort in `encodeStruct` hides the structural descent from
the termination checker); fuel is never part of a claim — the theorems
hold at every fuel. -/

mutual
/-- The modelled `reflect.Value` universe. -/
inductive GoValue where
  | str (s : String)
  | intV (i : Int)
  | boolV (b : Bool)
  | slice (els : List GoValue)
  | mapV (entries : List (String × GoValue))
  | structV (fields : List GoField)

/-- One declared struct field: Go field name, raw `wanf` tag string,
and the field's value. -/
inductive GoField where
  | mk (fieldName : String) (tagStr : String) (value : GoValue)
end

/-- `wanfTag` from `wanf_tag.go`. -/
structure WanfTag where
  name : String
  keyField : String
  omitempty : Bool
  deriving Repr, DecidableEq

/-- Split on `,` (`strings.Split`). -/
def splitComma : List Char → List (List Char)
  | [] => [[]]
  | c :: rest =>
    let r := splitComma rest
    if c = ',' then [] :: r
    else
      match r with
      | [] => [[c]]
      | h :: t => (c :: h) :: t

/-- The whitespace class of `strings.TrimSpace` (ASCII part; the claims
use no exotic Unicode spaces in tags). -/
def isSpaceChar (c : Char) : Bool :=
  c = ' ' || c = '\t' || c = '\n' || c = '\r' || c = '\x0b' || c = '\x0c'

/-- `strings.TrimSpace`. -/
def goTrimSpace (s : String) : String :=
  String.mk (((s.data.dropWhile isSpaceChar).reverse.dropWhile isSpaceChar).reverse)

/-- `strings.HasPrefix` at the character level. -/
def charsPrefix : List Char → List Char → Bool
  | [], _ => true
  | _ :: _, [] => false
  | p :: ps, c :: cs => p = c && charsPrefix ps cs

/-- `parseWanfTag` from `wanf_tag.go`: first comma part is the name
(field name when empty; the name part is not trimmed), later parts are
trimmed and understood as `key=...` or `omitempty`. -/
def parseWanfTag (tagStr fieldName : String) : WanfTag :=
  if tagStr = "" then ⟨fieldName, "", false⟩
  else
    let parts := (splitComma tagStr.data).map String.mk
    let name0 := parts.headD ""
    let tag0 : WanfTag := ⟨if name0 = "" then fieldName else name0, "", false⟩
    parts.tail.foldl
      (fun tag part =>
        let part := goTrimSpace part
        if charsPrefix "key=".data part.data then
          { tag with keyField := String.mk (part.data.drop 4) }
        else if part = "omitempty" then { tag with omitempty := true }
        else tag)
      tag0

/-- `v.Kind() == reflect.Map`. -/
def GoValue.isMapKind : GoValue → Bool
  | .mapV _ => true
  | _ => false

/-- `v.Kind() == reflect.Slice` (or `Array`). -/
def GoValue.isSliceKind : GoValue → Bool
  | .slice _ => true
  | _ => false

/-- `isBlockType` from `encoder.go`: only structs are blocks (maps are
values; `time.Duration` is outside the model). -/
def GoValue.isStructKind : GoValue → Bool
  | .structV _ => true
  | _ => false

/-- `v.Len()` for map values. -/
def GoValue.mapLen : GoValue → Nat
  | .mapV es => es.length
  | _ => 0

/-- `isZero` from `encoder.go` on the modelled kinds (structs fall to
the `false` default). -/
def isZero : GoValue → Bool
  | .str s => s.length = 0
  | .intV i => i = 0
  | .boolV b => !b
  | .slice els => els.isEmpty
  | .mapV es => es.isEmpty
  | .structV _ => false

/-- `fieldInfo` from `encoder.go` (the tag is consumed by
`gatherFields`; nothing downstream reads it). -/
structure FieldInfo where
  name : String
  value : GoValue
  isBlock : Bool
  isBlockLike : Bool

/-- `gatherFields` from `encoder.go` (with `cacheStructInfo` inlined):
parse each field's tag, skip a field when `omitempty` holds and the
value is zero, OR — unconditionally — when the value is a zero-length
map; `isBlock` per `isBlockType`, `isBlockLike` adds maps and slices. -/
def gatherFields : List GoField → List FieldInfo
  | [] => []
  | .mk fn ts v :: rest =>
    let tag := parseWanfTag ts fn
    if (tag.omitempty && isZero v) || (v.isMapKind && v.mapLen == 0) then gatherFields rest
    else
      ⟨tag.name, v, v.isStructKind, v.isStructKind || v.isMapKind || v.isSliceKind⟩ ::
        gatherFields rest

/-- Insert into a sorted list (the model of `sort.Slice` for a total
comparator). -/
def insertSorted (less : α → α → Bool) (x : α) : List α → List α
  | [] => [x]
  | y :: rest => if less x y then x :: y :: rest else y :: insertSorted less x rest

/-- Insertion sort. -/
def insertionSort (less : α → α → Bool) : List α → List α
  | [] => []
  | x :: rest => insertSorted less x (insertionSort less rest)

/-- Lexicographic order on character sequences; Go compares strings
byte-wise, and UTF-8 byte order agrees with code-point order, so this
is Go's `<` on strings. -/
def strLess : List Char → List Char → Bool
  | [], [] => false
  | [], _ :: _ => true
  | _ :: _, [] => false
  | a :: as, b :: bs =>
    if a.toNat < b.toNat then true
    else if b.toNat < a.toNat then false
    else strLess as bs

/-- Go's `<` on strings. -/
def goStringLess (a b : String) : Bool := strLess a.data b.data

/-- The struct-field comparator of `encodeStruct`: key-value fields
before blocks, then alphabetical. -/
def fieldLess (a b : FieldInfo) : Bool :=
  if a.isBlock != b.isBlock then !a.isBlock else goStringLess a.name b.name

/-- The map-entry comparator of `encodeMap`. -/
def entryLess (a b : String × GoValue) : Bool := goStringLess a.1 b.1

/-- `writeNewLine`. -/
def wNewLine (opts : FormatOptions) : String :=
  if opts.style = .singleLine then "" else "\n"

/-- `writeSpace`. -/
def wSpace (opts : FormatOptions) : String :=
  if opts.style = .singleLine then "" else " "

/-- `writeIndent`. -/
def wIndent (opts : FormatOptions) (ind : Nat) : String :=
  if opts.style = .singleLine then "" else String.mk (List.replicate ind '\t')

/-- `writeSeparator` (current version): `;` in single-line style,
newline otherwise, plus a blank line at depth zero in the sorted styles
when `EmptyLines` is set and a block-like field is adjacent. -/
def wSeparator (opts : FormatOptions) (isNotFirst isCurrentBlockLike isPrevBlockLike : Bool)
    (depth : Nat) : String :=
  if !isNotFirst then ""
  else if opts.style = .singleLine then ";"
  else
    wNewLine opts ++
      (if depth = 0 ∧ (opts.style = .blockSorted ∨ opts.style = .allSorted) ∧
          opts.emptyLines ∧ (isCurrentBlockLike || isPrevBlockLike) then wNewLine opts
        else "")

/-- A nibble as a lowercase hex digit (the `hex` table). -/
def hexDigit (n : Nat) : Char :=
  if n < 10 then Char.ofNat (48 + n) else Char.ofNat (87 + n)

/-- One character of `writeQuotedString`: printable ASCII other than
`\` and `"` is copied, the named escapes are used for those and for
newline, carriage return and tab, remaining control bytes become
`\u00XX`, and characters beyond ASCII (always valid runes here) are
copied verbatim. -/
def quoteChar (c : Char) : String :=
  if c.toNat ≥ 0x80 then String.mk [c]
  else if 0x20 ≤ c.toNat ∧ c ≠ '\\' ∧ c ≠ '"' then String.mk [c]
  else if c = '\\' then "\\\\"
  else if c = '"' then "\\\""
  else if c = '\n' then "\\n"
  else if c = '\r' then "\\r"
  else if c = '\t' then "\\t"
  else "\\u00" ++ String.mk [hexDigit (c.toNat / 16), hexDigit (c.toNat % 16)]

/-- `writeQuotedString`. -/
def goQuoteString (s : String) : String :=
  "\"" ++ specJoin (s.data.map quoteChar) ++ "\""

/-- The fields of a struct value (empty for the other kinds). -/
def GoValue.structFields : GoValue → List GoField
  | .structV fs => fs
  | _ => []

mutual

/-- `encodeValue` (both encoders write the same bytes). -/
def encodeValueF (fuel : Nat) (opts : FormatOptions) (ind depth : Nat) (v : GoValue) : String :=
  match fuel with
  | 0 => ""
  | f + 1 =>
    match v with
    | .str s =>
      if opts.style ≠ .singleLine ∧ containsNewline s then "`" ++ s ++ "`"
      else goQuoteString s
    | .intV i => toString i
    | .boolV b => if b then "true" else "false"
    | .slice els => encodeSliceF f opts ind depth els
    | .structV fields =>
      if fields.isEmpty then "\x7b\x7d"
      else
        "\x7b" ++ wNewLine opts ++ encodeStructF f opts (ind + 1) (depth + 1) fields ++
          wNewLine opts ++ wIndent opts ind ++ "\x7d"
    | .mapV es => encodeMapF f opts ind depth es
termination_by structural fuel

/-- `encodeSlice`. -/
def encodeSliceF (fuel : Nat) (opts : FormatOptions) (ind depth : Nat)
    (els : List GoValue) : String :=
  match fuel with
  | 0 => ""
  | f + 1 =>
    if els.isEmpty then "[]"
    else if opts.style = .singleLine then
      "[" ++ encodeSliceSingleF f opts depth els true ++ "]"
    else
      "[" ++ wNewLine opts ++ encodeSliceMultiF f opts (ind + 1) depth els ++
        wIndent opts ind ++ "]"
termination_by structural fuel

/-- The single-line slice loop (comma before every element but the
first). -/
def encodeSliceSingleF (fuel : Nat) (opts : FormatOptions) (depth : Nat)
    (els : List GoValue) (isFirst : Bool) : String :=
  match fuel with
  | 0 => ""
  | f + 1 =>
    match els with
    | [] => ""
    | v :: rest =>
      (if isFirst then "" else ",") ++ encodeValueF f opts 0 depth v ++
        encodeSliceSingleF f opts depth rest false
termination_by structural fuel

/-- The multi-line slice loop (every element indented on its own line
with a trailing comma). -/
def encodeSliceMultiF (fuel : Nat) (opts : FormatOptions) (ind depth : Nat)
    (els : List GoValue) : String :=
  match fuel with
  | 0 => ""
  | f + 1 =>
    match els with
    | [] => ""
    | v :: rest =>
      wIndent opts ind ++ encodeValueF f opts ind depth v ++ "," ++ wNewLine opts ++
        encodeSliceMultiF f opts ind depth rest
termination_by structural fuel

/-- `encodeMap`: entries in iteration order are sorted by key before
writing; single-line entries are `k=v` comma-separated, multi-line
entries are `k = v,` one per line. -/
def encodeMapF (fuel : Nat) (opts : FormatOptions) (ind depth : Nat)
    (es : List (String × GoValue)) : String :=
  match fuel with
  | 0 => ""
  | f + 1 =>
    if es.isEmpty then "\x7b[]\x7d"
    else
      let entries := insertionSort entryLess es
      if opts.style = .singleLine then
        "\x7b[" ++ encodeMapSingleF f opts depth entries true ++ "]\x7d"
      else
        "\x7b[" ++ "\n" ++ encodeMapMultiF f opts (ind + 1) depth entries ++
          wIndent opts ind ++ "]\x7d"
termination_by structural fuel

/-- The single-line map-entry loop. -/
def encodeMapSingleF (fuel : Nat) (opts : FormatOptions) (depth : Nat)
    (entries : List (String × GoValue)) (isFirst : Bool) : String :=
  match fuel with
  | 0 => ""
  | f + 1 =>
    match entries with
    | [] => ""
    | (k, v) :: rest =>
      (if isFirst then "" else ",") ++ k ++ "=" ++ encodeValueF f opts 0 depth v ++
        encodeMapSingleF f opts depth rest false
termination_by structural fuel

/-- The multi-line map-entry loop. -/
def encodeMapMultiF (fuel : Nat) (opts : FormatOptions) (ind depth : Nat)
    (entries : List (String × GoValue)) : String :=
  match fuel with
  | 0 => ""
  | f + 1 =>
    match entries with
    | [] => ""
    | (k, v) :: rest =>
      wIndent opts ind ++ k ++ wSpace opts ++ "=" ++ wSpace opts ++
        encodeValueF f opts ind depth v ++ "," ++ "\n" ++
        encodeMapMultiF f opts ind depth rest
termination_by structural fuel

/-- `encodeStruct`: gather, sort when the style and depth call for it,
then write fields with separators. -/
def encodeStructF (fuel : Nat) (opts : FormatOptions) (ind depth : Nat)
    (fields : List GoField) : String :=
  match fuel with
  | 0 => ""
  | f + 1 =>
    let fis := gatherFields fields
    let sorted :=
      if ¬opts.noSort ∧ (opts.style = .blockSorted ∨ opts.style = .allSorted) ∧
          (opts.style = .allSorted ∨ depth > 0) then
        insertionSort fieldLess fis
      else fis
    encodeFieldsF f opts ind depth sorted true false
termination_by structural fuel

/-- The field loop of `encodeStruct` (`prevBlockLike` feeds the
separator heuristic). -/
def encodeFieldsF (fuel : Nat) (opts : FormatOptions) (ind depth : Nat)
    (fis : List FieldInfo) (isFirst prevBlockLike : Bool) : String :=
  match fuel with
  | 0 => ""
  | f + 1 =>
    match fis with
    | [] => ""
    | fi :: rest =>
      wSeparator opts (!isFirst) fi.isBlockLike prevBlockLike depth ++
        encodeFieldF f opts ind depth fi ++
        encodeFieldsF f opts ind depth rest false fi.isBlockLike
termination_by structural fuel

/-- `encodeField`: block fields open a brace block (the map sub-branch
mirrors dead code in the source — `isBlock` holds only for structs),
value fields are `name = value`. -/
def encodeFieldF (fuel : Nat) (opts : FormatOptions) (ind depth : Nat)
    (fi : FieldInfo) : String :=
  match fuel with
  | 0 => ""
  | f + 1 =>
    wIndent opts ind ++ fi.name ++ wSpace opts ++
      (if fi.isBlock then
        match fi.value with
        | .mapV es => encodeMapF f opts ind (depth + 1) es
        | _ =>
          "\x7b" ++ wNewLine opts ++
            encodeStructF f opts (ind + 1) (depth + 1) fi.value.structFields ++
            wNewLine opts ++ wIndent opts ind ++ "\x7d"
      else "=" ++ wSpace opts ++ encodeValueF f opts ind depth fi.value)
termination_by structural fuel

end

/-- `Encoder.Encode` for a struct value: the body plus the final
newline in multi-line styles when anything was written. -/
def encodeTopLevel (opts : FormatOptions) (fields : List GoField) (fuel : Nat) : String :=
  let body := encodeStructF fuel opts 0 0 fields
  if opts.style ≠ .singleLine ∧ body ≠ "" then body ++ "\n" else body

theorem gatherFields_append (l1 l2 : List GoField) :
    gatherFields (l1 ++ l2) = gatherFields l1 ++ gatherFields l2 := by
  induction l1 with
  | nil => rfl
  | cons f rest ih =>
    match f with
    | .mk fn ts v =>
      simp only [List.cons_append, gatherFields]
      split
      · exact ih
      · simp [ih]

theorem gatherFields_skips_empty_map (fname tagStr : String) (post : List GoField) :
    gatherFields (.mk fname tagStr (.mapV []) :: post) = gatherFields post := by
  simp [gatherFields, GoValue.isMapKind, GoValue.mapLen]

/-- C8: a struct field holding a zero-entry map is dropped by
`gatherFields` no matter what its tag says — the skip condition is
`(omitempty && isZero) || (map && len == 0)`, whose second disjunct
fires unconditionally — so the encoded struct (at any nesting depth)
and the whole `Encode` output are byte-identical to those of the struct
without the field, for every style and option set. -/
theorem C8_empty_map_field_omitted (fuel : Nat) (opts : FormatOptions) (ind depth : Nat)
    (pre post : List GoField) (fname tagStr : String) :
    encodeStructF fuel opts ind depth (pre ++ .mk fname tagStr (.mapV []) :: post) =
      encodeStructF fuel opts ind depth (pre ++ post) ∧
    encodeTopLevel opts (pre ++ .mk fname tagStr (.mapV []) :: post) fuel =
      encodeTopLevel opts (pre ++ post) fuel := by
  have hg : gatherFields (pre ++ .mk fname tagStr (.mapV []) :: post) =
      gatherFields (pre ++ post) := by
    rw [gatherFields_append, gatherFields_skips_empty_map, ← gatherFields_append]
  have hs : ∀ fl : Nat, encodeStructF fl opts ind depth (pre ++ .mk fname tagStr (.mapV []) :: post) =
      encodeStructF fl opts ind depth (pre ++ post) := by
    intro fl
    cases fl with
    | zero => rfl
    | succ f => simp only [encodeStructF, hg]
  refine ⟨hs fuel, ?_⟩
  have hs0 : ∀ fl : Nat, encodeStructF fl opts 0 0 (pre ++ .mk fname tagStr (.mapV []) :: post) =
      encodeStructF fl opts 0 0 (pre ++ post) := by
    intro fl
    cases fl with
    | zero => rfl
    | succ f => simp only [encodeStructF, hg]
  simp only [encodeTopLevel, hs0 fuel]

/-! The abstract-value relation for C9: a Go map carries no intrinsic
entry order, so two `GoValue` trees denote the same abstract value
exactly when they agree up to reordering the entry lists of the maps
inside them (map keys being unique, as they are in a Go map).
`valPerm v v'` composes one entry-list permutation at each map node
with the pointwise relation on the values underneath. -/

mutual

/-- Two modelled values denote the same Go value: equal scalars, and
recursively related slices, maps (up to entry permutation, keys
unique) and structs. -/
def valPerm : GoValue → GoValue → Prop
  | .str s, .str s' => s = s'
  | .intV i, .intV i' => i = i'
  | .boolV b, .boolV b' => b = b'
  | .slice els, .slice els' => valsPerm els els'
  | .mapV es, .mapV es' =>
    (es.map Prod.fst).Nodup ∧ ∃ es1, es.Perm es1 ∧ entriesPerm es1 es'
  | .structV fs, .structV fs' => fieldsPerm fs fs'
  | _, _ => False
termination_by v v' => sizeOf v'

/-- Pointwise `valPerm` on slice elements. -/
def valsPerm : List GoValue → List GoValue → Prop
  | [], [] => True
  | v :: l, v' :: l' => valPerm v v' ∧ valsPerm l l'
  | _, _ => False
termination_by _ l' => sizeOf l'

/-- Pointwise relation on map entries: equal keys, related values. -/
def entriesPerm : List (String × GoValue) → List (String × GoValue) → Prop
  | [], [] => True
  | (k, v) :: l, (k', v') :: l' => k = k' ∧ valPerm v v' ∧ entriesPerm l l'
  | _, _ => False
termination_by _ l' => sizeOf l'

/-- Pointwise relation on struct fields: equal names and tags, related
values. -/
def fieldsPerm : List GoField → List GoField → Prop
  | [], [] => True
  | .mk fn ts v :: l, .mk fn' ts' v' :: l' =>
    fn = fn' ∧ ts = ts' ∧ valPerm v v' ∧ fieldsPerm l l'
  | _, _ => False
termination_by _ l' => sizeOf l'

end

/-- Two gathered `FieldInfo`s with the same name and flags and related
values. -/
def infoRel (a a' : FieldInfo) : Prop :=
  a.name = a'.name ∧ a.isBlock = a'.isBlock ∧ a.isBlockLike = a'.isBlockLike ∧
    valPerm a.value a'.value

/-- Pointwise `infoRel` on gathered field lists. -/
def infosRel : List FieldInfo → List FieldInfo → Prop
  | [], [] => True
  | a :: l, a' :: l' => infoRel a a' ∧ infosRel l l'
  | _, _ => False

theorem valsPerm_length : ∀ l l', valsPerm l l' → l.length = l'.length
  | [], [], _ => rfl
  | v :: l, v' :: l', h => by
    rw [valsPerm] at h
    simp [valsPerm_length l l' h.2]
  | [], _ :: _, h => by simp [valsPerm] at h
  | _ :: _, [], h => by simp [valsPerm] at h

theorem entriesPerm_length : ∀ l l', entriesPerm l l' → l.length = l'.length
  | [], [], _ => rfl
  | (k, v) :: l, (k', v') :: l', h => by
    rw [entriesPerm] at h
    simp [entriesPerm_length l l' h.2.2]
  | [], _ :: _, h => by simp [entriesPerm] at h
  | _ :: _, [], h => by simp [entriesPerm] at h

theorem fieldsPerm_length : ∀ l l', fieldsPerm l l' → l.length = l'.length
  | [], [], _ => rfl
  | .mk _ _ _ :: l, .mk _ _ _ :: l', h => by
    rw [fieldsPerm] at h
    simp [fieldsPerm_length l l' h.2.2.2]
  | [], .mk _ _ _ :: _, h => by simp [fieldsPerm] at h
  | .mk _ _ _ :: _, [], h => by simp [fieldsPerm] at h

theorem isEmpty_congr_of_length {α β} {a : List α} {b : List β}
    (h : a.length = b.length) : a.isEmpty = b.isEmpty := by
  cases a <;> cases b <;> simp_all

/-- Related values have the same kind, the same zero-ness and the same
map length. -/
theorem valPerm_kinds {v v' : GoValue} (h : valPerm v v') :
    isZero v = isZero v' ∧ v.isMapKind = v'.isMapKind ∧ v.isSliceKind = v'.isSliceKind ∧
      v.isStructKind = v'.isStructKind ∧ v.mapLen = v'.mapLen := by
  cases v <;> cases v' <;> simp only [valPerm] at h
  case str.str s s' => subst h; exact ⟨rfl, rfl, rfl, rfl, rfl⟩
  case intV.intV i i' => subst h; exact ⟨rfl, rfl, rfl, rfl, rfl⟩
  case boolV.boolV b b' => subst h; exact ⟨rfl, rfl, rfl, rfl, rfl⟩
  case slice.slice els els' =>
    refine ⟨?_, rfl, rfl, rfl, rfl⟩
    simp only [isZero]
    exact isEmpty_congr_of_length (valsPerm_length els els' h)
  case mapV.mapV es es' =>
    obtain ⟨hnd, es1, hp, he⟩ := h
    have hl : es.length = es'.length := by
      rw [hp.length_eq]; exact entriesPerm_length es1 es' he
    refine ⟨?_, rfl, rfl, rfl, ?_⟩
    · simp only [isZero]; exact isEmpty_congr_of_length hl
    · simpa [GoValue.mapLen] using hl
  case structV.structV fs fs' => exact ⟨rfl, rfl, rfl, rfl, rfl⟩

theorem strLess_irrefl : ∀ a : List Char, strLess a a = false
  | [] => rfl
  | c :: cs => by simp [strLess, strLess_irrefl cs]

theorem strLess_trans : ∀ a b c : List Char,
    strLess a b = true → strLess b c = true → strLess a c = true
  | [], [], _, h1, _ => by simp [strLess] at h1
  | [], _ :: _, [], _, h2 => by simp [strLess] at h2
  | [], _ :: _, _ :: _, _, _ => rfl
  | _ :: _, [], _, h1, _ => by simp [strLess] at h1
  | _ :: _, _ :: _, [], _, h2 => by simp [strLess] at h2
  | x :: xs, y :: ys, z :: zs, h1, h2 => by
    simp only [strLess] at h1 h2 ⊢
    by_cases hxy : x.toNat < y.toNat
    · by_cases hyz : y.toNat < z.toNat
      · simp [Nat.lt_trans hxy hyz]
      · simp only [if_neg hyz] at h2
        by_cases hzy : z.toNat < y.toNat
        · simp [if_pos hzy] at h2
        · have hxz : x.toNat < z.toNat := by omega
          simp [hxz]
    · simp only [if_neg hxy] at h1
      by_cases hyx : y.toNat < x.toNat
      · simp [if_pos hyx] at h1
      · simp only [if_neg hyx] at h1
        by_cases hyz : y.toNat < z.toNat
        · have hxz : x.toNat < z.toNat := by omega
          simp [hxz]
        · simp only [if_neg hyz] at h2
          by_cases hzy : z.toNat < y.toNat
          · simp [if_pos hzy] at h2
          · simp only [if_neg hzy] at h2
            have hxz : ¬x.toNat < z.toNat := by omega
            have hzx : ¬z.toNat < x.toNat := by omega
            simp [if_neg hxz, if_neg hzx, strLess_trans xs ys zs h1 h2]

theorem strLess_asymm (a b : List Char) (h : strLess a b = true) : strLess b a = false := by
  cases hba : strLess b a with
  | false => rfl
  | true =>
    have := strLess_trans a b a h hba
    rw [strLess_irrefl] at this
    exact absurd this (by simp)

theorem strLess_total_ne : ∀ a b : List Char, a ≠ b →
    strLess a b = true ∨ strLess b a = true
  | [], [], h => absurd rfl h
  | [], _ :: _, _ => Or.inl rfl
  | _ :: _, [], _ => Or.inr rfl
  | x :: xs, y :: ys, h => by
    by_cases hxy : x.toNat < y.toNat
    · left; simp [strLess, hxy]
    · by_cases hyx : y.toNat < x.toNat
      · right; simp [strLess, hyx]
      · have hn : x.toNat = y.toNat := by omega
        have hx : x = y := Char.eq_of_val_eq (UInt32.ext hn)
        subst hx
        have hne : xs ≠ ys := fun he => h (by rw [he])
        rcases strLess_total_ne xs ys hne with h' | h'
        · left; simp [strLess, Nat.lt_irrefl, h']
        · right; simp [strLess, Nat.lt_irrefl, h']

/-- Strict two-way comparability of a pair under a Boolean comparator:
exactly the situation of two map keys (or two field names) that are
known to differ. -/
def comparable2 (less : α → α → Bool) (a b : α) : Prop :=
  (less a b = true ∧ less b a = false) ∨ (less b a = true ∧ less a b = false)

theorem comparable2_symm {less : α → α → Bool} {a b : α}
    (h : comparable2 less a b) : comparable2 less b a := h.elim Or.inr Or.inl

theorem insertSorted_comm (less : α → α → Bool)
    (htrans : ∀ a b c : α, less a b = true → less b c = true → less a c = true)
    (x y : α) (hxy : less x y = true) (hyx : less y x = false) :
    ∀ l : List α, insertSorted less x (insertSorted less y l) =
      insertSorted less y (insertSorted less x l)
  | [] => by simp [insertSorted, hxy, hyx]
  | z :: zs => by
    cases hyz : less y z with
    | true =>
      have hxz : less x z = true := htrans x y z hxy hyz
      simp [insertSorted, hxy, hyx, hyz, hxz]
    | false =>
      cases hxz : less x z with
      | true => simp [insertSorted, hxy, hyx, hyz, hxz]
      | false => simp [insertSorted, hyz, hxz, hyx,
          insertSorted_comm less htrans x y hxy hyx zs]

/-- Sorting with a comparator that strictly orders every pair of the
list is invariant under permutation of the input: the model of the Go
guarantee that `sort.Slice` on distinct keys has a unique result. -/
theorem insertionSort_congr_perm (less : α → α → Bool)
    (htrans : ∀ a b c : α, less a b = true → less b c = true → less a c = true)
    {l1 l2 : List α} (hp : l1.Perm l2) :
    l1.Pairwise (comparable2 less) → insertionSort less l1 = insertionSort less l2 := by
  induction hp with
  | nil => intro _; rfl
  | cons x h ih =>
    intro hpw
    rw [List.pairwise_cons] at hpw
    simp only [insertionSort]
    rw [ih hpw.2]
  | swap x y l =>
    intro hpw
    rw [List.pairwise_cons] at hpw
    have hxy := hpw.1 x (by simp)
    simp only [insertionSort]
    rcases hxy with ⟨h1, h2⟩ | ⟨h1, h2⟩
    · exact insertSorted_comm less htrans y x h1 h2 (insertionSort less l)
    · exact (insertSorted_comm less htrans x y h1 h2 (insertionSort less l)).symm
  | trans h12 h23 ih12 ih23 =>
    intro hpw
    rw [ih12 hpw, ih23 ((h12.pairwise_iff
      (by intro a b hab; exact comparable2_symm hab)).mp hpw)]

theorem entryLess_trans (a b c : String × GoValue)
    (h1 : entryLess a b = true) (h2 : entryLess b c = true) : entryLess a c = true :=
  strLess_trans a.1.data b.1.data c.1.data h1 h2

theorem key_ne_comparable2 {a b : String × GoValue} (h : a.1 ≠ b.1) :
    comparable2 entryLess a b := by
  have hd : a.1.data ≠ b.1.data := fun he => by
    apply h
    cases hfa : a.1 with
    | mk da =>
      cases hfb : b.1 with
      | mk db => exact congrArg String.mk (by rw [hfa, hfb] at he; simpa using he)
  rcases strLess_total_ne _ _ hd with h' | h'
  · exact Or.inl ⟨h', strLess_asymm _ _ h'⟩
  · exact Or.inr ⟨h', strLess_asymm _ _ h'⟩

/-- With pairwise-distinct keys, sorting map entries by key is
insensitive to the entry order the map iteration produced. -/
theorem entries_sort_eq {es es1 : List (String × GoValue)}
    (hnd : (es.map Prod.fst).Nodup) (hp : es.Perm es1) :
    insertionSort entryLess es = insertionSort entryLess es1 := by
  apply insertionSort_congr_perm entryLess entryLess_trans hp
  have hpw : es.Pairwise (fun a b => a.1 ≠ b.1) := by
    rw [List.Nodup, List.pairwise_map] at hnd
    exact hnd
  exact hpw.imp (fun hab => key_ne_comparable2 hab)

theorem entriesPerm_insertSorted : ∀ (l l' : List (String × GoValue)) (k : String)
    (v v' : GoValue), valPerm v v' → entriesPerm l l' →
    entriesPerm (insertSorted entryLess (k, v) l) (insertSorted entryLess (k, v') l')
  | [], [], k, v, v', hv, _ => by
    simp [insertSorted, entriesPerm, hv]
  | (k1, w) :: l, (k1', w') :: l', k, v, v', hv, h => by
    rw [entriesPerm] at h
    obtain ⟨hk, hw, hrest⟩ := h
    subst hk
    simp only [insertSorted]
    have hcond : entryLess (k, v) (k1, w) = entryLess (k, v') (k1, w') := rfl
    rw [hcond]
    cases hc : entryLess (k, v') (k1, w') with
    | true =>
      simp only [hc, if_true]
      rw [entriesPerm]
      exact ⟨rfl, hv, by rw [entriesPerm]; exact ⟨rfl, hw, hrest⟩⟩
    | false =>
      simp only [hc, Bool.false_eq_true, if_false]
      rw [entriesPerm]
      exact ⟨rfl, hw, entriesPerm_insertSorted l l' k v v' hv hrest⟩
  | [], _ :: _, _, _, _, _, h => by simp [entriesPerm] at h
  | _ :: _, [], _, _, _, _, h => by simp [entriesPerm] at h

theorem entriesPerm_sort : ∀ (l l' : List (String × GoValue)), entriesPerm l l' →
    entriesPerm (insertionSort entryLess l) (insertionSort entryLess l')
  | [], [], _ => by simp [insertionSort, entriesPerm]
  | (k, v) :: l, (k', v') :: l', h => by
    rw [entriesPerm] at h
    obtain ⟨hk, hv, hrest⟩ := h
    subst hk
    simp only [insertionSort]
    exact entriesPerm_insertSorted _ _ k v v' hv (entriesPerm_sort l l' hrest)
  | [], _ :: _, h => by simp [entriesPerm] at h
  | _ :: _, [], h => by simp [entriesPerm] at h

theorem fieldLess_congr {a a' b b' : FieldInfo} (ha : infoRel a a') (hb : infoRel b b') :
    fieldLess a b = fieldLess a' b' := by
  obtain ⟨han, hab, _, _⟩ := ha
  obtain ⟨hbn, hbb, _, _⟩ := hb
  simp only [fieldLess, han, hab, hbn, hbb]

theorem infosRel_insertSorted : ∀ (l l' : List FieldInfo) (a a' : FieldInfo),
    infoRel a a' → infosRel l l' →
    infosRel (insertSorted fieldLess a l) (insertSorted fieldLess a' l')
  | [], [], a, a', ha, _ => by simp [insertSorted, infosRel, ha]
  | b :: l, b' :: l', a, a', ha, h => by
    rw [infosRel] at h
    obtain ⟨hb, hrest⟩ := h
    simp only [insertSorted]
    rw [fieldLess_congr ha hb]
    cases hc : fieldLess a' b' with
    | true =>
      simp only [hc, if_true]
      rw [infosRel]
      exact ⟨ha, by rw [infosRel]; exact ⟨hb, hrest⟩⟩
    | false =>
      simp only [hc, Bool.false_eq_true, if_false]
      rw [infosRel]
      exact ⟨hb, infosRel_insertSorted l l' a a' ha hrest⟩
  | [], _ :: _, _, _, _, h => by simp [infosRel] at h
  | _ :: _, [], _, _, _, h => by simp [infosRel] at h

theorem infosRel_sort : ∀ (l l' : List FieldInfo), infosRel l l' →
    infosRel (insertionSort fieldLess l) (insertionSort fieldLess l')
  | [], [], _ => by simp [insertionSort, infosRel]
  | a :: l, a' :: l', h => by
    rw [infosRel] at h
    obtain ⟨ha, hrest⟩ := h
    simp only [insertionSort]
    exact infosRel_insertSorted _ _ a a' ha (infosRel_sort l l' hrest)
  | [], _ :: _, h => by simp [infosRel] at h
  | _ :: _, [], h => by simp [infosRel] at h

/-- Related field lists gather to related `FieldInfo` lists: the same
fields are skipped on both sides, and surviving infos agree on name
and flags while their values stay related. -/
theorem fieldsPerm_gather : ∀ (fs fs' : List GoField), fieldsPerm fs fs' →
    infosRel (gatherFields fs) (gatherFields fs')
  | [], [], _ => by simp [gatherFields, infosRel]
  | .mk fn ts v :: l, .mk fn' ts' v' :: l', h => by
    rw [fieldsPerm] at h
    obtain ⟨hfn, hts, hv, hrest⟩ := h
    subst hfn
    subst hts
    obtain ⟨hz, hm, hs, hst, hml⟩ := valPerm_kinds hv
    simp only [gatherFields]
    rw [← hz, ← hm, ← hml, ← hst, ← hs]
    cases hc : (((parseWanfTag ts fn).omitempty && isZero v) ||
        (v.isMapKind && v.mapLen == 0)) with
    | true =>
      simp only [hc, if_true]
      exact fieldsPerm_gather l l' hrest
    | false =>
      simp only [hc, Bool.false_eq_true, if_false]
      rw [infosRel]
      exact ⟨⟨rfl, rfl, rfl, hv⟩, fieldsPerm_gather l l' hrest⟩
  | [], .mk _ _ _ :: _, h => by simp [fieldsPerm] at h
  | .mk _ _ _ :: _, [], h => by simp [fieldsPerm] at h

/-- Every encoder function maps related inputs to byte-identical
output, for every fuel, option set, indent and depth: the sort of map
entries by key erases the iteration-order difference, and everything
else is pointwise. Proved by one induction on fuel (every recursive
call of the encoder decrements fuel on both sides). -/
theorem encode_congr : ∀ fuel : Nat,
    (∀ (opts : FormatOptions) (ind depth : Nat) (v v' : GoValue), valPerm v v' →
      encodeValueF fuel opts ind depth v = encodeValueF fuel opts ind depth v') ∧
    (∀ (opts : FormatOptions) (ind depth : Nat) (els els' : List GoValue), valsPerm els els' →
      encodeSliceF fuel opts ind depth els = encodeSliceF fuel opts ind depth els') ∧
    (∀ (opts : FormatOptions) (depth : Nat) (els els' : List GoValue) (isFirst : Bool),
      valsPerm els els' →
      encodeSliceSingleF fuel opts depth els isFirst =
        encodeSliceSingleF fuel opts depth els' isFirst) ∧
    (∀ (opts : FormatOptions) (ind depth : Nat) (els els' : List GoValue), valsPerm els els' →
      encodeSliceMultiF fuel opts ind depth els = encodeSliceMultiF fuel opts ind depth els') ∧
    (∀ (opts : FormatOptions) (ind depth : Nat) (es es' : List (String × GoValue)),
      (es.map Prod.fst).Nodup → (∃ es1, es.Perm es1 ∧ entriesPerm es1 es') →
      encodeMapF fuel opts ind depth es = encodeMapF fuel opts ind depth es') ∧
    (∀ (opts : FormatOptions) (depth : Nat) (es es' : List (String × GoValue)) (isFirst : Bool),
      entriesPerm es es' →
      encodeMapSingleF fuel opts depth es isFirst =
        encodeMapSingleF fuel opts depth es' isFirst) ∧
    (∀ (opts : FormatOptions) (ind depth : Nat) (es es' : List (String × GoValue)),
      entriesPerm es es' →
      encodeMapMultiF fuel opts ind depth es = encodeMapMultiF fuel opts ind depth es') ∧
    (∀ (opts : FormatOptions) (ind depth : Nat) (fs fs' : List GoField), fieldsPerm fs fs' →
      encodeStructF fuel opts ind depth fs = encodeStructF fuel opts ind depth fs') ∧
    (∀ (opts : FormatOptions) (ind depth : Nat) (fis fis' : List FieldInfo)
      (isFirst prevBlockLike : Bool), infosRel fis fis' →
      encodeFieldsF fuel opts ind depth fis isFirst prevBlockLike =
        encodeFieldsF fuel opts ind depth fis' isFirst prevBlockLike) ∧
    (∀ (opts : FormatOptions) (ind depth : Nat) (fi fi' : FieldInfo), infoRel fi fi' →
      encodeFieldF fuel opts ind depth fi = encodeFieldF fuel opts ind depth fi') := by
  intro fuel
  induction fuel with
  | zero =>
    exact ⟨fun _ _ _ _ _ _ => rfl, fun _ _ _ _ _ _ => rfl, fun _ _ _ _ _ _ => rfl,
      fun _ _ _ _ _ _ => rfl, fun _ _ _ _ _ _ _ => rfl, fun _ _ _ _ _ _ => rfl,
      fun _ _ _ _ _ _ => rfl, fun _ _ _ _ _ _ => rfl, fun _ _ _ _ _ _ _ _ => rfl,
      fun _ _ _ _ _ _ => rfl⟩
  | succ f ih =>
    obtain ⟨ihV, ihS, ihSS, ihSM, ihM, ihMS, ihMM, ihStr, ihFs, ihF⟩ := ih
    refine ⟨?_, ?_, ?_, ?_, ?_, ?_, ?_, ?_, ?_, ?_⟩
    · intro opts ind depth v v' hv
      cases v <;> cases v' <;> simp only [valPerm] at hv
      case str.str s s' => subst hv; rfl
      case intV.intV i i' => subst hv; rfl
      case boolV.boolV b b' => subst hv; rfl
      case slice.slice els els' =>
        simp only [encodeValueF]
        exact ihS opts ind depth els els' hv
      case mapV.mapV es es' =>
        simp only [encodeValueF]
        exact ihM opts ind depth es es' hv.1 hv.2
      case structV.structV fs fs' =>
        simp only [encodeValueF]
        have hemp : fs.isEmpty = fs'.isEmpty :=
          isEmpty_congr_of_length (fieldsPerm_length fs fs' hv)
        rw [← hemp]
        cases hc : fs.isEmpty with
        | true => simp [hc]
        | false =>
          simp only [hc, Bool.false_eq_true, if_false]
          rw [ihStr opts (ind + 1) (depth + 1) fs fs' hv]
    · intro opts ind depth els els' hS
      simp only [encodeSliceF]
      have hemp : els.isEmpty = els'.isEmpty :=
        isEmpty_congr_of_length (valsPerm_length els els' hS)
      rw [← hemp]
      cases hc : els.isEmpty with
      | true => simp [hc]
      | false =>
        simp only [hc, Bool.false_eq_true, if_false]
        by_cases hsl : opts.style = .singleLine
        · simp only [if_pos hsl]
          rw [ihSS opts depth els els' true hS]
        · simp only [if_neg hsl]
          rw [ihSM opts (ind + 1) depth els els' hS]
    · intro opts depth els els' isFirst hS
      cases els with
      | nil =>
        cases els' with
        | nil => rfl
        | cons v' l' => simp [valsPerm] at hS
      | cons v l =>
        cases els' with
        | nil => simp [valsPerm] at hS
        | cons v' l' =>
          rw [valsPerm] at hS
          simp only [encodeSliceSingleF]
          rw [ihV opts 0 depth v v' hS.1, ihSS opts depth l l' false hS.2]
    · intro opts ind depth els els' hS
      cases els with
      | nil =>
        cases els' with
        | nil => rfl
        | cons v' l' => simp [valsPerm] at hS
      | cons v l =>
        cases els' with
        | nil => simp [valsPerm] at hS
        | cons v' l' =>
          rw [valsPerm] at hS
          simp only [encodeSliceMultiF]
          rw [ihV opts ind depth v v' hS.1, ihSM opts ind depth l l' hS.2]
    · intro opts ind depth es es' hnd hex
      obtain ⟨es1, hp, he⟩ := hex
      simp only [encodeMapF]
      have hl : es.length = es'.length := by
        rw [hp.length_eq]
        exact entriesPerm_length es1 es' he
      have hemp : es.isEmpty = es'.isEmpty := isEmpty_congr_of_length hl
      rw [← hemp]
      cases hc : es.isEmpty with
      | true => simp [hc]
      | false =>
        simp only [hc, Bool.false_eq_true, if_false]
        have hrel : entriesPerm (insertionSort entryLess es) (insertionSort entryLess es') := by
          rw [entries_sort_eq hnd hp]
          exact entriesPerm_sort es1 es' he
        by_cases hsl : opts.style = .singleLine
        · simp only [if_pos hsl]
          rw [ihMS opts depth _ _ true hrel]
        · simp only [if_neg hsl]
          rw [ihMM opts (ind + 1) depth _ _ hrel]
    · intro opts depth es es' isFirst hE
      cases es with
      | nil =>
        cases es' with
        | nil => rfl
        | cons e' l' => simp [entriesPerm] at hE
      | cons e l =>
        cases es' with
        | nil => simp [entriesPerm] at hE
        | cons e' l' =>
          obtain ⟨k, v⟩ := e
          obtain ⟨k', v'⟩ := e'
          rw [entriesPerm] at hE
          obtain ⟨hk, hv, hrest⟩ := hE
          subst hk
          simp only [encodeMapSingleF]
          rw [ihV opts 0 depth v v' hv, ihMS opts depth l l' false hrest]
    · intro opts ind depth es es' hE
      cases es with
      | nil =>
        cases es' with
        | nil => rfl
        | cons e' l' => simp [entriesPerm] at hE
      | cons e l =>
        cases es' with
        | nil => simp [entriesPerm] at hE
        | cons e' l' =>
          obtain ⟨k, v⟩ := e
          obtain ⟨k', v'⟩ := e'
          rw [entriesPerm] at hE
          obtain ⟨hk, hv, hrest⟩ := hE
          subst hk
          simp only [encodeMapMultiF]
          rw [ihV opts ind depth v v' hv, ihMM opts ind depth l l' hrest]
    · intro opts ind depth fs fs' hF
      simp only [encodeStructF]
      have hg : infosRel (gatherFields fs) (gatherFields fs') := fieldsPerm_gather fs fs' hF
      by_cases hc : ¬opts.noSort ∧ (opts.style = .blockSorted ∨ opts.style = .allSorted) ∧
          (opts.style = .allSorted ∨ depth > 0)
      · simp only [if_pos hc]
        exact ihFs opts ind depth _ _ true false (infosRel_sort _ _ hg)
      · simp only [if_neg hc]
        exact ihFs opts ind depth _ _ true false hg
    · intro opts ind depth fis fis' isFirst prevBlockLike hI
      cases fis with
      | nil =>
        cases fis' with
        | nil => rfl
        | cons a' l' => simp [infosRel] at hI
      | cons a l =>
        cases fis' with
        | nil => simp [infosRel] at hI
        | cons a' l' =>
          rw [infosRel] at hI
          obtain ⟨ha, hrest⟩ := hI
          have hbl : a.isBlockLike = a'.isBlockLike := ha.2.2.1
          simp only [encodeFieldsF]
          rw [← hbl]
          rw [ihF opts ind depth a a' ha, ihFs opts ind depth l l' false a.isBlockLike hrest]
    · intro opts ind depth fi fi' hI
      obtain ⟨n, v, b, bl⟩ := fi
      obtain ⟨n', v', b', bl'⟩ := fi'
      obtain ⟨hn, hb, hbl, hv⟩ := hI
      simp only at hn hb hbl hv
      subst hn
      subst hb
      subst hbl
      cases b with
      | false =>
        show wIndent opts ind ++ n ++ wSpace opts ++
            ("=" ++ wSpace opts ++ encodeValueF f opts ind depth v) =
          wIndent opts ind ++ n ++ wSpace opts ++
            ("=" ++ wSpace opts ++ encodeValueF f opts ind depth v')
        rw [ihV opts ind depth v v' hv]
      | true =>
        cases v <;> cases v' <;> simp only [valPerm] at hv
        case str.str s s' => subst hv; rfl
        case intV.intV i i' => subst hv; rfl
        case boolV.boolV b1 b1' => subst hv; rfl
        case slice.slice els els' => rfl
        case mapV.mapV es es' =>
          show wIndent opts ind ++ n ++ wSpace opts ++
              encodeMapF f opts ind (depth + 1) es =
            wIndent opts ind ++ n ++ wSpace opts ++
              encodeMapF f opts ind (depth + 1) es'
          rw [ihM opts ind (depth + 1) es es' hv.1 hv.2]
        case structV.structV fs fs' =>
          show wIndent opts ind ++ n ++ wSpace opts ++
              ("\x7b" ++ wNewLine opts ++
                encodeStructF f opts (ind + 1) (depth + 1) fs ++
                wNewLine opts ++ wIndent opts ind ++ "\x7d") =
            wIndent opts ind ++ n ++ wSpace opts ++
              ("\x7b" ++ wNewLine opts ++
                encodeStructF f opts (ind + 1) (depth + 1) fs' ++
                wNewLine opts ++ wIndent opts ind ++ "\x7d")
          rw [ihStr opts (ind + 1) (depth + 1) fs fs' hv]

/-- C9: map encoding is deterministic. Two `GoValue` trees that denote
the same Go value — that is, agree up to permuting the (unique-keyed)
entry list inside every map node, which is the model of Go's
unspecified map iteration order — encode to byte-identical strings
under every option set and every style, including `streaming` and
`singleLine`, both for a bare value and for a whole `Encode` call,
because the encoder sorts map entries by key before writing them. -/
theorem C9_map_encoding_deterministic (fuel : Nat) (opts : FormatOptions) (ind depth : Nat)
    (v v' : GoValue) (hv : valPerm v v')
    (fields fields' : List GoField) (hf : fieldsPerm fields fields') :
    encodeValueF fuel opts ind depth v = encodeValueF fuel opts ind depth v' ∧
    encodeTopLevel opts fields fuel = encodeTopLevel opts fields' fuel := by
  obtain ⟨hV, _, _, _, _, _, _, hStr, _, _⟩ := encode_congr fuel
  refine ⟨hV opts ind depth v v' hv, ?_⟩
  simp only [encodeTopLevel, hStr opts 0 0 fields fields' hf]

theorem C9_map_encoding_deterministic_witness :
    valPerm (.mapV [("b", .intV 2), ("a", .intV 1)]) (.mapV [("a", .intV 1), ("b", .intV 2)]) ∧
    fieldsPerm [.mk "M" "" (.mapV [("b", .intV 2), ("a", .intV 1)])]
      [.mk "M" "" (.mapV [("a", .intV 1), ("b", .intV 2)])] ∧
    (encodeValueF 8 ⟨.streaming, false, false⟩ 0 0 (.mapV [("b", .intV 2), ("a", .intV 1)]) =
        encodeValueF 8 ⟨.streaming, false, false⟩ 0 0 (.mapV [("a", .intV 1), ("b", .intV 2)]) ∧
      encodeTopLevel ⟨.streaming, false, false⟩
          [.mk "M" "" (.mapV [("b", .intV 2), ("a", .intV 1)])] 8 =
        encodeTopLevel ⟨.streaming, false, false⟩
          [.mk "M" "" (.mapV [("a", .intV 1), ("b", .intV 2)])] 8) := by
  have hv : valPerm (.mapV [("b", GoValue.intV 2), ("a", GoValue.intV 1)])
      (.mapV [("a", GoValue.intV 1), ("b", GoValue.intV 2)]) := by
    rw [valPerm]
    exact ⟨by decide, [("a", GoValue.intV 1), ("b", GoValue.intV 2)],
      List.Perm.swap ("a", GoValue.intV 1) ("b", GoValue.intV 2) [],
      by simp [entriesPerm, valPerm]⟩
  have hf : fieldsPerm [.mk "M" "" (.mapV [("b", GoValue.intV 2), ("a", GoValue.intV 1)])]
      [.mk "M" "" (.mapV [("a", GoValue.intV 1), ("b", GoValue.intV 2)])] := by
    rw [fieldsPerm]
    exact ⟨rfl, rfl, hv, by rw [fieldsPerm]; trivial⟩
  exact ⟨hv, hf,
    C9_map_encoding_deterministic 8 ⟨.streaming, false, false⟩ 0 0 _ _ hv _ _ hf⟩

/-- C3: linting `list = ["a","b",]` records no fatal parser error and
parses to the two-element list `["a","b"]` — but the diagnostics list
is completely empty: the parser's `parseExpressionList` breaks out of
the trailing-comma case silently, so the advisory of the
redundant-trailing-comma category that the spec promises is never
produced (the `ErrRedundantComma` advisory exists only for commas
between block statements, and `parseListLiteral` never emits one). -/
theorem C3_trailing_comma_silently_accepted :
    (Parser.parseProgram (parseFuel (strBytes "list = [\"a\",\"b\",]"))
        ((newParser (newLexer (strBytes "list = [\"a\",\"b\",]"))).setLintMode true)).2.errors.isEmpty
      = true ∧
    (Lint (strBytes "list = [\"a\",\"b\",]")).2.length = 0 ∧
    (match (Lint (strBytes "list = [\"a\",\"b\",]")).1.statements with
      | [.assign _ n (some (.listLit _ [.stringLit a, .stringLit b] false)) [] none] =>
        n.value == "list" && a.value == "a" && b.value == "b"
      | _ => false) = true := by
  refine ⟨by decide, by decide, by decide⟩

/-- C7: whenever parsing under `Lint` recorded at least one fatal
parser error, `Lint` returns the parsed document untouched (no label
rewrite is applied) together with exactly one diagnostic — the
synthetic 1:1 wrapper holding the fatal errors — so the analyzer
contributes nothing and even the parse-time advisories are discarded. -/
theorem C7_fatal_errors_short_circuit (data : List Byte)
    (h : ((Parser.parseProgram (parseFuel data)
        ((newParser (newLexer data)).setLintMode true)).2.errors).isEmpty = false) :
    Lint data =
      ((Parser.parseProgram (parseFuel data)
          ((newParser (newLexer data)).setLintMode true)).1,
        [LintError.mk 1 1 1 1
          (.parserErrorsJoined ((Parser.parseProgram (parseFuel data)
            ((newParser (newLexer data)).setLintMode true)).2.errors))
          .lint .unknown []]) := by
  simp only [Lint, h, Bool.false_eq_true, if_false]

/-- Witness: `var` hits a fatal `expected next token to be IDENT` error
and C7 applies to it. -/
theorem C7_fatal_errors_short_circuit_witness :
    ((Parser.parseProgram (parseFuel (strBytes "var"))
        ((newParser (newLexer (strBytes "var"))).setLintMode true)).2.errors).isEmpty = false ∧
    Lint (strBytes "var") =
      ((Parser.parseProgram (parseFuel (strBytes "var"))
          ((newParser (newLexer (strBytes "var"))).setLintMode true)).1,
        [LintError.mk 1 1 1 1
          (.parserErrorsJoined ((Parser.parseProgram (parseFuel (strBytes "var"))
            ((newParser (newLexer (strBytes "var"))).setLintMode true)).2.errors))
          .lint .unknown []]) :=
  ⟨by decide, C7_fatal_errors_short_circuit (strBytes "var") (by decide)⟩

/-! ### Agreement of the analyzer with its spec-side mirrors -/

theorem lookupCount_bumpCount (m : List (String × Nat)) (k n : String) :
    lookupCount (bumpCount m k) n = lookupCount m n + (if k = n then 1 else 0) := by
  induction m with
  | nil =>
    by_cases h : k = n
    · subst h; simp [bumpCount, lookupCount]
    · simp [bumpCount, lookupCount, h]
  | cons kv rest ih =>
    by_cases h1 : kv.1 = k
    · subst h1
      by_cases h2 : kv.1 = n
      · simp [bumpCount, lookupCount, h2]
      · simp [bumpCount, lookupCount, h2]
    · by_cases h2 : kv.1 = n
      · have hkn : ¬k = n := fun hh => h1 (h2.trans hh.symm)
        have hnk : ¬n = k := fun hh => hkn hh.symm
        simp [bumpCount, lookupCount, h1, h2, hkn, hnk]
      · simp [bumpCount, lookupCount, h1, h2, ih]

theorem hasKey_setVar (d : List (String × Token)) (k : String) (t : Token) (x : String) :
    hasKey (setVar d k t) x = (hasKey d x || decide (k = x)) := by
  induction d with
  | nil => simp [setVar, hasKey]
  | cons kv rest ih =>
    by_cases h1 : kv.1 = k
    · subst h1
      by_cases h2 : kv.1 = x
      · simp [setVar, hasKey, h2]
      · simp [setVar, hasKey, h2, ih]
    · by_cases h2 : kv.1 = x
      · have hxk : ¬x = k := fun hh => h1 (h2.trans hh)
        simp [setVar, hasKey, h1, h2, hxk]
      · simp [setVar, hasKey, h1, h2, ih]

theorem mem_keys_setVar (d : List (String × Token)) (k : String) (t : Token) (x : String) :
    x ∈ (setVar d k t).map Prod.fst ↔ x = k ∨ x ∈ d.map Prod.fst := by
  induction d with
  | nil => simp [setVar]
  | cons kv rest ih =>
    by_cases h1 : kv.1 = k
    · subst h1
      simp [setVar]
      try tauto
    · simp [setVar, h1, ih]
      try tauto

theorem keys_setVar_nodup (d : List (String × Token)) (k : String) (t : Token)
    (h : (d.map Prod.fst).Nodup) : ((setVar d k t).map Prod.fst).Nodup := by
  induction d with
  | nil => simp [setVar]
  | cons kv rest ih =>
    simp only [List.map, List.nodup_cons] at h
    by_cases h1 : kv.1 = k
    · subst h1
      simpa [setVar, List.nodup_cons] using h
    · simp only [setVar, if_neg h1, List.map_cons, List.nodup_cons]
      refine ⟨?_, ih h.2⟩
      intro hmem
      rcases (mem_keys_setVar rest k t kv.1).mp hmem with h3 | h3
      · exact h1 h3
      · exact h.1 h3

theorem decide_or_eq (p q : Prop) [Decidable p] [Decidable q] :
    decide (p ∨ q) = (decide p || decide q) := by
  by_cases hp : p <;> by_cases hq : q <;> simp [hp, hq]

mutual

theorem collectRoot_spec (r : RootNode) (st : CollectState) :
    (∀ n, lookupCount (collectRoot r st).blockCounts n =
        lookupCount st.blockCounts n + specBlockCountRoot n r) ∧
    (∀ x, hasKey (collectRoot r st).declaredVars x =
        (hasKey st.declaredVars x || decide (x ∈ specDeclaredRoot r))) ∧
    ((st.declaredVars.map Prod.fst).Nodup →
      ((collectRoot r st).declaredVars.map Prod.fst).Nodup) := by
  match r with
  | .mk stmts =>
    simpa [collectRoot, specBlockCountRoot, specDeclaredRoot] using collectStmts_spec stmts st

theorem collectStmts_spec (stmts : List Statement) (st : CollectState) :
    (∀ n, lookupCount (collectStmts stmts st).blockCounts n =
        lookupCount st.blockCounts n + specBlockCountStmts n stmts) ∧
    (∀ x, hasKey (collectStmts stmts st).declaredVars x =
        (hasKey st.declaredVars x || decide (x ∈ specDeclaredStmts stmts))) ∧
    ((st.declaredVars.map Prod.fst).Nodup →
      ((collectStmts stmts st).declaredVars.map Prod.fst).Nodup) := by
  match stmts with
  | [] => simp [collectStmts, specBlockCountStmts, specDeclaredStmts]
  | s :: rest =>
    obtain ⟨h1, h2, h3⟩ := collectStmt_spec s st
    obtain ⟨g1, g2, g3⟩ := collectStmts_spec rest (collectStmt s st)
    refine ⟨?_, ?_, ?_⟩
    · intro n
      simp only [collectStmts, specBlockCountStmts]
      rw [g1 n, h1 n]
      omega
    · intro x
      simp only [collectStmts, specDeclaredStmts]
      rw [g2 x, h2 x]
      simp only [List.mem_append, decide_or_eq, Bool.or_assoc]
    · intro hnd
      exact g3 (h3 hnd)

theorem collectStmt_spec (s : Statement) (st : CollectState) :
    (∀ n, lookupCount (collectStmt s st).blockCounts n =
        lookupCount st.blockCounts n + specBlockCountStmt n s) ∧
    (∀ x, hasKey (collectStmt s st).declaredVars x =
        (hasKey st.declaredVars x || decide (x ∈ specDeclaredStmt s))) ∧
    ((st.declaredVars.map Prod.fst).Nodup →
      ((collectStmt s st).declaredVars.map Prod.fst).Nodup) := by
  match s with
  | .block tok name lbl body leading =>
    obtain ⟨g1, g2, g3⟩ :=
      collectRoot_spec body { st with blockCounts := bumpCount st.blockCounts name.value }
    refine ⟨?_, ?_, ?_⟩
    · intro n
      simp only [collectStmt, specBlockCountStmt]
      rw [g1 n]
      show lookupCount (bumpCount st.blockCounts name.value) n + _ = _
      rw [lookupCount_bumpCount]
      omega
    · intro x
      simp only [collectStmt, specDeclaredStmt]
      exact g2 x
    · intro hnd
      exact g3 hnd
  | .varStmt tok name v leading lc =>
    obtain ⟨g1, g2, g3⟩ :=
      collectOptExpr_spec v { st with declaredVars := setVar st.declaredVars name.value tok }
    refine ⟨?_, ?_, ?_⟩
    · intro n
      simp only [collectStmt, specBlockCountStmt]
      exact g1 n
    · intro x
      simp only [collectStmt, specDeclaredStmt]
      rw [g2 x]
      show (hasKey (setVar st.declaredVars name.value tok) x || _) = _
      rw [hasKey_setVar]
      simp only [List.mem_cons, decide_or_eq, Bool.or_assoc]
      have : decide (name.value = x) = decide (x = name.value) := by
        simp [eq_comm]
      rw [this]
    · intro hnd
      exact g3 (keys_setVar_nodup st.declaredVars name.value tok hnd)
  | .assign tok name v leading lc =>
    simpa [collectStmt, specBlockCountStmt, specDeclaredStmt] using collectOptExpr_spec v st
  | .importStmt tok path leading lc =>
    simp [collectStmt, specBlockCountStmt, specDeclaredStmt]

theorem collectOptExpr_spec (v : Option Expression) (st : CollectState) :
    (∀ n, lookupCount (collectOptExpr v st).blockCounts n =
        lookupCount st.blockCounts n + specBlockCountOpt n v) ∧
    (∀ x, hasKey (collectOptExpr v st).declaredVars x =
        (hasKey st.declaredVars x || decide (x ∈ specDeclaredOpt v))) ∧
    ((st.declaredVars.map Prod.fst).Nodup →
      ((collectOptExpr v st).declaredVars.map Prod.fst).Nodup) := by
  match v with
  | none => simp [collectOptExpr, specBlockCountOpt, specDeclaredOpt]
  | some e =>
    simpa [collectOptExpr, specBlockCountOpt, specDeclaredOpt] using collectExpr_spec e st

theorem collectExpr_spec (e : Expression) (st : CollectState) :
    (∀ n, lookupCount (collectExpr e st).blockCounts n =
        lookupCount st.blockCounts n + specBlockCountExpr n e) ∧
    (∀ x, hasKey (collectExpr e st).declaredVars x =
        (hasKey st.declaredVars x || decide (x ∈ specDeclaredExpr e))) ∧
    ((st.declaredVars.map Prod.fst).Nodup →
      ((collectExpr e st).declaredVars.map Prod.fst).Nodup) := by
  match e with
  | .blockLit tok body =>
    simpa [collectExpr, specBlockCountExpr, specDeclaredExpr] using collectRoot_spec body st
  | .listLit tok els hc =>
    simpa [collectExpr, specBlockCountExpr, specDeclaredExpr] using collectExprs_spec els st
  | .identifier v => simp [collectExpr, specBlockCountExpr, specDeclaredExpr]
  | .stringLit v => simp [collectExpr, specBlockCountExpr, specDeclaredExpr]
  | .integerLit tok v => simp [collectExpr, specBlockCountExpr, specDeclaredExpr]
  | .floatLit tok => simp [collectExpr, specBlockCountExpr, specDeclaredExpr]
  | .boolLit tok v => simp [collectExpr, specBlockCountExpr, specDeclaredExpr]
  | .durationLit tok v => simp [collectExpr, specBlockCountExpr, specDeclaredExpr]
  | .mapLit tok els => simp [collectExpr, specBlockCountExpr, specDeclaredExpr]
  | .varExpr tok name => simp [collectExpr, specBlockCountExpr, specDeclaredExpr]
  | .envExpr tok name dv => simp [collectExpr, specBlockCountExpr, specDeclaredExpr]

theorem collectExprs_spec (els : List Expression) (st : CollectState) :
    (∀ n, lookupCount (collectExprs els st).blockCounts n =
        lookupCount st.blockCounts n + specBlockCountExprs n els) ∧
    (∀ x, hasKey (collectExprs els st).declaredVars x =
        (hasKey st.declaredVars x || decide (x ∈ specDeclaredExprs els))) ∧
    ((st.declaredVars.map Prod.fst).Nodup →
      ((collectExprs els st).declaredVars.map Prod.fst).Nodup) := by
  match els with
  | [] => simp [collectExprs, specBlockCountExprs, specDeclaredExprs]
  | e :: rest =>
    obtain ⟨h1, h2, h3⟩ := collectExpr_spec e st
    obtain ⟨g1, g2, g3⟩ := collectExprs_spec rest (collectExpr e st)
    refine ⟨?_, ?_, ?_⟩
    · intro n
      simp only [collectExprs, specBlockCountExprs]
      rw [g1 n, h1 n]
      omega
    · intro x
      simp only [collectExprs, specDeclaredExprs]
      rw [g2 x, h2 x]
      simp only [List.mem_append, decide_or_eq, Bool.or_assoc]
    · intro hnd
      exact g3 (h3 hnd)

end

mutual

theorem checkRoot_spec (bc : List (String × Nat)) (bcf : String → Nat)
    (hbc : ∀ m, lookupCount bc m = bcf m) (r : RootNode) (st : CheckState) :
    checkRoot bc r st =
      ((specCheckRoot bcf r).1,
        ⟨st.errors ++ (specCheckRoot bcf r).2,
          List.foldl markUsed st.usedVars (specUsedRoot r)⟩) := by
  match r with
  | .mk stmts =>
    simp only [checkRoot, specCheckRoot, specUsedRoot]
    rw [checkStmts_spec bc bcf hbc stmts st]

theorem checkStmts_spec (bc : List (String × Nat)) (bcf : String → Nat)
    (hbc : ∀ m, lookupCount bc m = bcf m) (stmts : List Statement) (st : CheckState) :
    checkStmts bc stmts st =
      ((specCheckStmts bcf stmts).1,
        ⟨st.errors ++ (specCheckStmts bcf stmts).2,
          List.foldl markUsed st.usedVars (specUsedStmts stmts)⟩) := by
  match stmts with
  | [] => simp [checkStmts, specCheckStmts, specUsedStmts]
  | s :: rest =>
    simp only [checkStmts, specCheckStmts, specUsedStmts]
    rw [checkStmt_spec bc bcf hbc s st]
    rw [checkStmts_spec bc bcf hbc rest
      ⟨st.errors ++ (specCheckStmt bcf s).2, List.foldl markUsed st.usedVars (specUsedStmt s)⟩]
    simp [List.append_assoc, List.foldl_append]

theorem checkStmt_spec (bc : List (String × Nat)) (bcf : String → Nat)
    (hbc : ∀ m, lookupCount bc m = bcf m) (s : Statement) (st : CheckState) :
    checkStmt bc s st =
      ((specCheckStmt bcf s).1,
        ⟨st.errors ++ (specCheckStmt bcf s).2,
          List.foldl markUsed st.usedVars (specUsedStmt s)⟩) := by
  match s with
  | .block tok name label body leading =>
    simp only [checkStmt, specCheckStmt, specUsedStmt]
    rw [checkRoot_spec bc bcf hbc body st]
    match label with
    | some lb =>
      simp only [hbc name.value]
      by_cases hc : bcf name.value = 1
      · simp [hc, List.append_assoc]
      · simp [hc]
    | none => simp
  | .assign tok name v leading lc =>
    match v with
    | some e =>
      simp only [checkStmt, specCheckStmt, specUsedStmt, specUsedOpt]
      rw [checkExpr_spec bc bcf hbc e st]
    | none => simp [checkStmt, specCheckStmt, specUsedStmt, specUsedOpt]
  | .varStmt tok name v leading lc =>
    match v with
    | some e =>
      simp only [checkStmt, specCheckStmt, specUsedStmt, specUsedOpt]
      rw [checkExpr_spec bc bcf hbc e st]
    | none => simp [checkStmt, specCheckStmt, specUsedStmt, specUsedOpt]
  | .importStmt tok path leading lc =>
    simp [checkStmt, specCheckStmt, specUsedStmt]

theorem checkExpr_spec (bc : List (String × Nat)) (bcf : String → Nat)
    (hbc : ∀ m, lookupCount bc m = bcf m) (e : Expression) (st : CheckState) :
    checkExpr bc e st =
      ((specCheckExpr bcf e).1,
        ⟨st.errors ++ (specCheckExpr bcf e).2,
          List.foldl markUsed st.usedVars (specUsedExpr e)⟩) := by
  match e with
  | .blockLit tok body =>
    simp only [checkExpr, specCheckExpr, specUsedExpr]
    rw [checkRoot_spec bc bcf hbc body st]
  | .listLit tok els hc =>
    simp only [checkExpr, specCheckExpr, specUsedExpr]
    rw [checkExprs_spec bc bcf hbc els st]
  | .varExpr tok name => simp [checkExpr, specCheckExpr, specUsedExpr]
  | .stringLit v => simp [checkExpr, specCheckExpr, specUsedExpr]
  | .identifier v => simp [checkExpr, specCheckExpr, specUsedExpr]
  | .integerLit tok v => simp [checkExpr, specCheckExpr, specUsedExpr]
  | .floatLit tok => simp [checkExpr, specCheckExpr, specUsedExpr]
  | .boolLit tok v => simp [checkExpr, specCheckExpr, specUsedExpr]
  | .durationLit tok v => simp [checkExpr, specCheckExpr, specUsedExpr]
  | .mapLit tok els => simp [checkExpr, specCheckExpr, specUsedExpr]
  | .envExpr tok name dv => simp [checkExpr, specCheckExpr, specUsedExpr]

theorem checkExprs_spec (bc : List (String × Nat)) (bcf : String → Nat)
    (hbc : ∀ m, lookupCount bc m = bcf m) (els : List Expression) (st : CheckState) :
    checkExprs bc els st =
      ((specCheckExprs bcf els).1,
        ⟨st.errors ++ (specCheckExprs bcf els).2,
          List.foldl markUsed st.usedVars (specUsedExprs els)⟩) := by
  match els with
  | [] => simp [checkExprs, specCheckExprs, specUsedExprs]
  | e :: rest =>
    simp only [checkExprs, specCheckExprs, specUsedExprs]
    rw [checkExpr_spec bc bcf hbc e st]
    rw [checkExprs_spec bc bcf hbc rest
      ⟨st.errors ++ (specCheckExpr bcf e).2, List.foldl markUsed st.usedVars (specUsedExpr e)⟩]
    simp [List.append_assoc, List.foldl_append]

end

theorem mem_markUsed (s : List String) (k x : String) :
    x ∈ markUsed s k ↔ x ∈ s ∨ x = k := by
  unfold markUsed
  split
  · rename_i hc
    have hk : k ∈ s := List.elem_iff.mp hc
    constructor
    · exact Or.inl
    · rintro (h | h)
      · exact h
      · exact h ▸ hk
  · simp

theorem mem_foldl_markUsed (l : List String) (s : List String) (x : String) :
    x ∈ List.foldl markUsed s l ↔ x ∈ s ∨ x ∈ l := by
  induction l generalizing s with
  | nil => simp
  | cons a rest ih =>
    simp only [List.foldl]
    rw [ih, mem_markUsed]
    simp
    tauto

mutual

theorem specCheckRoot_errs_red (bcf : String → Nat) (r : RootNode) :
    ∀ e ∈ (specCheckRoot bcf r).2, isRedundantLabelErr e = true := by
  match r with
  | .mk stmts =>
    simpa [specCheckRoot] using specCheckStmts_errs_red bcf stmts

theorem specCheckStmts_errs_red (bcf : String → Nat) (stmts : List Statement) :
    ∀ e ∈ (specCheckStmts bcf stmts).2, isRedundantLabelErr e = true := by
  match stmts with
  | [] => simp [specCheckStmts]
  | s :: rest =>
    intro e he
    simp only [specCheckStmts, List.mem_append] at he
    rcases he with he | he
    · exact specCheckStmt_errs_red bcf s e he
    · exact specCheckStmts_errs_red bcf rest e he

theorem specCheckStmt_errs_red (bcf : String → Nat) (s : Statement) :
    ∀ e ∈ (specCheckStmt bcf s).2, isRedundantLabelErr e = true := by
  match s with
  | .block tok name label body leading =>
    intro e he
    match label with
    | some lb =>
      by_cases hc : bcf name.value = 1
      · simp only [specCheckStmt, hc, if_pos, List.mem_append] at he
        rcases he with he | he
        · exact specCheckRoot_errs_red bcf body e he
        · simp only [List.mem_singleton] at he
          subst he
          rfl
      · simp only [specCheckStmt, hc, if_neg, if_false] at he
        exact specCheckRoot_errs_red bcf body e he
    | none =>
      simp only [specCheckStmt] at he
      exact specCheckRoot_errs_red bcf body e he
  | .assign tok name v leading lc =>
    intro e he
    match v with
    | some ex =>
      simp only [specCheckStmt] at he
      exact specCheckExpr_errs_red bcf ex e he
    | none => simp [specCheckStmt] at he
  | .varStmt tok name v leading lc =>
    intro e he
    match v with
    | some ex =>
      simp only [specCheckStmt] at he
      exact specCheckExpr_errs_red bcf ex e he
    | none => simp [specCheckStmt] at he
  | .importStmt tok path leading lc =>
    intro e he
    simp [specCheckStmt] at he

theorem specCheckExpr_errs_red (bcf : String → Nat) (ex : Expression) :
    ∀ e ∈ (specCheckExpr bcf ex).2, isRedundantLabelErr e = true := by
  match ex with
  | .blockLit tok body =>
    intro e he
    simp only [specCheckExpr] at he
    exact specCheckRoot_errs_red bcf body e he
  | .listLit tok els hc =>
    intro e he
    simp only [specCheckExpr] at he
    exact specCheckExprs_errs_red bcf els e he
  | .identifier v => intro e he; simp [specCheckExpr] at he
  | .stringLit v => intro e he; simp [specCheckExpr] at he
  | .integerLit tok v => intro e he; simp [specCheckExpr] at he
  | .floatLit tok => intro e he; simp [specCheckExpr] at he
  | .boolLit tok v => intro e he; simp [specCheckExpr] at he
  | .durationLit tok v => intro e he; simp [specCheckExpr] at he
  | .mapLit tok els => intro e he; simp [specCheckExpr] at he
  | .varExpr tok name => intro e he; simp [specCheckExpr] at he
  | .envExpr tok name dv => intro e he; simp [specCheckExpr] at he

theorem specCheckExprs_errs_red (bcf : String → Nat) (els : List Expression) :
    ∀ e ∈ (specCheckExprs bcf els).2, isRedundantLabelErr e = true := by
  match els with
  | [] => simp [specCheckExprs]
  | ex :: rest =>
    intro e he
    simp only [specCheckExprs, List.mem_append] at he
    rcases he with he | he
    · exact specCheckExpr_errs_red bcf ex e he
    · exact specCheckExprs_errs_red bcf rest e he

end

theorem red_not_unused (x : String) (e : LintError) (h : isRedundantLabelErr e = true) :
    isUnusedVarErrNaming x e = false := by
  unfold isRedundantLabelErr at h
  unfold isUnusedVarErrNaming
  match hm : e.message with
  | .redundantLabel _ _ => rfl
  | .unusedVariable _ => rw [hm] at h; exact absurd h (by simp)
  | .unexpectedToken _ _ => rfl
  | .illegalLiteral _ => rfl
  | .parserError _ => rfl
  | .redundantComma => rfl
  | .missingComma _ => rfl
  | .parserErrorsJoined _ => rfl

theorem unused_not_red (e : LintError) (kv : String × Token) (u : List String)
    (h : e = LintError.mk kv.2.line kv.2.column kv.2.line (kv.2.column + kv.1.length)
      (.unusedVariable kv.1) .lint .unknown []) : isRedundantLabelErr e = false := by
  subst h
  rfl

theorem unusedErrors_filter_red (d : List (String × Token)) (u : List String) :
    (unusedErrors d u).filter isRedundantLabelErr = [] := by
  rw [List.filter_eq_nil_iff]
  intro e he
  unfold unusedErrors at he
  rcases List.mem_map.mp he with ⟨kv, _, hkv⟩
  rw [← hkv]
  simp [isRedundantLabelErr, LintError.message]

theorem hasKey_iff_mem (d : List (String × Token)) (x : String) :
    hasKey d x = true ↔ x ∈ d.map Prod.fst := by
  induction d with
  | nil => simp [hasKey]
  | cons kv rest ih =>
    simp only [hasKey, Bool.or_eq_true, decide_eq_true_eq, ih, List.map_cons, List.mem_cons]
    constructor
    · rintro (h | h)
      · exact Or.inl h.symm
      · exact Or.inr h
    · rintro (h | h)
      · exact Or.inl h.symm
      · exact Or.inr h

theorem unusedErrors_cons (kv : String × Token) (rest : List (String × Token))
    (u : List String) :
    unusedErrors (kv :: rest) u =
      (if u.contains kv.1 then [] else
        [LintError.mk kv.2.line kv.2.column kv.2.line (kv.2.column + kv.1.length)
          (.unusedVariable kv.1) .lint .unknown []]) ++ unusedErrors rest u := by
  unfold unusedErrors
  rw [List.filter_cons]
  cases hu : u.contains kv.1 <;> simp [hu]

theorem naming_unused_single (x : String) (kv : String × Token) :
    isUnusedVarErrNaming x (LintError.mk kv.2.line kv.2.column kv.2.line
      (kv.2.column + kv.1.length) (.unusedVariable kv.1) .lint .unknown []) =
      (kv.1 == x) := rfl

theorem unusedErrors_naming_none (d : List (String × Token)) (u : List String) (x : String)
    (h : hasKey d x = false) :
    (unusedErrors d u).filter (isUnusedVarErrNaming x) = [] := by
  induction d with
  | nil => simp [unusedErrors]
  | cons kv rest ih =>
    simp only [hasKey, Bool.or_eq_false_iff, decide_eq_false_iff_not] at h
    rw [unusedErrors_cons, List.filter_append, ih h.2, List.append_nil]
    cases hu : u.contains kv.1
    · have hbx : (kv.1 == x) = false := by simpa using h.1
      simp [naming_unused_single, hbx]
    · simp

theorem unusedErrors_filter_naming (d : List (String × Token)) (u : List String) (x : String)
    (hnd : (d.map Prod.fst).Nodup) :
    ((unusedErrors d u).filter (isUnusedVarErrNaming x)).length =
      if hasKey d x = true ∧ ¬u.contains x = true then 1 else 0 := by
  induction d with
  | nil => simp [unusedErrors, hasKey]
  | cons kv rest ih =>
    simp only [List.map, List.nodup_cons] at hnd
    rw [unusedErrors_cons, List.filter_append, List.length_append]
    by_cases hk : kv.1 = x
    · subst hk
      have hrest : hasKey rest kv.1 = false := by
        cases hq : hasKey rest kv.1
        · rfl
        · exact absurd (hasKey_iff_mem rest kv.1 |>.mp hq) hnd.1
      rw [unusedErrors_naming_none rest u kv.1 hrest]
      cases hu : u.contains kv.1
      · simp [naming_unused_single, hasKey]
      · simp [hasKey]
    · have hstep : ∀ l : List LintError,
          (if u.contains kv.1 then ([] : List LintError) else
            [LintError.mk kv.2.line kv.2.column kv.2.line (kv.2.column + kv.1.length)
              (.unusedVariable kv.1) .lint .unknown []]).filter (isUnusedVarErrNaming x) = [] := by
        intro l
        cases hu : u.contains kv.1
        · have hbx : (kv.1 == x) = false := by simpa using hk
          simp [naming_unused_single, hbx]
        · simp
      rw [hstep []]
      rw [ih hnd.2]
      simp [hasKey, hk]

/-- C5 (corrected): the redundant-label pass operates on the
analyzer-visited part of the document, not on the whole document.
Writing `specBlockCountRoot · p` for the visited block-name count, lint
analysis returns exactly the document `specCheckRoot` computes — every
visited labelled block whose visited name-count is one is replaced by
the same block without its label (body recursively processed, leading
comments untouched, see `specCheckStmt`), emitting one redundant-label
advisory each, and those are exactly the redundant-label advisories of
the run; a labelled block inside a map literal is neither counted nor
rewritten.  The last conjuncts check the claim's second scenario: two
same-named separately-labelled blocks produce zero advisories and keep
both labels. -/
theorem C5_redundant_label_visited_scope (p : RootNode) :
    (analyzerAnalyze [] p).1 = (specCheckRoot (fun m => specBlockCountRoot m p) p).1 ∧
    (analyzerAnalyze [] p).2.filter isRedundantLabelErr =
      (specCheckRoot (fun m => specBlockCountRoot m p) p).2 ∧
    (Lint (strBytes "b \"x\" \x7b\n\x7d\nb \"y\" \x7b\n\x7d")).2.length = 0 ∧
    (match (Lint (strBytes "b \"x\" \x7b\n\x7d\nb \"y\" \x7b\n\x7d")).1.statements with
      | [.block _ n1 (some l1) _ _, .block _ n2 (some l2) _ _] =>
        n1.value == "b" && n2.value == "b" && l1.value == "x" && l2.value == "y"
      | _ => false) = true := by
  have hbc : ∀ m, lookupCount (collectRoot p ⟨[], []⟩).blockCounts m = specBlockCountRoot m p := by
    intro m
    have h := (collectRoot_spec p ⟨[], []⟩).1 m
    simpa [lookupCount] using h
  have hch := checkRoot_spec (collectRoot p ⟨[], []⟩).blockCounts
    (fun m => specBlockCountRoot m p) hbc p ⟨[], []⟩
  refine ⟨?_, ?_, by decide, by decide⟩
  · simp only [analyzerAnalyze]
    rw [hch]
  · simp only [analyzerAnalyze]
    rw [hch]
    simp only [List.nil_append, List.filter_append]
    rw [unusedErrors_filter_red, List.append_nil]
    exact List.filter_eq_self.mpr
      (fun e he => specCheckRoot_errs_red (fun m => specBlockCountRoot m p) p e he)

/-- C6 (corrected): the unused-variable pass marks a variable used only
through analyzer-visited references — visited `$\x7b...\x7d` variable
expressions and interpolations scanned out of visited string literals;
strings inside map-literal elements and block labels are not visited,
so "no reference anywhere" must read "no visited reference".  With that
scope the claim's two halves hold in one equation: lint analysis emits
exactly one unused-variable advisory naming `x` when `x` is declared by
a visited `var` statement and not in the visited-use set, and none
otherwise.  The final conjuncts check the claim's two concrete
scenarios end to end: `var a = 1` with no reference gives exactly one
advisory naming `a`, and the same declaration referenced only through
the interpolation `"$\x7ba\x7d"` gives zero diagnostics. -/
theorem C6_unused_variable_visited_scope (p : RootNode) (x : String) :
    ((analyzerAnalyze [] p).2.filter (isUnusedVarErrNaming x)).length =
      (if x ∈ specDeclaredRoot p ∧ x ∉ specUsedRoot p then 1 else 0) ∧
    ((Lint (strBytes "var a = 1\nx = 2")).2.length = 1 ∧
      ((Lint (strBytes "var a = 1\nx = 2")).2.filter (isUnusedVarErrNaming "a")).length = 1) ∧
    (Lint (strBytes "var a = 1\ny = \"$\x7ba\x7d\"")).2.length = 0 := by
  have hbc : ∀ m, lookupCount (collectRoot p ⟨[], []⟩).blockCounts m = specBlockCountRoot m p := by
    intro m
    have h := (collectRoot_spec p ⟨[], []⟩).1 m
    simpa [lookupCount] using h
  have hch := checkRoot_spec (collectRoot p ⟨[], []⟩).blockCounts
    (fun m => specBlockCountRoot m p) hbc p ⟨[], []⟩
  refine ⟨?_, by refine ⟨by decide, by decide⟩, by decide⟩
  simp only [analyzerAnalyze]
  rw [hch]
  simp only [List.nil_append, List.filter_append, List.length_append]
  have h1 : ((specCheckRoot (fun m => specBlockCountRoot m p) p).2.filter
      (isUnusedVarErrNaming x)) = [] := by
    rw [List.filter_eq_nil_iff]
    intro e he
    rw [red_not_unused x e
      (specCheckRoot_errs_red (fun m => specBlockCountRoot m p) p e he)]
    simp
  rw [h1]
  simp only [List.length_nil, Nat.zero_add]
  have hnd : (((collectRoot p ⟨[], []⟩).declaredVars).map Prod.fst).Nodup :=
    (collectRoot_spec p ⟨[], []⟩).2.2 (by simp)
  rw [unusedErrors_filter_naming _ _ x hnd]
  have hck : hasKey (collectRoot p ⟨[], []⟩).declaredVars x = decide (x ∈ specDeclaredRoot p) := by
    have h := (collectRoot_spec p ⟨[], []⟩).2.1 x
    simpa [hasKey] using h
  have hiff : (hasKey (collectRoot p ⟨[], []⟩).declaredVars x = true ∧
      ¬(List.foldl markUsed [] (specUsedRoot p)).contains x = true) ↔
      (x ∈ specDeclaredRoot p ∧ x ∉ specUsedRoot p) := by
    rw [hck]
    constructor
    · rintro ⟨h1, h2⟩
      exact ⟨by simpa using h1,
        fun hm => h2 (List.elem_iff.mpr ((mem_foldl_markUsed _ _ _).mpr (Or.inr hm)))⟩
    · rintro ⟨h1, h2⟩
      refine ⟨by simpa using h1, fun hc => ?_⟩
      rcases (mem_foldl_markUsed _ _ _).mp (List.elem_iff.mp hc) with h | h
      · simp at h
      · exact h2 h
  rw [if_congr hiff rfl rfl]

/-- Counterexample to the original C5: in
`b "x" \x7b\n\x7d\nm = \x7b[ k = \x7b\nb "y" \x7b\n\x7d\n\x7d ]\x7d`
the name `b` names two labelled blocks of the document, yet linting
produces exactly one redundant-label advisory: the top-level block is
rewritten (its label dropped), while the equally-labelled block buried
inside the map literal is neither counted, advised on, nor rewritten —
contradicting the claim on either reading of "whole-document count"
(count 2 should give zero advisories; and if only analyzer-counted
blocks count, the inner labelled block with count one should also be
advised and rewritten). -/
theorem C5_counterexample_map_buried_block :
    ((Lint (strBytes "b \"x\" \x7b\n\x7d\nm = \x7b[ k = \x7b\nb \"y\" \x7b\n\x7d\n\x7d ]\x7d")).2.length,
      ((Lint (strBytes "b \"x\" \x7b\n\x7d\nm = \x7b[ k = \x7b\nb \"y\" \x7b\n\x7d\n\x7d ]\x7d")).2.filter
        isRedundantLabelErr).length) = (1, 1) ∧
    (match (Lint (strBytes "b \"x\" \x7b\n\x7d\nm = \x7b[ k = \x7b\nb \"y\" \x7b\n\x7d\n\x7d ]\x7d")).1.statements with
      | [.block _ n1 none _ _,
         .assign _ _ (some (.mapLit _
           [.assign _ _ (some (.blockLit _ (.mk [.block _ n2 (some lb) _ _]))) _ _])) _ _] =>
        n1.value == "b" && n2.value == "b" && lb.value == "y"
      | _ => false) = true := by
  refine ⟨by decide, by decide⟩

/-- Counterexample to the original C6: in
`var a = 1\nm = \x7b[ s = "$\x7ba\x7d" ]\x7d` the interpolation
`$\x7ba\x7d` appears in the text of a string literal of the document
(and scans to the name `a`), yet linting still produces exactly one
unused-variable advisory naming `a`: strings inside map-literal
elements are never scanned by the analyzer. -/
theorem C6_counterexample_interpolation_in_map :
    scanVars ("$\x7ba\x7d" : String).data = ["a"] ∧
    ((Lint (strBytes "var a = 1\nm = \x7b[ s = \"$\x7ba\x7d\" ]\x7d")).2.length,
      ((Lint (strBytes "var a = 1\nm = \x7b[ s = \"$\x7ba\x7d\" ]\x7d")).2.filter
        (isUnusedVarErrNaming "a")).length) = (1, 1) := by
  refine ⟨by decide, by decide⟩

/-- The package-level `Decode` from `wanf.go`: on zero-length input it
returns a nil error at once, before `NewDecoder` is even constructed
and before anything can write through the target pointer; otherwise
the rest of the pipeline runs. The target struct is threaded as a
value, the outcome is the returned error (`none` = nil) paired with
the target's final state, and the whole non-empty branch —
`NewDecoder` followed by `dec.Decode`, which may fail or mutate the
target arbitrarily — is abstracted as the function `rest`, so that
whatever that code does is covered. -/
def goDecode (rest : List Byte → GoValue → Option String × GoValue)
    (data : List Byte) (target : GoValue) : Option String × GoValue :=
  if data.length = 0 then (none, target)
  else rest data target

/-- C10: `Decode` on an empty byte slice returns nil and leaves every
field of the target struct unchanged, whatever the decoding pipeline
behind the early return would have done: the zero-length check fires
first, so no error is produced and the target is returned exactly as
it came in. -/
theorem C10_decode_empty_input_frame (rest : List Byte → GoValue → Option String × GoValue)
    (target : GoValue) :
    goDecode rest [] target = (none, target) := rfl

end Wanf
